import Mathlib

/-!
A shallow embedding of the Fiwix buffer cache (`fs/buffer.c`), page cache
(`mm/page.c`) and minix file operations (`fs/minix/file.c`).

Modelling conventions:
* machine integers become `Nat` (ids, sizes, offsets) or `Int` (error codes,
  counters that the C code can drive below zero);
* memory frames become total functions `Nat → Nat` (byte index to byte value),
  a buffer's possibly-unallocated frame is an `Option (Nat → Nat)`;
* the doubly linked hash chains are represented per bucket as a Lean list
  ordered from the chain head (`insert_to_hash` puts the new entry at the
  chain head, which is `List.cons`; `remove_from_hash` unlinks one node,
  which is `List.erase`);
* the doubly circular buffer free list with its head pointer is represented
  as a Lean list whose head is `buffer_head` and whose order follows the
  `next_free` links (the list is the set of entries reachable from
  `buffer_head`); the C tail insertion at `head->prev` is `l ++ [b]`, and
  the head rewiring for a not-`BUFFER_VALID` entry makes that insertion a
  `b :: l`.  `remove_from_free_list` relies, exactly like the C code, on the
  caller only removing entries that are actually linked, and reproduces the
  C's final head-nulling: when the removal leaves exactly one linked entry
  the head becomes `NULL`, so the list empties and that entry is orphaned;
* the buffer dirty list is kept at the pointer level (`prev_dirty`,
  `next_dirty`, `buffer_dirty_head`) because `insert_on_dirty_list` detects
  membership by `prev || next`, and that test is observable;
* each top-level operation is one atomic state transformer; the
  `sleep`/`wakeup` retry loops of the C code are collapsed: a path on which
  the sequential caller would sleep makes the operation return `none`;
* device drivers (`get_device`, `read_block`, `write_block`), `bmap` and the
  frame allocator `kmalloc`/`kfree` are external to the three source files;
  they are parameters of the model (`Cfg`), and every issued device call is
  recorded in a ghost `log`.  `reclaim_buffers` additionally records each
  frame it frees in the ghost `freedFrames` list.

`PAGE_SIZE` is 4096: `page_init` converts page counts to KiB with `<<= 2`
(`mm/page.c`), which pins four KiB per page.
-/

namespace Fiwix

/-- `PAGE_SIZE`: 4096 bytes, as pinned by the `<<= 2` page-to-KiB conversion
in `page_init`. -/
def PAGE_SIZE : Nat := 4096

/-- A device call issued by the cache, recorded in the ghost log. -/
inductive DevEvent where
  | readB (dev block size : Nat)
  | writeB (dev block size : Nat)
deriving DecidableEq, Repr

/-- One entry of the buffer table (`struct buffer`).  The hash and free-list
links live in the containing state; the dirty-list links are kept here
because `insert_on_dirty_list` inspects them. -/
structure Buffer where
  dev : Nat := 0
  block : Nat := 0
  size : Nat := 0
  data : Option (Nat → Nat) := none
  valid : Bool := false
  dirty : Bool := false
  locked : Bool := false
  prev_dirty : Option Nat := none
  next_dirty : Option Nat := none

/-- One entry of the page table (`struct page`).  `pdata` is the content of
the frame at the page's fixed kernel-virtual address. -/
structure Page where
  pdata : Nat → Nat := fun _ => 0
  inode : Nat := 0
  dev : Nat := 0
  offset : Nat := 0
  count : Nat := 0
  locked : Bool := false
  reserved : Bool := false

/-- The inode fields the three source files consume (`i_size`, `i->dev`,
`i->sb->s_blocksize`).  Inodes are keyed by their inode number. -/
structure InodeD where
  idev : Nat := 0
  i_size : Nat := 0
  blocksize : Nat := 0

/-- The whole mutable state of the two caches. -/
structure St where
  bufs : Nat → Buffer
  freeList : List Nat
  dirtyHead : Option Nat
  hashT : Nat → List Nat
  kbuffers : Int
  kdirty : Int
  pages : Nat → Page
  pageFree : List Nat
  pageHash : Nat → List Nat
  kcached : Int
  inodes : Nat → InodeD
  allocSupply : Nat
  log : List DevEvent
  freedFrames : List Nat

/-- External collaborators of the three files: table sizes, the reclaim
target `NR_BUF_RECLAIM`, the block device layer and the filesystem `bmap`. -/
structure Cfg where
  numBuffers : Nat
  nrBufHash : Nat
  numPages : Nat
  nrPageHash : Nat
  nrBufReclaim : Nat
  allocSupply : Nat
  registered : Nat → Bool
  hasRead : Nat → Bool
  hasWrite : Nat → Bool
  readResult : Nat → Nat → Int
  readData : Nat → Nat → Nat → Nat
  writeResult : Nat → Nat → Int
  bmap : Nat → Nat → Bool → Int

/-- Update one buffer-table slot. -/
def updBuf (s : St) (i : Nat) (f : Buffer → Buffer) : St :=
  { s with bufs := fun j => if j = i then f (s.bufs j) else s.bufs j }

/-- Update one page-table slot. -/
def updPage (s : St) (i : Nat) (f : Page → Page) : St :=
  { s with pages := fun j => if j = i then f (s.pages j) else s.pages j }

/-- `memcpy_b(dst + pos, src, n)` on byte functions. -/
def memcpy_b (dst : Nat → Nat) (pos : Nat) (src : Nat → Nat) (n : Nat) :
    Nat → Nat :=
  fun k => if pos ≤ k ∧ k < pos + n then src (k - pos) else dst k

/-- Read a possibly-unallocated frame (the C code would dereference it). -/
def dataD (d : Option (Nat → Nat)) : Nat → Nat :=
  d.getD fun _ => 0

namespace BufferC

/-- `BUFFER_HASH(dev, block)`. -/
def BUFFER_HASH (cfg : Cfg) (dev block : Nat) : Nat :=
  (dev ^^^ block) % cfg.nrBufHash

/-- `insert_to_hash`: link the buffer at the head of its bucket's chain. -/
def insert_to_hash (cfg : Cfg) (s : St) (b : Nat) : St :=
  let i := BUFFER_HASH cfg (s.bufs b).dev (s.bufs b).block
  { s with hashT := fun j => if j = i then b :: s.hashT j else s.hashT j }

/-- `remove_from_hash`: unlink the buffer from the bucket of its current
key; a no-op when the chain does not contain it. -/
def remove_from_hash (cfg : Cfg) (s : St) (b : Nat) : St :=
  let i := BUFFER_HASH cfg (s.bufs b).dev (s.bufs b).block
  { s with hashT := fun j => if j = i then (s.hashT j).erase b else s.hashT j }

/-- The then-branch body of `insert_on_dirty_list`'s `if(buffer_dirty_head)`:
`buf->next_dirty = buffer_dirty_head; buffer_dirty_head->prev_dirty = buf;`. -/
def iodl_link (s : St) (b : Nat) : St :=
  match s.dirtyHead with
  | some h =>
      let s' := updBuf s b fun x => { x with next_dirty := some h }
      updBuf s' h fun x => { x with prev_dirty := some b }
  | none => s

/-- `insert_on_dirty_list`: a buffer whose `prev_dirty` or `next_dirty` link
is set is taken to be already on the list; otherwise the buffer is linked in
at the head and `kstat.dirty` grows by one page worth of KiB. -/
def insert_on_dirty_list (s : St) (b : Nat) : St :=
  if (s.bufs b).prev_dirty.isSome || (s.bufs b).next_dirty.isSome then s
  else
    let s1 := iodl_link s b
    { s1 with dirtyHead := some b, kdirty := s1.kdirty + (PAGE_SIZE / 1024 : Nat) }

/-- `buf->next_dirty->prev_dirty = buf->prev_dirty` (when `next` is set). -/
def rfdl_fix_next (s : St) (b : Nat) : St :=
  match (s.bufs b).next_dirty with
  | some n => updBuf s n fun x => { x with prev_dirty := (s.bufs b).prev_dirty }
  | none => s

/-- `buf->prev_dirty->next_dirty = buf->next_dirty` (when `prev` is set). -/
def rfdl_fix_prev (s : St) (b : Nat) : St :=
  match (s.bufs b).prev_dirty with
  | some p => updBuf s p fun x => { x with next_dirty := (s.bufs b).next_dirty }
  | none => s

/-- `if(buf == buffer_dirty_head) buffer_dirty_head = buf->next_dirty`. -/
def rfdl_fix_head (s : St) (b : Nat) : St :=
  if s.dirtyHead = some b then { s with dirtyHead := (s.bufs b).next_dirty }
  else s

/-- `remove_from_dirty_list`: pointer surgery in source order, then clear the
links, clear `BUFFER_DIRTY` and shrink `kstat.dirty`. -/
def remove_from_dirty_list (s : St) (b : Nat) : St :=
  let s3 := rfdl_fix_head (rfdl_fix_prev (rfdl_fix_next s b) b) b
  let s4 := updBuf s3 b fun x =>
    { x with prev_dirty := none, next_dirty := none, dirty := false }
  { s4 with kdirty := s4.kdirty - (PAGE_SIZE / 1024 : Nat) }

/-- `insert_on_free_list`: tail insertion at `buffer_head->prev`, except that
a not-`BUFFER_VALID` entry rewires `buffer_head` to itself, i.e. goes to the
head. -/
def insert_on_free_list (s : St) (b : Nat) : St :=
  match s.freeList with
  | [] => { s with freeList := [b] }
  | l =>
      if (s.bufs b).valid then { s with freeList := l ++ [b] }
      else { s with freeList := b :: l }

/-- `remove_from_free_list`: unlink the entry (the C code relies on the
caller passing a linked entry).  After the unlink, `buffer.c:157-159` nulls
`buffer_head` whenever the head points at itself — i.e. whenever exactly one
entry remains linked — which empties the free list and permanently orphans
that remaining entry. -/
def remove_from_free_list (s : St) (b : Nat) : St :=
  match s.freeList with
  | [] => s
  | l =>
      if (l.erase b).length = 1 then { s with freeList := [] }
      else { s with freeList := l.erase b }

/-- `get_free_buffer`: `none` when the free list is empty (C returns `NULL`)
or its head is locked (the sequential caller would sleep); otherwise pop the
head and lock it. -/
def get_free_buffer (s : St) : Option (Nat × St) :=
  match s.freeList with
  | [] => none
  | h :: _ =>
      if (s.bufs h).locked then none
      else some (h, updBuf (remove_from_free_list s h) h fun x => { x with locked := true })

/-- `sync_one_buffer`: resolve the device, call `write_block` (recorded in
the log), and only on a non-negative result remove the buffer from the dirty
list.  An unregistered device or a missing method only logs a warning. -/
def sync_one_buffer (cfg : Cfg) (s : St) (b : Nat) : St :=
  if cfg.registered (s.bufs b).dev then
    if cfg.hasWrite (s.bufs b).dev then
      let s' := { s with
        log := s.log ++ [DevEvent.writeB (s.bufs b).dev (s.bufs b).block (s.bufs b).size] }
      if cfg.writeResult (s'.bufs b).dev (s'.bufs b).block < 0 then s'
      else remove_from_dirty_list s' b
    else s
  else s

/-- `search_buffer_hash`: linear scan of the key's bucket for an exact
`(dev, block, size)` match. -/
def search_buffer_hash (cfg : Cfg) (s : St) (dev block size : Nat) : Option Nat :=
  (s.hashT (BUFFER_HASH cfg dev block)).find? fun b =>
    (s.bufs b).dev == dev && (s.bufs b).block == block && (s.bufs b).size == size

/-- The tail of `getblk`'s miss path: remove the victim from its old hash
chain, rebind its key, insert it into the new chain and clear
`BUFFER_VALID`. -/
def getblk_rebind (cfg : Cfg) (s : St) (b : Nat) (dev block size : Nat) :
    Option Nat × St :=
  let s1 := remove_from_hash cfg s b
  let s2 := updBuf s1 b fun x => { x with dev := dev, block := block, size := size }
  let s3 := insert_to_hash cfg s2 b
  (some b, updBuf s3 b fun x => { x with valid := false })

/-- `brelse`: a dirty buffer is (idempotently, by the `prev||next` test)
put on the dirty list, the buffer goes back on the free list and is
unlocked. -/
def brelse (s : St) (b : Nat) : St :=
  let s1 := if (s.bufs b).dirty then insert_on_dirty_list s b else s
  let s2 := insert_on_free_list s1 b
  updBuf s2 b fun x => { x with locked := false }

/-- `getblk`: hash hit locks the entry and removes it from the free list
(`none` when it is locked: the caller would sleep).  On a miss, take the
free-list head; write back a dirty victim; otherwise allocate a frame for a
frameless victim, releasing the entry and returning a `NULL` buffer when the
allocator fails; finally rebind the key. -/
def getblk (cfg : Cfg) (s : St) (dev block size : Nat) : Option (Option Nat × St) :=
  match search_buffer_hash cfg s dev block size with
  | some b =>
      if (s.bufs b).locked then none
      else
        let s1 := updBuf s b fun x => { x with locked := true }
        some (some b, remove_from_free_list s1 b)
  | none =>
      match get_free_buffer s with
      | none => none
      | some (b, s1) =>
          if (s1.bufs b).dirty then
            some (getblk_rebind cfg (sync_one_buffer cfg s1 b) b dev block size)
          else if (s1.bufs b).data.isSome then
            some (getblk_rebind cfg s1 b dev block size)
          else if s1.allocSupply = 0 then
            some (none, brelse s1 b)
          else
            let s2 := updBuf s1 b fun x => { x with data := some fun _ => 0 }
            let s3 := { s2 with
              allocSupply := s2.allocSupply - 1,
              kbuffers := s2.kbuffers + (PAGE_SIZE / 1024 : Nat) }
            some (getblk_rebind cfg s3 b dev block size)

/-- `bread`: resolve the device (`NULL` when unregistered), acquire the
block, read it from the device when not `BUFFER_VALID` (the call is logged,
and on success the frame takes the device bytes and the buffer turns valid),
and release the buffer returning `NULL` when it is still not valid. -/
def bread (cfg : Cfg) (s : St) (dev block size : Nat) : Option (Option Nat × St) :=
  if cfg.registered dev then
    match getblk cfg s dev block size with
    | none => none
    | some (none, s1) => some (none, s1)
    | some (some b, s1) =>
        let s2 :=
          if (s1.bufs b).valid then s1
          else if cfg.hasRead dev then
            let sl := { s1 with log := s1.log ++ [DevEvent.readB dev block size] }
            if 0 ≤ cfg.readResult dev block then
              updBuf sl b fun x =>
                { x with
                  data := some (memcpy_b (dataD x.data) 0 (cfg.readData dev block) size),
                  valid := true }
            else sl
          else s1
        if (s2.bufs b).valid then some (some b, s2)
        else some (none, brelse s2 b)
  else some (none, s)

/-- `bwrite`: mark `BUFFER_DIRTY | BUFFER_VALID` and release. -/
def bwrite (s : St) (b : Nat) : St :=
  brelse (updBuf s b fun x => { x with dirty := true, valid := true }) b

/-- The traversal of `sync_buffers`: the `next` pointer is saved before the
body runs; a matching entry is locked (`none` if already locked: the caller
would sleep in `buffer_wait`), written back and unlocked. -/
def sync_loop (cfg : Cfg) (dev : Nat) : Nat → Option Nat → St → Option St
  | _, none, s => some s
  | 0, some _, _ => none
  | fuel + 1, some b, s =>
      let nxt := (s.bufs b).next_dirty
      if dev = 0 ∨ (s.bufs b).dev = dev then
        if (s.bufs b).locked then none
        else
          let s1 := updBuf s b fun x => { x with locked := true }
          let s2 := sync_one_buffer cfg s1 b
          let s3 := updBuf s2 b fun x => { x with locked := false }
          sync_loop cfg dev fuel nxt s3
      else sync_loop cfg dev fuel nxt s

/-- `sync_buffers(dev)`: walk the dirty list (device `0` matches every
entry).  `fuel` bounds the pointer walk; the C loop has no bound and can
spin on a corrupted list, which the model reports as `none`. -/
def sync_buffers (cfg : Cfg) (dev fuel : Nat) (s : St) : Option St :=
  sync_loop cfg dev fuel s.dirtyHead s

/-- The body of `invalidate_buffers`' table scan for one entry: an unlocked
entry of the device is locked by `buffer_wait`, removed from the hash and
stripped of `BUFFER_VALID | BUFFER_LOCKED`. -/
def inv_step (cfg : Cfg) (dev : Nat) (s' : St) (b : Nat) : St :=
  if ¬(s'.bufs b).locked ∧ (s'.bufs b).dev = dev then
    let s1 := remove_from_hash cfg s' b
    updBuf s1 b fun x => { x with valid := false, locked := false }
  else s'

/-- `invalidate_buffers(dev)`: scan the whole table. -/
def invalidate_buffers (cfg : Cfg) (dev : Nat) (s : St) : St :=
  (List.range cfg.numBuffers).foldl (inv_step cfg dev) s

/-- The head of each `reclaim_buffers` round once the victim is popped:
write back a dirty victim, then force `BUFFER_VALID` so that its release
goes to the free-list tail. -/
def reclaim_body (cfg : Cfg) (s1 : St) (b : Nat) : St :=
  let s2 := if (s1.bufs b).dirty then sync_one_buffer cfg s1 b else s1
  updBuf s2 b fun x => { x with valid := true }

/-- The frame-freeing part of a `reclaim_buffers` round: `kfree` the frame
(ghost-recorded in `freedFrames`), drop the entry from the hash, shrink
`kstat.buffers`. -/
def reclaim_free (cfg : Cfg) (s3 : St) (b : Nat) : St :=
  let s4 := updBuf s3 b fun x => { x with data := none }
  let s5 := remove_from_hash cfg s4 b
  { s5 with
    kbuffers := s5.kbuffers - (PAGE_SIZE / 1024 : Nat),
    freedFrames := s5.freedFrames ++ [b] }

/-- The loop of `reclaim_buffers`.  Each round pops the free-list head,
writes back a dirty victim, forces `BUFFER_VALID` so the release goes to the
tail, stops after a full cycle (the `first` witness reappears), frees the
frame of an entry that has one, unhashes it, and stops at `NR_BUF_RECLAIM`
frames. -/
def reclaim_loop (cfg : Cfg) : Nat → Option Nat → Nat → St → Option (St × Nat)
  | 0, _, _, _ => none
  | fuel + 1, first, reclaimed, s =>
      match get_free_buffer s with
      | none => none
      | some (b, s1) =>
          let s3 := reclaim_body cfg s1 b
          if first = some b then some (brelse s3 b, reclaimed)
          else
            let first' := match first with | none => some b | some x => some x
            if (s3.bufs b).data.isSome then
              let s6 := reclaim_free cfg s3 b
              if reclaimed + 1 = cfg.nrBufReclaim then some (brelse s6 b, reclaimed + 1)
              else reclaim_loop cfg fuel first' (reclaimed + 1) (brelse s6 b)
            else reclaim_loop cfg fuel first' reclaimed (brelse s3 b)

/-- `reclaim_buffers`: run the cycle; the final wakeups have no state
effect.  Returns the state and the number of reclaimed frames. -/
def reclaim_buffers (cfg : Cfg) (fuel : Nat) (s : St) : Option (St × Nat) :=
  reclaim_loop cfg fuel none 0 s

/-- The zeroed state before `buffer_init` runs (both tables `memset` to
zero, empty lists and counters). -/
def emptySt : St where
  bufs := fun _ => {}
  freeList := []
  dirtyHead := none
  hashT := fun _ => []
  kbuffers := 0
  kdirty := 0
  pages := fun _ => {}
  pageFree := []
  pageHash := fun _ => []
  kcached := 0
  inodes := fun _ => {}
  allocSupply := 0
  log := []
  freedFrames := []

/-- `buffer_init`: place every buffer of the zeroed table on the free list
(each entry is `!VALID`, so each insertion lands at the head).  The frame
allocator starts with the configured number of frames available. -/
def buffer_init (cfg : Cfg) : St :=
  (List.range cfg.numBuffers).foldl (fun s b => insert_on_free_list s b)
    { emptySt with allocSupply := cfg.allocSupply }

end BufferC

namespace PageC

/-- `-ENOMEM`. -/
def ENOMEM : Int := 12
/-- `-EIO`. -/
def EIO : Int := 5

/-- `PAGE_HASH(inode, offset)`. -/
def PAGE_HASH (cfg : Cfg) (inode offset : Nat) : Nat :=
  (inode ^^^ offset) % cfg.nrPageHash

/-- `mm/page.c` `insert_to_hash`: chain-head insertion plus the
`kstat.cached` increment. -/
def insert_to_hash (cfg : Cfg) (s : St) (p : Nat) : St :=
  let i := PAGE_HASH cfg (s.pages p).inode (s.pages p).offset
  { s with
    pageHash := fun j => if j = i then p :: s.pageHash j else s.pageHash j,
    kcached := s.kcached + (PAGE_SIZE / 1024 : Nat) }

/-- `mm/page.c` `remove_from_hash`: pages without an inode binding are not
hashed; `kstat.cached` shrinks only when the page is found in its chain. -/
def remove_from_hash (cfg : Cfg) (s : St) (p : Nat) : St :=
  if (s.pages p).inode = 0 then s
  else
    let i := PAGE_HASH cfg (s.pages p).inode (s.pages p).offset
    if p ∈ s.pageHash i then
      { s with
        pageHash := fun j => if j = i then (s.pageHash j).erase p else s.pageHash j,
        kcached := s.kcached - (PAGE_SIZE / 1024 : Nat) }
    else s

/-- `mm/page.c` `insert_on_free_list`: plain tail insertion (the page free
list has no validity trick); `kstat.free_pages` is the list length. -/
def insert_on_free_list (s : St) (p : Nat) : St :=
  { s with pageFree := s.pageFree ++ [p] }

/-- `mm/page.c` `remove_from_free_list`, guarded by `kstat.free_pages`. -/
def remove_from_free_list (s : St) (p : Nat) : St :=
  match s.pageFree with
  | [] => s
  | l => { s with pageFree := l.erase p }

/-- `get_free_page`: `none` when the free list stays empty (the C caller
wakes kswapd, sleeps and reports out of memory); otherwise pop the head,
evict its old hash binding and hand it out with `count = 1` and a cleared
key. -/
def get_free_page (cfg : Cfg) (s : St) : Option (Nat × St) :=
  match s.pageFree with
  | [] => none
  | h :: _ =>
      let s1 := remove_from_free_list s h
      let s2 := remove_from_hash cfg s1 h
      some (h, updPage s2 h fun x => { x with count := 1, inode := 0, offset := 0, dev := 0 })

/-- `search_page_hash`: scan the bucket for `(inode, offset, dev)`; on a hit
a free page (count 0) leaves the free list, and the reference count grows. -/
def search_page_hash (cfg : Cfg) (s : St) (ino offset : Nat) : Option (Nat × St) :=
  match (s.pageHash (PAGE_HASH cfg ino offset)).find? (fun p =>
      (s.pages p).inode == ino && (s.pages p).offset == offset &&
      (s.pages p).dev == (s.inodes ino).idev) with
  | none => none
  | some p =>
      let s1 := if (s.pages p).count = 0 then remove_from_free_list s p else s
      some (p, updPage s1 p fun x => { x with count := x.count + 1 })

/-- `release_page`: `none` models the `PANIC` on an invalid index.  A page
already at count 0 is only logged.  When the count reaches 0 the page goes
to the free-list tail, except that a page with no inode binding becomes the
new head. -/
def release_page (cfg : Cfg) (s : St) (p : Nat) : Option St :=
  if p < cfg.numPages then
    if (s.pages p).count = 0 then some s
    else
      let s1 := updPage s p fun x => { x with count := x.count - 1 }
      if 0 < (s1.pages p).count then some s1
      else
        let s2 := insert_on_free_list s1 p
        if (s2.pages p).inode = 0 then
          some { s2 with pageFree := p :: (s2.pageFree.erase p) }
        else some s2
  else none

/-- `update_page_cache`: patch the one cached page overlapping the written
region, when present; the page is locked around the `memcpy_b` and then
released (`none` only on the collapsed sleep of `page_lock`). -/
def update_page_cache (cfg : Cfg) (s : St) (ino offset : Nat)
    (src : Nat → Nat) (count : Nat) : Option St :=
  let poffset := offset % PAGE_SIZE
  let offA := offset - poffset
  let bytes := PAGE_SIZE - poffset
  if count ≠ 0 then
    let bytes := min bytes count
    match search_page_hash cfg s ino offA with
    | none => some s
    | some (p, s1) =>
        if (s1.pages p).locked then none
        else
          let s2 := updPage s1 p fun x => { x with locked := true }
          let s3 := updPage s2 p fun x =>
            { x with pdata := memcpy_b x.pdata poffset src bytes }
          let s4 := updPage s3 p fun x => { x with locked := false }
          release_page cfg s4 p
  else some s

/-- The per-block loop of `bread_page`: `bmap FOR_READING` each block of the
page, zero-fill holes, copy read blocks into the frame; then bind and hash
the page when it is read-only or shared.  Outer `none` is a collapsed sleep
inside `bread`; the `Bool` is C's nonzero error return. -/
def bread_page_loop (cfg : Cfg) (p ino offset : Nat) (protWrite shared : Bool) :
    Nat → Nat → St → Option (Bool × St)
  | 0, _, _ => none
  | fuel + 1, size_read, s =>
      if size_read < PAGE_SIZE then
        let blksize := (s.inodes ino).blocksize
        let blk := cfg.bmap ino (offset + size_read) false
        if blk < 0 then some (true, s)
        else if blk ≠ 0 then
          match BufferC.bread cfg s (s.inodes ino).idev blk.toNat blksize with
          | none => none
          | some (none, s1) => some (true, s1)
          | some (some b, s1) =>
              let s2 := updPage s1 p fun x =>
                { x with pdata := memcpy_b x.pdata size_read (dataD ((s1.bufs b).data)) blksize }
              bread_page_loop cfg p ino offset protWrite shared fuel
                (size_read + blksize) (BufferC.brelse s2 b)
        else
          let s1 := updPage s p fun x =>
            { x with pdata := memcpy_b x.pdata size_read (fun _ => 0) blksize }
          bread_page_loop cfg p ino offset protWrite shared fuel (size_read + blksize) s1
      else
        if ¬protWrite ∨ shared then
          let s1 := updPage s p fun x =>
            { x with inode := ino, offset := offset, dev := (s.inodes ino).idev }
          some (false, insert_to_hash cfg s1 p)
        else some (false, s)

/-- `bread_page(pg, i, offset, prot, flags)`. -/
def bread_page (cfg : Cfg) (s : St) (p ino offset : Nat)
    (protWrite shared : Bool) : Option (Bool × St) :=
  bread_page_loop cfg p ino offset protWrite shared (PAGE_SIZE + 1) 0 s

/-- Result of `file_read`: return value, the bytes copied to the caller's
buffer, the final descriptor offset and the final state. -/
structure FRes where
  ret : Int
  out : Nat → Nat
  off : Nat
  st : St

/-- The loop of `file_read`.  Each round re-clamps the remaining count to
end-of-file, looks the page up in the hash and otherwise allocates a frame
(`kmalloc`, modelled from the spec as taking a frame from the page
allocator) and fills it with `bread_page`; the page is locked, copied out,
released (`kfree`) and unlocked. -/
def file_read_loop (cfg : Cfg) (ino : Nat) :
    Nat → Nat → Nat → Nat → (Nat → Nat) → St → Option FRes
  | 0, _, _, _, _, _ => none
  | fuel + 1, off, total, count, out, s =>
      let count1 := if off + count > (s.inodes ino).i_size
        then (s.inodes ino).i_size - off else count
      if count1 = 0 then some ⟨total, out, off, s⟩
      else
        let poffset := off % PAGE_SIZE
        let step : Nat → St → Option FRes := fun p s1 =>
          if (s1.pages p).locked then none
          else
            let s2 := updPage s1 p fun x => { x with locked := true }
            let bytes := min (PAGE_SIZE - poffset) count1
            let out' := fun j =>
              if total ≤ j ∧ j < total + bytes then (s2.pages p).pdata (poffset + (j - total))
              else out j
            match release_page cfg s2 p with
            | none => none
            | some s3 =>
                let s4 := updPage s3 p fun x => { x with locked := false }
                file_read_loop cfg ino fuel (off + bytes) (total + bytes)
                  (count1 - bytes) out' s4
        match search_page_hash cfg s ino (off - poffset) with
        | some (p, s1) => step p s1
        | none =>
            /- `kmalloc()`.  Modelled from the spec: the three source files
            do not contain the frame allocator; §4.5 has `file_read` on a
            miss "allocate a fresh frame via the underlying allocator,
            derive the owning page entry", which is the page-pool
            acquisition `get_free_page`. -/
            match get_free_page cfg s with
            | none => some ⟨-ENOMEM, out, off, s⟩
            | some (p, s1) =>
                match bread_page cfg s1 p ino (off - poffset) false true with
                | none => none
                | some (true, s2) =>
                    /- `kfree(addr)`.  Modelled from the spec: releasing the
                    just-allocated frame is the page release operation. -/
                    match release_page cfg s2 p with
                    | none => none
                    | some s3 => some ⟨- EIO, out, off, s3⟩
                | some (false, s2) => step p s2

/-- `file_read(i, fd_table, buffer, count)`: clamp the descriptor offset to
the file size, then run the copy loop.  The returned `out` function holds
the bytes placed in the caller's buffer (indices `0..ret-1`). -/
def file_read (cfg : Cfg) (s : St) (ino fdoff count : Nat) : Option FRes :=
  let off0 := if fdoff > (s.inodes ino).i_size then (s.inodes ino).i_size else fdoff
  file_read_loop cfg ino (count + 1) off0 0 count (fun _ => 0) s

end PageC

namespace MinixFileC

/-- Result of `minix_file_write`: return value, final descriptor offset,
final state. -/
structure WRes where
  ret : Int
  off : Nat
  st : St

/-- The loop of `minix_file_write`: per chunk, `bmap FOR_WRITING` (errors
abort with the mapping error), `bread` the block (`-EIO` on failure), patch
the buffer frame, patch any cached page via `update_page_cache`, and
`bwrite`. -/
def minix_file_write_loop (cfg : Cfg) (ino : Nat) (src : Nat → Nat) (count : Nat) :
    Nat → Nat → Nat → St → Option WRes
  | 0, _, _, _ => none
  | fuel + 1, total, off, s =>
      if total < count then
        let blksize := (s.inodes ino).blocksize
        let boffset := off % blksize
        let blk := cfg.bmap ino off true
        if blk < 0 then some ⟨blk, off, s⟩
        else
          let bytes := min (blksize - boffset) (count - total)
          match BufferC.bread cfg s (s.inodes ino).idev blk.toNat blksize with
          | none => none
          | some (none, s1) => some ⟨- PageC.EIO, off, s1⟩
          | some (some b, s1) =>
              let s2 := updBuf s1 b fun x =>
                { x with data := some (memcpy_b (dataD x.data) boffset
                    (fun j => src (total + j)) bytes) }
              match PageC.update_page_cache cfg s2 ino off
                  (fun j => src (total + j)) bytes with
              | none => none
              | some s3 =>
                  minix_file_write_loop cfg ino src count fuel
                    (total + bytes) (off + bytes) (BufferC.bwrite s3 b)
      else
        let s1 :=
          if off > (s.inodes ino).i_size then
            { s with inodes := fun j =>
                if j = ino then { s.inodes j with i_size := off } else s.inodes j }
          else s
        some ⟨total, off, s1⟩

/-- `minix_file_write(i, fd_table, buffer, count)` (`O_APPEND` starts at the
file size). -/
def minix_file_write (cfg : Cfg) (s : St) (ino fdoff : Nat) (oAppend : Bool)
    (src : Nat → Nat) (count : Nat) : Option WRes :=
  let off0 := if oAppend then (s.inodes ino).i_size else fdoff
  minix_file_write_loop cfg ino src count (count + 1) 0 off0 s

end MinixFileC

/-! ### Frame lemmas: which parts of the state each primitive leaves alone -/

/-- The state components that the dirty-list surgery, the write-back and the
log never touch: free list, hash table, `kstat.buffers`, and each buffer's
key, frame, `VALID` and `LOCKED` bits. -/
def SameCore (s s' : St) : Prop :=
  s'.freeList = s.freeList ∧ s'.hashT = s.hashT ∧ s'.kbuffers = s.kbuffers ∧
  ∀ x, (s'.bufs x).dev = (s.bufs x).dev ∧ (s'.bufs x).block = (s.bufs x).block ∧
    (s'.bufs x).size = (s.bufs x).size ∧ (s'.bufs x).data = (s.bufs x).data ∧
    (s'.bufs x).valid = (s.bufs x).valid ∧ (s'.bufs x).locked = (s.bufs x).locked ∧
    ((s'.bufs x).dirty = true → (s.bufs x).dirty = true)

theorem SameCore.refl (s : St) : SameCore s s :=
  ⟨rfl, rfl, rfl, fun _ => ⟨rfl, rfl, rfl, rfl, rfl, rfl, fun h => h⟩⟩

theorem SameCore.trans {s1 s2 s3 : St} (h : SameCore s1 s2) (h' : SameCore s2 s3) :
    SameCore s1 s3 := by
  obtain ⟨a, b, c, d⟩ := h
  obtain ⟨a', b', c', d'⟩ := h'
  refine ⟨a'.trans a, b'.trans b, c'.trans c, fun x => ?_⟩
  obtain ⟨e1, e2, e3, e4, e5, e6, e7⟩ := d x
  obtain ⟨f1, f2, f3, f4, f5, f6, f7⟩ := d' x
  exact ⟨f1.trans e1, f2.trans e2, f3.trans e3, f4.trans e4, f5.trans e5, f6.trans e6,
    fun h => e7 (f7 h)⟩

theorem updBuf_bufs (s : St) (i : Nat) (f : Buffer → Buffer) (x : Nat) :
    (updBuf s i f).bufs x = if x = i then f (s.bufs x) else s.bufs x := rfl

/-- A buffer update that only touches the dirty-list fields keeps the core. -/
theorem sameCore_updBuf (s : St) (i : Nat) (f : Buffer → Buffer)
    (h : ∀ x, (f x).dev = x.dev ∧ (f x).block = x.block ∧ (f x).size = x.size ∧
      (f x).data = x.data ∧ (f x).valid = x.valid ∧ (f x).locked = x.locked ∧
      ((f x).dirty = true → x.dirty = true)) :
    SameCore s (updBuf s i f) := by
  refine ⟨rfl, rfl, rfl, fun x => ?_⟩
  simp only [updBuf_bufs]
  split
  · exact h _
  · exact ⟨rfl, rfl, rfl, rfl, rfl, rfl, fun h => h⟩

theorem sameCore_iodl_link (s : St) (b : Nat) : SameCore s (BufferC.iodl_link s b) := by
  unfold BufferC.iodl_link
  cases h : s.dirtyHead <;> simp only [h]
  · exact SameCore.refl s
  · refine SameCore.trans (sameCore_updBuf _ _ _ ?_) (sameCore_updBuf _ _ _ ?_) <;>
      exact fun x => ⟨rfl, rfl, rfl, rfl, rfl, rfl, fun h => h⟩

theorem sameCore_insert_on_dirty_list (s : St) (b : Nat) :
    SameCore s (BufferC.insert_on_dirty_list s b) := by
  unfold BufferC.insert_on_dirty_list
  split
  · exact SameCore.refl s
  · exact SameCore.trans (sameCore_iodl_link s b) ⟨rfl, rfl, rfl, fun _ => ⟨rfl, rfl, rfl, rfl, rfl, rfl, fun h => h⟩⟩

theorem sameCore_rfdl_fix_next (s : St) (b : Nat) : SameCore s (BufferC.rfdl_fix_next s b) := by
  unfold BufferC.rfdl_fix_next
  cases h : (s.bufs b).next_dirty <;> simp only [h]
  · exact SameCore.refl s
  · refine sameCore_updBuf _ _ _ ?_
    exact fun x => ⟨rfl, rfl, rfl, rfl, rfl, rfl, fun h => h⟩

theorem sameCore_rfdl_fix_prev (s : St) (b : Nat) : SameCore s (BufferC.rfdl_fix_prev s b) := by
  unfold BufferC.rfdl_fix_prev
  cases h : (s.bufs b).prev_dirty <;> simp only [h]
  · exact SameCore.refl s
  · refine sameCore_updBuf _ _ _ ?_
    exact fun x => ⟨rfl, rfl, rfl, rfl, rfl, rfl, fun h => h⟩

theorem sameCore_rfdl_fix_head (s : St) (b : Nat) : SameCore s (BufferC.rfdl_fix_head s b) := by
  unfold BufferC.rfdl_fix_head
  split
  · exact ⟨rfl, rfl, rfl, fun _ => ⟨rfl, rfl, rfl, rfl, rfl, rfl, fun h => h⟩⟩
  · exact SameCore.refl s

theorem sameCore_remove_from_dirty_list (s : St) (b : Nat) :
    SameCore s (BufferC.remove_from_dirty_list s b) := by
  unfold BufferC.remove_from_dirty_list
  dsimp only
  exact SameCore.trans
    (SameCore.trans (SameCore.trans (SameCore.trans
      (sameCore_rfdl_fix_next s b) (sameCore_rfdl_fix_prev _ b)) (sameCore_rfdl_fix_head _ b))
      (sameCore_updBuf _ b
        (fun x => { x with prev_dirty := none, next_dirty := none, dirty := false })
        (fun x => ⟨rfl, rfl, rfl, rfl, rfl, rfl, fun h => nomatch h⟩)))
    ⟨rfl, rfl, rfl, fun _ => ⟨rfl, rfl, rfl, rfl, rfl, rfl, fun h => h⟩⟩

theorem insert_on_free_list_valid (s : St) (b : Nat) (hv : (s.bufs b).valid = true) :
    BufferC.insert_on_free_list s b = { s with freeList := s.freeList ++ [b] } := by
  unfold BufferC.insert_on_free_list
  cases h : s.freeList <;> simp [h, hv]

theorem insert_on_free_list_invalid (s : St) (b : Nat) (hv : (s.bufs b).valid = false) :
    BufferC.insert_on_free_list s b = { s with freeList := b :: s.freeList } := by
  unfold BufferC.insert_on_free_list
  cases h : s.freeList <;> simp [h, hv]

theorem insert_on_free_list_mem (s : St) (b x : Nat) :
    x ∈ (BufferC.insert_on_free_list s b).freeList ↔ x = b ∨ x ∈ s.freeList := by
  cases hv : (s.bufs b).valid
  · rw [insert_on_free_list_invalid s b hv]; simp
  · rw [insert_on_free_list_valid s b hv]; simp [or_comm]

theorem insert_on_free_list_nodup (s : St) (b : Nat) (hnd : s.freeList.Nodup)
    (hb : b ∉ s.freeList) : (BufferC.insert_on_free_list s b).freeList.Nodup := by
  cases hv : (s.bufs b).valid
  · rw [insert_on_free_list_invalid s b hv]
    exact List.nodup_cons.mpr ⟨hb, hnd⟩
  · rw [insert_on_free_list_valid s b hv]
    show (s.freeList ++ [b]).Nodup
    refine List.Nodup.append hnd (List.nodup_singleton b) ?_
    intro a ha hab
    rw [List.mem_singleton] at hab
    exact hb (hab ▸ ha)

theorem insert_on_free_list_frame (s : St) (b : Nat) :
    (BufferC.insert_on_free_list s b).bufs = s.bufs ∧
    (BufferC.insert_on_free_list s b).hashT = s.hashT ∧
    (BufferC.insert_on_free_list s b).dirtyHead = s.dirtyHead ∧
    (BufferC.insert_on_free_list s b).kbuffers = s.kbuffers ∧
    (BufferC.insert_on_free_list s b).kdirty = s.kdirty ∧
    (BufferC.insert_on_free_list s b).log = s.log ∧
    (BufferC.insert_on_free_list s b).allocSupply = s.allocSupply ∧
    (BufferC.insert_on_free_list s b).freedFrames = s.freedFrames := by
  cases hv : (s.bufs b).valid
  · rw [insert_on_free_list_invalid s b hv]
    exact ⟨rfl, rfl, rfl, rfl, rfl, rfl, rfl, rfl⟩
  · rw [insert_on_free_list_valid s b hv]
    exact ⟨rfl, rfl, rfl, rfl, rfl, rfl, rfl, rfl⟩

theorem remove_from_free_list_eq (s : St) (b : Nat) :
    BufferC.remove_from_free_list s b =
      { s with freeList :=
          if (s.freeList.erase b).length = 1 then [] else s.freeList.erase b } := by
  unfold BufferC.remove_from_free_list
  rcases s with ⟨bufs, fl, dh, ht, kb, kd, pg, pf, ph, kc, ind, als, lg, ff⟩
  cases fl
  · simp
  · dsimp only
    split <;> rfl

/-- Members of a possibly-emptied list were members of the original list. -/
theorem emptied_sub {c : Prop} [Decidable c] {l : List Nat} :
    ∀ x ∈ (if c then ([] : List Nat) else l), x ∈ l := by
  intro x hx
  split at hx
  · exact absurd hx (List.not_mem_nil x)
  · exact hx

theorem emptied_nodup {c : Prop} [Decidable c] {l : List Nat} (h : l.Nodup) :
    (if c then ([] : List Nat) else l).Nodup := by
  split
  · exact List.nodup_nil
  · exact h

theorem emptied_not_mem {c : Prop} [Decidable c] {l : List Nat} {b : Nat} (h : b ∉ l) :
    b ∉ (if c then ([] : List Nat) else l) := by
  split
  · exact List.not_mem_nil b
  · exact h

/-- `brelse` decomposed: an optional dirty-list insertion (core-preserving),
the free-list insertion, the unlock. -/
theorem brelse_eq (s : St) (b : Nat) :
    ∃ s1, SameCore s s1 ∧
      BufferC.brelse s b =
        updBuf (BufferC.insert_on_free_list s1 b) b fun x => { x with locked := false } := by
  unfold BufferC.brelse
  dsimp only
  split
  · exact ⟨_, sameCore_insert_on_dirty_list s b, rfl⟩
  · exact ⟨s, SameCore.refl s, rfl⟩

/-- `get_free_buffer` as an equation: the head of the free list is returned
unlocked, leaving the tail — or nothing, when the tail is a single entry
that the head-nulling of `remove_from_free_list` orphans. -/
theorem get_free_buffer_eq {s : St} {b : Nat} {s' : St}
    (he : BufferC.get_free_buffer s = some (b, s')) :
    ∃ t, s.freeList = b :: t ∧ (s.bufs b).locked = false ∧
      s' = updBuf { s with freeList := if t.length = 1 then [] else t } b
        fun x => { x with locked := true } := by
  unfold BufferC.get_free_buffer at he
  cases h : s.freeList with
  | nil => rw [h] at he; simp at he
  | cons a t =>
      rw [h] at he
      dsimp only at he
      by_cases hl : (s.bufs a).locked
      · simp [hl] at he
      · rw [if_neg (by simp [hl])] at he
        rw [remove_from_free_list_eq, h, List.erase_cons_head] at he
        injection he with he1
        have hb : a = b := congrArg Prod.fst he1
        have hs : updBuf { s with freeList := if t.length = 1 then [] else t } a
            (fun x => { x with locked := true }) = s' := congrArg Prod.snd he1
        subst hb
        exact ⟨t, rfl, by simpa using hl, hs.symm⟩

/-! ### The operations of the buffer cache as an atomic step relation -/

/-- One top-level buffer-cache operation, run to completion.  `bwrite` and
`brelse` require the caller to hold the buffer (a handle obtained from
`getblk`/`bread`), which is the `LOCKED` ownership discipline of §3 of the
spec. -/
inductive Step (cfg : Cfg) : St → St → Prop where
  | getblkS (dev block size : Nat) (r : Option Nat) (s s' : St) :
      BufferC.getblk cfg s dev block size = some (r, s') → Step cfg s s'
  | breadS (dev block size : Nat) (r : Option Nat) (s s' : St) :
      BufferC.bread cfg s dev block size = some (r, s') → Step cfg s s'
  | bwriteS (b : Nat) (s : St) : b < cfg.numBuffers → (s.bufs b).locked = true →
      Step cfg s (BufferC.bwrite s b)
  | brelseS (b : Nat) (s : St) : b < cfg.numBuffers → (s.bufs b).locked = true →
      Step cfg s (BufferC.brelse s b)
  | syncS (dev fuel : Nat) (s s' : St) :
      BufferC.sync_buffers cfg dev fuel s = some s' → Step cfg s s'
  | invS (dev : Nat) (s : St) : Step cfg s (BufferC.invalidate_buffers cfg dev s)
  | reclaimS (fuel n : Nat) (s s' : St) :
      BufferC.reclaim_buffers cfg fuel s = some (s', n) → Step cfg s s'

/-- States reachable from the freshly initialised buffer cache. -/
inductive Reachable (cfg : Cfg) : St → Prop where
  | init : Reachable cfg (BufferC.buffer_init cfg)
  | step {s s' : St} : Reachable cfg s → Step cfg s s' → Reachable cfg s'

/-! ### The `LOCKED` / free-list invariant -/

/-- The inductively preserved part of the free-list discipline: the free
list holds no duplicates, only table indices live on the free list and in
the hash, and every free-list member is unlocked.  The converse of the last
conjunct — every unlocked buffer is on the free list, the `LOCKED ⇔
off-free-list` law of the claim — is NOT an invariant of the code: the
head-nulling of `remove_from_free_list` orphans an unlocked entry (see
`c2_locked_free_divergence`). -/
def LockedFreeInv (cfg : Cfg) (s : St) : Prop :=
  s.freeList.Nodup ∧ (∀ b ∈ s.freeList, b < cfg.numBuffers) ∧
  (∀ i, ∀ b ∈ s.hashT i, b < cfg.numBuffers) ∧
  ∀ b ∈ s.freeList, (s.bufs b).locked = false

theorem lfi_transport {cfg : Cfg} {s s' : St} (h : LockedFreeInv cfg s)
    (hf : s'.freeList = s.freeList) (hh : s'.hashT = s.hashT)
    (hl : ∀ x, (s'.bufs x).locked = (s.bufs x).locked) : LockedFreeInv cfg s' := by
  obtain ⟨h1, h2, h3, h4⟩ := h
  refine ⟨?_, ?_, ?_, fun b hb => ?_⟩
  · rw [hf]; exact h1
  · rw [hf]; exact h2
  · rw [hh]; exact h3
  · rw [hf] at hb
    rw [hl b]
    exact h4 b hb

theorem lfi_of_sameCore {cfg : Cfg} {s s' : St} (hsc : SameCore s s')
    (h : LockedFreeInv cfg s) : LockedFreeInv cfg s' :=
  lfi_transport h hsc.1 hsc.2.1 fun x => (hsc.2.2.2 x).2.2.2.2.2.1

theorem remove_from_hash_hashT (cfg : Cfg) (s : St) (b i : Nat) :
    (BufferC.remove_from_hash cfg s b).hashT i = (s.hashT i).erase b ∨
    (BufferC.remove_from_hash cfg s b).hashT i = s.hashT i := by
  by_cases h : i = BufferC.BUFFER_HASH cfg (s.bufs b).dev (s.bufs b).block
  · left; simp [BufferC.remove_from_hash, h]
  · right; simp [BufferC.remove_from_hash, h]

theorem remove_from_hash_mem {cfg : Cfg} {s : St} {b x i : Nat}
    (hx : x ∈ (BufferC.remove_from_hash cfg s b).hashT i) : x ∈ s.hashT i := by
  rcases remove_from_hash_hashT cfg s b i with h | h
  · exact List.mem_of_mem_erase (h ▸ hx)
  · exact h ▸ hx

theorem insert_to_hash_hashT (cfg : Cfg) (s : St) (b i : Nat) :
    (BufferC.insert_to_hash cfg s b).hashT i = b :: s.hashT i ∨
    (BufferC.insert_to_hash cfg s b).hashT i = s.hashT i := by
  by_cases h : i = BufferC.BUFFER_HASH cfg (s.bufs b).dev (s.bufs b).block
  · left; simp [BufferC.insert_to_hash, h]
  · right; simp [BufferC.insert_to_hash, h]

theorem insert_to_hash_mem {cfg : Cfg} {s : St} {b x i : Nat}
    (hx : x ∈ (BufferC.insert_to_hash cfg s b).hashT i) : x = b ∨ x ∈ s.hashT i := by
  rcases insert_to_hash_hashT cfg s b i with h | h
  · rw [h] at hx
    rcases List.mem_cons.mp hx with h' | h'
    · exact Or.inl h'
    · exact Or.inr h'
  · exact Or.inr (h ▸ hx)

/-- `brelse` preserves the `LOCKED`/free-list invariant when the caller
holds the buffer, and releases it onto the free list unlocked. -/
theorem lfi_brelse {cfg : Cfg} {s : St} {b : Nat} (h : LockedFreeInv cfg s)
    (hb : b < cfg.numBuffers) (hl : (s.bufs b).locked = true) :
    LockedFreeInv cfg (BufferC.brelse s b) := by
  obtain ⟨s1, hsc, heq⟩ := brelse_eq s b
  have h1 : LockedFreeInv cfg s1 := lfi_of_sameCore hsc h
  have hl1 : (s1.bufs b).locked = true := by
    rw [(hsc.2.2.2 b).2.2.2.2.2.1]; exact hl
  have hbnotin : b ∉ s1.freeList := by
    intro hmem
    rw [h1.2.2.2 b hmem] at hl1
    exact Bool.false_ne_true hl1
  rw [heq]
  have hfmem := insert_on_free_list_mem s1 b
  have hframe := insert_on_free_list_frame s1 b
  refine ⟨?_, ?_, ?_, fun x hx => ?_⟩
  · show (BufferC.insert_on_free_list s1 b).freeList.Nodup
    exact insert_on_free_list_nodup s1 b h1.1 hbnotin
  · intro y hy
    rcases (hfmem y).mp hy with rfl | hy'
    · exact hb
    · exact h1.2.1 y hy'
  · intro i y hy
    have hy' : y ∈ (BufferC.insert_on_free_list s1 b).hashT i := hy
    rw [hframe.2.1] at hy'
    exact h1.2.2.1 i y hy'
  · show ((updBuf (BufferC.insert_on_free_list s1 b) b _).bufs x).locked = false
    rw [updBuf_bufs]
    by_cases hxb : x = b
    · subst hxb
      rw [if_pos rfl]
    · rw [if_neg hxb]
      have hx' : x ∈ (BufferC.insert_on_free_list s1 b).freeList := hx
      rcases (hfmem x).mp hx' with h' | h'
      · exact absurd h' hxb
      · rw [show ((BufferC.insert_on_free_list s1 b).bufs x) = s1.bufs x from
          congrFun hframe.1 x]
        exact h1.2.2.2 x h'

/-- `get_free_buffer` preserves the invariant and yields a locked handle. -/
theorem lfi_get_free_buffer {cfg : Cfg} {s : St} {b : Nat} {s' : St}
    (h : LockedFreeInv cfg s) (he : BufferC.get_free_buffer s = some (b, s')) :
    LockedFreeInv cfg s' ∧ (s'.bufs b).locked = true ∧ b < cfg.numBuffers ∧
    b ∉ s'.freeList ∧ s'.hashT = s.hashT := by
  obtain ⟨t, hfl, hlk, hs⟩ := get_free_buffer_eq he
  have hbn : b < cfg.numBuffers := h.2.1 b (by rw [hfl]; exact List.mem_cons_self b t)
  have hnd : (b :: t).Nodup := hfl ▸ h.1
  have hbt : b ∉ t := (List.nodup_cons.mp hnd).1
  subst hs
  refine ⟨⟨?_, ?_, ?_, fun x hx => ?_⟩, ?_, hbn, ?_, rfl⟩
  · show (if t.length = 1 then ([] : List Nat) else t).Nodup
    exact emptied_nodup (List.nodup_cons.mp hnd).2
  · intro y hy
    have hy' : y ∈ t := emptied_sub y hy
    exact h.2.1 y (by rw [hfl]; exact List.mem_cons_of_mem b hy')
  · exact h.2.2.1
  · show ((updBuf { s with freeList := if t.length = 1 then [] else t } b _).bufs
      x).locked = false
    rw [updBuf_bufs]
    have hx' : x ∈ t := emptied_sub x hx
    have hxb : x ≠ b := fun hc => hbt (hc ▸ hx')
    rw [if_neg hxb]
    exact h.2.2.2 x (by rw [hfl]; exact List.mem_cons_of_mem b hx')
  · show ((updBuf { s with freeList := if t.length = 1 then [] else t } b _).bufs
      b).locked = true
    rw [updBuf_bufs, if_pos rfl]
  · show b ∉ (if t.length = 1 then ([] : List Nat) else t)
    exact emptied_not_mem hbt

/-- The pointwise effect of `getblk_rebind` on the buffer table. -/
theorem getblk_rebind_bufs (cfg : Cfg) (s : St) (b d bl sz x : Nat) :
    (BufferC.getblk_rebind cfg s b d bl sz).2.bufs x =
      if x = b then { s.bufs b with dev := d, block := bl, size := sz, valid := false }
      else s.bufs x := by
  simp only [BufferC.getblk_rebind, BufferC.insert_to_hash, BufferC.remove_from_hash, updBuf]
  by_cases hxb : x = b <;> simp [hxb]

theorem getblk_rebind_frame (cfg : Cfg) (s : St) (b d bl sz : Nat) :
    (BufferC.getblk_rebind cfg s b d bl sz).1 = some b ∧
    (BufferC.getblk_rebind cfg s b d bl sz).2.freeList = s.freeList ∧
    (∀ x, ((BufferC.getblk_rebind cfg s b d bl sz).2.bufs x).locked = (s.bufs x).locked) ∧
    (∀ i x, x ∈ (BufferC.getblk_rebind cfg s b d bl sz).2.hashT i → x = b ∨ x ∈ s.hashT i) := by
  refine ⟨rfl, rfl, fun x => ?_, fun i x hx => ?_⟩
  · rw [getblk_rebind_bufs]
    by_cases hxb : x = b
    · subst hxb; rw [if_pos rfl]
    · rw [if_neg hxb]
  · have hx' : x ∈ (BufferC.insert_to_hash cfg
        (updBuf (BufferC.remove_from_hash cfg s b) b fun y =>
          { y with dev := d, block := bl, size := sz }) b).hashT i := hx
    rcases insert_to_hash_mem hx' with h' | h'
    · exact Or.inl h'
    · have h'' : x ∈ (BufferC.remove_from_hash cfg s b).hashT i := h'
      exact Or.inr (remove_from_hash_mem h'')

/-- Rebinding a held victim preserves the invariant and keeps the handle. -/
theorem lfi_getblk_rebind {cfg : Cfg} {s : St} {b : Nat} (d bl sz : Nat)
    (h : LockedFreeInv cfg s) (hb : b < cfg.numBuffers)
    (hl : (s.bufs b).locked = true) :
    LockedFreeInv cfg (BufferC.getblk_rebind cfg s b d bl sz).2 ∧
    (((BufferC.getblk_rebind cfg s b d bl sz).2.bufs b).locked = true) := by
  obtain ⟨-, hfl, hlk, hmem⟩ := getblk_rebind_frame cfg s b d bl sz
  refine ⟨⟨?_, ?_, ?_, fun x hx => ?_⟩, ?_⟩
  · rw [hfl]; exact h.1
  · rw [hfl]; exact h.2.1
  · intro i y hy
    rcases hmem i y hy with rfl | hy'
    · exact hb
    · exact h.2.2.1 i y hy'
  · rw [hfl] at hx
    rw [hlk x]
    exact h.2.2.2 x hx
  · rw [hlk b]; exact hl

theorem sameCore_sync_one_buffer (cfg : Cfg) (s : St) (b : Nat) :
    SameCore s (BufferC.sync_one_buffer cfg s b) := by
  unfold BufferC.sync_one_buffer
  split
  · split
    · dsimp only
      split
      · exact ⟨rfl, rfl, rfl, fun _ => ⟨rfl, rfl, rfl, rfl, rfl, rfl, fun h => h⟩⟩
      · exact SameCore.trans
          ⟨rfl, rfl, rfl, fun _ => ⟨rfl, rfl, rfl, rfl, rfl, rfl, fun h => h⟩⟩
          (sameCore_remove_from_dirty_list _ b)
    · exact SameCore.refl s
  · exact SameCore.refl s

/-- The common tail of `getblk`'s miss path. -/
theorem lfi_rebind_result {cfg : Cfg} {X : St} {b0 d bl sz : Nat} {r : Option Nat} {s' : St}
    (hX : LockedFreeInv cfg X) (hbn : b0 < cfg.numBuffers)
    (hlX : (X.bufs b0).locked = true)
    (he1 : BufferC.getblk_rebind cfg X b0 d bl sz = (r, s')) :
    LockedFreeInv cfg s' ∧
      ∀ b, r = some b → (s'.bufs b).locked = true ∧ b < cfg.numBuffers := by
  obtain ⟨h3, h3l⟩ := lfi_getblk_rebind d bl sz hX hbn hlX
  obtain ⟨hfst, -, -, -⟩ := getblk_rebind_frame cfg X b0 d bl sz
  have hr : r = some b0 := (congrArg Prod.fst he1).symm.trans hfst
  have hs' : (BufferC.getblk_rebind cfg X b0 d bl sz).2 = s' := congrArg Prod.snd he1
  subst hs'
  refine ⟨h3, fun b hb => ?_⟩
  rw [hr] at hb
  injection hb with hb
  subst hb
  exact ⟨h3l, hbn⟩

/-- `getblk` preserves the invariant; a returned handle is locked and in
range. -/
theorem lfi_getblk {cfg : Cfg} {s : St} {d bl sz : Nat} {r : Option Nat} {s' : St}
    (h : LockedFreeInv cfg s)
    (he : BufferC.getblk cfg s d bl sz = some (r, s')) :
    LockedFreeInv cfg s' ∧
      ∀ b, r = some b → (s'.bufs b).locked = true ∧ b < cfg.numBuffers := by
  unfold BufferC.getblk at he
  cases hs : BufferC.search_buffer_hash cfg s d bl sz with
  | some b0 =>
      rw [hs] at he
      dsimp only at he
      by_cases hl : (s.bufs b0).locked
      · rw [if_pos hl] at he; simp at he
      · rw [if_neg (by simp [hl])] at he
        injection he with he1
        have hr : r = some b0 := (congrArg Prod.fst he1).symm
        have hs' : s' = BufferC.remove_from_free_list
            (updBuf s b0 fun x => { x with locked := true }) b0 :=
          (congrArg Prod.snd he1).symm
        have hb0 : b0 < cfg.numBuffers :=
          h.2.2.1 _ b0 (List.mem_of_find?_eq_some hs)
        subst hs' hr
        rw [remove_from_free_list_eq]
        refine ⟨⟨?_, ?_, ?_, fun x hx => ?_⟩, ?_⟩
        · show (if (s.freeList.erase b0).length = 1 then ([] : List Nat)
            else s.freeList.erase b0).Nodup
          exact emptied_nodup (h.1.erase b0)
        · intro y hy
          have hy' : y ∈ s.freeList.erase b0 := emptied_sub y hy
          exact h.2.1 y (List.mem_of_mem_erase hy')
        · exact h.2.2.1
        · show ((updBuf s b0 fun y => { y with locked := true }).bufs x).locked = false
          have hx' : x ∈ s.freeList.erase b0 := emptied_sub x hx
          have hxb : x ≠ b0 := ((List.Nodup.mem_erase_iff h.1).mp hx').1
          rw [updBuf_bufs, if_neg hxb]
          exact h.2.2.2 x (List.mem_of_mem_erase hx')
        · intro b hb
          injection hb with hb
          refine ⟨?_, hb ▸ hb0⟩
          rw [← hb]
          show ((updBuf s b0 fun y => { y with locked := true }).bufs b0).locked = true
          rw [updBuf_bufs, if_pos rfl]
  | none =>
      rw [hs] at he
      dsimp only at he
      cases hg : BufferC.get_free_buffer s with
      | none => rw [hg] at he; simp at he
      | some pr =>
          obtain ⟨b0, s1⟩ := pr
          rw [hg] at he
          dsimp only at he
          obtain ⟨h1, hl0, hbn, hnin, -⟩ := lfi_get_free_buffer h hg
          by_cases hd : (s1.bufs b0).dirty
          · rw [if_pos hd] at he
            injection he with he1
            refine lfi_rebind_result ?_ hbn ?_ he1
            · exact lfi_of_sameCore (sameCore_sync_one_buffer cfg s1 b0) h1
            · rw [((sameCore_sync_one_buffer cfg s1 b0).2.2.2 b0).2.2.2.2.2.1]
              exact hl0
          · rw [if_neg hd] at he
            by_cases hdat : (s1.bufs b0).data.isSome
            · rw [if_pos hdat] at he
              injection he with he1
              exact lfi_rebind_result h1 hbn hl0 he1
            · rw [if_neg hdat] at he
              by_cases hsup : s1.allocSupply = 0
              · rw [if_pos hsup] at he
                injection he with he1
                have hr : r = none := (congrArg Prod.fst he1).symm
                have hs2 : (BufferC.brelse s1 b0) = s' := congrArg Prod.snd he1
                subst hs2 hr
                exact ⟨lfi_brelse h1 hbn hl0, fun b hb => nomatch hb⟩
              · rw [if_neg hsup] at he
                injection he with he1
                refine lfi_rebind_result ?_ hbn ?_ he1
                · refine lfi_transport h1 rfl rfl fun x => ?_
                  show ((updBuf s1 b0 fun y =>
                    { y with data := some fun _ => 0 }).bufs x).locked = (s1.bufs x).locked
                  rw [updBuf_bufs]
                  by_cases hxb : x = b0
                  · subst hxb; rw [if_pos rfl]
                  · rw [if_neg hxb]
                · show ((updBuf s1 b0 fun y =>
                    { y with data := some fun _ => 0 }).bufs b0).locked = true
                  rw [updBuf_bufs, if_pos rfl]
                  exact hl0

/-- `bread` preserves the invariant; a returned handle is locked and in
range. -/
theorem lfi_bread {cfg : Cfg} {s : St} {d bl sz : Nat} {r : Option Nat} {s' : St}
    (h : LockedFreeInv cfg s)
    (he : BufferC.bread cfg s d bl sz = some (r, s')) :
    LockedFreeInv cfg s' ∧
      ∀ b, r = some b → (s'.bufs b).locked = true ∧ b < cfg.numBuffers := by
  unfold BufferC.bread at he
  by_cases hreg : cfg.registered d
  · rw [if_pos hreg] at he
    cases hgb : BufferC.getblk cfg s d bl sz with
    | none => rw [hgb] at he; simp at he
    | some pr =>
        obtain ⟨rb, s1⟩ := pr
        rw [hgb] at he
        obtain ⟨h1, hrb⟩ := lfi_getblk h hgb
        cases rb with
        | none =>
            dsimp only at he
            injection he with he1
            have hs1 : s1 = s' := congrArg Prod.snd he1
            have hr : r = none := (congrArg Prod.fst he1).symm
            subst hs1 hr
            exact ⟨h1, fun b hb => nomatch hb⟩
        | some b =>
            dsimp only at he
            obtain ⟨hbl, hbn⟩ := hrb b rfl
            by_cases hv1 : (s1.bufs b).valid
            · rw [if_pos hv1, if_pos hv1] at he
              injection he with he1
              have hs1 : s1 = s' := congrArg Prod.snd he1
              have hr : r = some b := (congrArg Prod.fst he1).symm
              subst hs1 hr
              refine ⟨h1, fun b' hb' => ?_⟩
              injection hb' with hb'
              subst hb'
              exact ⟨hbl, hbn⟩
            · rw [if_neg hv1] at he
              by_cases hr2 : cfg.hasRead d
              · rw [if_pos hr2] at he
                by_cases hrr : 0 ≤ cfg.readResult d bl
                · rw [if_pos hrr] at he
                  have hc : ((updBuf { s1 with log := s1.log ++ [DevEvent.readB d bl sz] } b
                      fun x => { x with
                        data := some (memcpy_b (dataD x.data) 0 (cfg.readData d bl) sz),
                        valid := true }).bufs b).valid = true := by
                    rw [updBuf_bufs, if_pos rfl]
                  rw [if_pos hc] at he
                  injection he with he1
                  have hs1 : _ = s' := congrArg Prod.snd he1
                  have hr : r = some b := (congrArg Prod.fst he1).symm
                  subst hs1 hr
                  have hlfi : LockedFreeInv cfg (updBuf
                      { s1 with log := s1.log ++ [DevEvent.readB d bl sz] } b
                      fun x => { x with
                        data := some (memcpy_b (dataD x.data) 0 (cfg.readData d bl) sz),
                        valid := true }) := by
                    refine lfi_transport h1 rfl rfl fun x => ?_
                    rw [updBuf_bufs]
                    by_cases hxb : x = b
                    · subst hxb; rw [if_pos rfl]
                    · rw [if_neg hxb]
                  refine ⟨hlfi, fun b' hb' => ?_⟩
                  injection hb' with hb'
                  subst hb'
                  refine ⟨?_, hbn⟩
                  rw [updBuf_bufs, if_pos rfl]
                  exact hbl
                · rw [if_neg hrr] at he
                  have hc : ¬(({ s1 with
                      log := s1.log ++ [DevEvent.readB d bl sz] } : St).bufs b).valid = true := hv1
                  rw [if_neg hc] at he
                  injection he with he1
                  have hs1 : _ = s' := congrArg Prod.snd he1
                  have hr : r = none := (congrArg Prod.fst he1).symm
                  subst hs1 hr
                  refine ⟨?_, fun b' hb' => nomatch hb'⟩
                  exact lfi_brelse (lfi_transport h1 rfl rfl fun x => rfl) hbn hbl
              · rw [if_neg hr2] at he
                rw [if_neg hv1] at he
                injection he with he1
                have hs1 : _ = s' := congrArg Prod.snd he1
                have hr : r = none := (congrArg Prod.fst he1).symm
                subst hs1 hr
                exact ⟨lfi_brelse h1 hbn hbl, fun b' hb' => nomatch hb'⟩
  · rw [if_neg hreg] at he
    injection he with he1
    have hs1 : s = s' := congrArg Prod.snd he1
    have hr : r = none := (congrArg Prod.fst he1).symm
    subst hs1 hr
    exact ⟨h, fun b hb => nomatch hb⟩

/-- One visited entry of `sync_buffers`' traversal: lock, write back,
unlock.  For an entry that was unlocked the net effect keeps the core. -/
theorem sameCore_sync_step (cfg : Cfg) (s : St) (b : Nat)
    (hl : (s.bufs b).locked = false) :
    SameCore s (updBuf (BufferC.sync_one_buffer cfg
      (updBuf s b fun x => { x with locked := true }) b) b
      fun x => { x with locked := false }) := by
  have hsc := sameCore_sync_one_buffer cfg (updBuf s b fun x => { x with locked := true }) b
  have hA : ((updBuf s b fun x => { x with locked := true }).bufs b) =
      { s.bufs b with locked := true } := by
    rw [updBuf_bufs, if_pos rfl]
  refine ⟨hsc.1, hsc.2.1, hsc.2.2.1, fun x => ?_⟩
  rw [updBuf_bufs]
  by_cases hxb : x = b
  · subst hxb
    rw [if_pos rfl]
    obtain ⟨e1, e2, e3, e4, e5, e6, e7⟩ := hsc.2.2.2 x
    refine ⟨?_, ?_, ?_, ?_, ?_, ?_, ?_⟩
    · show (BufferC.sync_one_buffer cfg _ x |>.bufs x).dev = _
      rw [e1, hA]
    · show (BufferC.sync_one_buffer cfg _ x |>.bufs x).block = _
      rw [e2, hA]
    · show (BufferC.sync_one_buffer cfg _ x |>.bufs x).size = _
      rw [e3, hA]
    · show (BufferC.sync_one_buffer cfg _ x |>.bufs x).data = _
      rw [e4, hA]
    · show (BufferC.sync_one_buffer cfg _ x |>.bufs x).valid = _
      rw [e5, hA]
    · exact hl.symm
    · intro hdt
      have : ((updBuf s x fun y => { y with locked := true }).bufs x).dirty = true :=
        e7 hdt
      rw [hA] at this
      exact this
  · rw [if_neg hxb]
    obtain ⟨e1, e2, e3, e4, e5, e6, e7⟩ := hsc.2.2.2 x
    have hB : ((updBuf s b fun y => { y with locked := true }).bufs x) = s.bufs x := by
      rw [updBuf_bufs, if_neg hxb]
    exact ⟨e1.trans (by rw [hB]), e2.trans (by rw [hB]), e3.trans (by rw [hB]),
      e4.trans (by rw [hB]), e5.trans (by rw [hB]), e6.trans (by rw [hB]),
      fun hdt => by rw [← hB]; exact e7 hdt⟩

/-- A completed `sync_buffers` traversal keeps the core. -/
theorem sync_loop_sameCore (cfg : Cfg) (dev : Nat) :
    ∀ (fuel : Nat) (cur : Option Nat) (s s' : St),
      BufferC.sync_loop cfg dev fuel cur s = some s' → SameCore s s' := by
  intro fuel
  induction fuel with
  | zero =>
      intro cur s s' he
      cases cur with
      | none =>
          rw [BufferC.sync_loop] at he
          injection he with he1
          exact he1 ▸ SameCore.refl s
      | some b => rw [BufferC.sync_loop] at he; exact absurd he (by simp)
  | succ f ih =>
      intro cur s s' he
      cases cur with
      | none =>
          rw [BufferC.sync_loop] at he
          injection he with he1
          exact he1 ▸ SameCore.refl s
      | some b =>
          rw [BufferC.sync_loop] at he
          dsimp only at he
          by_cases hd : dev = 0 ∨ (s.bufs b).dev = dev
          · rw [if_pos hd] at he
            by_cases hl : (s.bufs b).locked
            · rw [if_pos hl] at he
              exact absurd he (by simp)
            · rw [if_neg hl] at he
              exact SameCore.trans
                (sameCore_sync_step cfg s b (by simpa using hl)) (ih _ _ _ he)
          · rw [if_neg hd] at he
            exact SameCore.trans (SameCore.refl s) (ih _ _ _ he)

theorem lfi_remove_from_hash {cfg : Cfg} {s : St} (b : Nat)
    (h : LockedFreeInv cfg s) : LockedFreeInv cfg (BufferC.remove_from_hash cfg s b) := by
  refine ⟨h.1, h.2.1, fun i y hy => h.2.2.1 i y (remove_from_hash_mem hy), fun x hx => h.2.2.2 x hx⟩

theorem lfi_inv_step {cfg : Cfg} {s : St} (dev b : Nat) (h : LockedFreeInv cfg s) :
    LockedFreeInv cfg (BufferC.inv_step cfg dev s b) := by
  unfold BufferC.inv_step
  split
  · rename_i hcond
    dsimp only
    have h1 := lfi_remove_from_hash b h
    refine ⟨h1.1, h1.2.1, ?_, fun x hx => ?_⟩
    · intro i y hy
      have hy' : y ∈ (BufferC.remove_from_hash cfg s b).hashT i := hy
      exact h1.2.2.1 i y hy'
    · show ((updBuf (BufferC.remove_from_hash cfg s b) b fun x =>
        { x with valid := false, locked := false }).bufs x).locked = false
      rw [updBuf_bufs]
      by_cases hxb : x = b
      · subst hxb
        rw [if_pos rfl]
      · rw [if_neg hxb]
        have hx' : x ∈ (BufferC.remove_from_hash cfg s b).freeList := hx
        exact h1.2.2.2 x hx'
  · exact h

theorem lfi_invalidate {cfg : Cfg} {s : St} (dev : Nat) (h : LockedFreeInv cfg s) :
    LockedFreeInv cfg (BufferC.invalidate_buffers cfg dev s) := by
  unfold BufferC.invalidate_buffers
  generalize List.range cfg.numBuffers = l
  induction l generalizing s with
  | nil => exact h
  | cons b t ih => exact ih (lfi_inv_step dev b h)

theorem lfi_reclaim_body {cfg : Cfg} {s1 : St} {b : Nat} (h1 : LockedFreeInv cfg s1)
    (hl1 : (s1.bufs b).locked = true) :
    LockedFreeInv cfg (BufferC.reclaim_body cfg s1 b) ∧
    ((BufferC.reclaim_body cfg s1 b).bufs b).locked = true := by
  unfold BufferC.reclaim_body
  dsimp only
  have hsc : SameCore s1 (if (s1.bufs b).dirty = true then
      BufferC.sync_one_buffer cfg s1 b else s1) := by
    split
    · exact sameCore_sync_one_buffer cfg s1 b
    · exact SameCore.refl s1
  have h2 := lfi_of_sameCore hsc h1
  have hl2 : ((if (s1.bufs b).dirty = true then
      BufferC.sync_one_buffer cfg s1 b else s1).bufs b).locked = true := by
    rw [(hsc.2.2.2 b).2.2.2.2.2.1]
    exact hl1
  constructor
  · refine lfi_transport h2 rfl rfl fun x => ?_
    rw [updBuf_bufs]
    by_cases hxb : x = b
    · subst hxb; rw [if_pos rfl]
    · rw [if_neg hxb]
  · rw [updBuf_bufs, if_pos rfl]
    exact hl2

theorem lfi_reclaim_free {cfg : Cfg} {s3 : St} {b : Nat} (h3 : LockedFreeInv cfg s3)
    (hl3 : (s3.bufs b).locked = true) :
    LockedFreeInv cfg (BufferC.reclaim_free cfg s3 b) ∧
    ((BufferC.reclaim_free cfg s3 b).bufs b).locked = true := by
  unfold BufferC.reclaim_free
  dsimp only
  have h4 : LockedFreeInv cfg (updBuf s3 b fun x => { x with data := none }) := by
    refine lfi_transport h3 rfl rfl fun x => ?_
    rw [updBuf_bufs]
    by_cases hxb : x = b
    · subst hxb; rw [if_pos rfl]
    · rw [if_neg hxb]
  have hl4 : ((updBuf s3 b fun x => { x with data := none }).bufs b).locked = true := by
    rw [updBuf_bufs, if_pos rfl]; exact hl3
  have h5 := lfi_remove_from_hash b h4
  constructor
  · exact lfi_transport h5 rfl rfl fun x => rfl
  · exact hl4

theorem lfi_reclaim_loop {cfg : Cfg} :
    ∀ (fuel : Nat) (first : Option Nat) (reclaimed : Nat) (s s' : St) (n : Nat),
      LockedFreeInv cfg s →
      BufferC.reclaim_loop cfg fuel first reclaimed s = some (s', n) →
      LockedFreeInv cfg s' := by
  intro fuel
  induction fuel with
  | zero =>
      intro first reclaimed s s' n h he
      rw [BufferC.reclaim_loop] at he
      exact absurd he (by simp)
  | succ f ih =>
      intro first reclaimed s s' n h he
      rw [BufferC.reclaim_loop] at he
      cases hg : BufferC.get_free_buffer s with
      | none => rw [hg] at he; simp at he
      | some pr =>
          obtain ⟨b, s1⟩ := pr
          rw [hg] at he
          dsimp only at he
          obtain ⟨h1, hl1, hbn, -, -⟩ := lfi_get_free_buffer h hg
          obtain ⟨h3, hl3⟩ := lfi_reclaim_body h1 hl1
          by_cases hf : first = some b
          · rw [if_pos hf] at he
            injection he with he1
            have hs' : BufferC.brelse (BufferC.reclaim_body cfg s1 b) b = s' :=
              congrArg Prod.fst he1
            exact hs' ▸ lfi_brelse h3 hbn hl3
          · rw [if_neg hf] at he
            by_cases hdat : ((BufferC.reclaim_body cfg s1 b).bufs b).data.isSome
            · rw [if_pos hdat] at he
              obtain ⟨h6, hl6⟩ := lfi_reclaim_free h3 hl3
              by_cases htar : reclaimed + 1 = cfg.nrBufReclaim
              · rw [if_pos htar] at he
                injection he with he1
                have hs' : BufferC.brelse (BufferC.reclaim_free cfg
                    (BufferC.reclaim_body cfg s1 b) b) b = s' := congrArg Prod.fst he1
                exact hs' ▸ lfi_brelse h6 hbn hl6
              · rw [if_neg htar] at he
                exact ih _ _ _ _ _ (lfi_brelse h6 hbn hl6) he
            · rw [if_neg hdat] at he
              exact ih _ _ _ _ _ (lfi_brelse h3 hbn hl3) he

/-- Fold of `insert_on_free_list` over fresh (not `VALID`) entries: each
insertion prepends, so the free list ends reversed; nothing else changes. -/
theorem foldl_insert_invalid :
    ∀ (l : List Nat) (s : St), (∀ x, (s.bufs x).valid = false) →
      (l.foldl (fun s' b => BufferC.insert_on_free_list s' b) s).freeList =
        l.reverse ++ s.freeList ∧
      (l.foldl (fun s' b => BufferC.insert_on_free_list s' b) s).bufs = s.bufs ∧
      (l.foldl (fun s' b => BufferC.insert_on_free_list s' b) s).hashT = s.hashT := by
  intro l
  induction l with
  | nil => intro s hv; exact ⟨by simp, rfl, rfl⟩
  | cons b t ih =>
      intro s hv
      have hins := insert_on_free_list_invalid s b (hv b)
      rw [List.foldl_cons, hins]
      obtain ⟨ih1, ih2, ih3⟩ := ih { s with freeList := b :: s.freeList } hv
      refine ⟨?_, ih2, ih3⟩
      rw [ih1]
      simp

theorem buffer_init_freeList (cfg : Cfg) :
    (BufferC.buffer_init cfg).freeList = (List.range cfg.numBuffers).reverse := by
  unfold BufferC.buffer_init
  have := foldl_insert_invalid (List.range cfg.numBuffers)
    { BufferC.emptySt with allocSupply := cfg.allocSupply } fun _ => rfl
  rw [this.1]
  simp [BufferC.emptySt]

theorem buffer_init_bufs (cfg : Cfg) :
    (BufferC.buffer_init cfg).bufs = fun _ => ({} : Buffer) := by
  unfold BufferC.buffer_init
  exact (foldl_insert_invalid (List.range cfg.numBuffers)
    { BufferC.emptySt with allocSupply := cfg.allocSupply } fun _ => rfl).2.1

theorem buffer_init_hashT (cfg : Cfg) :
    (BufferC.buffer_init cfg).hashT = fun _ => [] := by
  unfold BufferC.buffer_init
  exact (foldl_insert_invalid (List.range cfg.numBuffers)
    { BufferC.emptySt with allocSupply := cfg.allocSupply } fun _ => rfl).2.2

theorem lfi_init (cfg : Cfg) : LockedFreeInv cfg (BufferC.buffer_init cfg) := by
  refine ⟨?_, ?_, ?_, fun b hb => ?_⟩
  · rw [buffer_init_freeList]
    exact List.nodup_reverse.mpr (List.nodup_range _)
  · intro y hy
    rw [buffer_init_freeList, List.mem_reverse, List.mem_range] at hy
    exact hy
  · intro i y hy
    rw [buffer_init_hashT] at hy
    exact absurd hy (List.not_mem_nil y)
  · rw [buffer_init_bufs]

/-- Every atomic buffer-cache operation preserves the invariant. -/
theorem lfi_step {cfg : Cfg} {s s' : St} (h : LockedFreeInv cfg s)
    (hs : Step cfg s s') : LockedFreeInv cfg s' := by
  cases hs with
  | getblkS dev block size r s s' he => exact (lfi_getblk h he).1
  | breadS dev block size r s s' he => exact (lfi_bread h he).1
  | bwriteS b s hb hl =>
      unfold BufferC.bwrite
      refine lfi_brelse ?_ hb ?_
      · refine lfi_transport h rfl rfl fun x => ?_
        rw [updBuf_bufs]
        by_cases hxb : x = b
        · subst hxb; rw [if_pos rfl]
        · rw [if_neg hxb]
      · rw [updBuf_bufs, if_pos rfl]
        exact hl
  | brelseS b s hb hl => exact lfi_brelse h hb hl
  | syncS dev fuel s s' he =>
      exact lfi_of_sameCore (sync_loop_sameCore cfg dev fuel s.dirtyHead s s' he) h
  | invS dev s => exact lfi_invalidate dev h
  | reclaimS fuel n s s' he => exact lfi_reclaim_loop _ _ _ _ _ _ h he

theorem lfi_reachable {cfg : Cfg} {s : St} (h : Reachable cfg s) :
    LockedFreeInv cfg s := by
  induction h with
  | init => exact lfi_init cfg
  | step hr hst ih => exact lfi_step ih hst

/-- A small concrete configuration used to instantiate theorems with
hypotheses: two buffers, a happily responding block device. -/
def cfgW : Cfg where
  numBuffers := 2
  nrBufHash := 2
  numPages := 1
  nrPageHash := 1
  nrBufReclaim := 1
  allocSupply := 4
  registered := fun _ => true
  hasRead := fun _ => true
  hasWrite := fun _ => true
  readResult := fun _ _ => 0
  readData := fun _ _ _ => 0
  writeResult := fun _ _ => 0
  bmap := fun _ _ _ => 1

/-- The fresh two-buffer cache right after one cold `bread(1,7,1024)`. -/
def c2s : St :=
  ((BufferC.bread cfgW (BufferC.buffer_init cfgW) 1 7 1024).getD
    (none, BufferC.emptySt)).2

/-- C2 as stated is false on the code: one `bread` on the fresh two-buffer
cache pops entry 1 off the free list, and `remove_from_free_list` then sees
the head pointing at itself (one entry left) and nulls `buffer_head`
(`buffer.c:157-159`), orphaning entry 0 — which is unlocked yet off the free
list, refuting `LOCKED ⇔ off the free list` one step from `buffer_init`. -/
theorem c2_locked_free_divergence :
    Reachable cfgW c2s ∧ 0 < cfgW.numBuffers ∧
    (c2s.bufs 0).locked = false ∧ 0 ∉ c2s.freeList := by
  refine ⟨?_, by decide, by decide, by decide⟩
  exact Reachable.step Reachable.init
    (Step.breadS 1 7 1024 (some 1) (BufferC.buffer_init cfgW) c2s rfl)

/-! ### The dirty list as observed by following `next_dirty` from the head -/

/-- Walk the dirty list pointers from a node, with fuel. -/
def dirty_walk (s : St) : Nat → Option Nat → List Nat
  | 0, _ => []
  | _, none => []
  | fuel + 1, some b => b :: dirty_walk s fuel (s.bufs b).next_dirty

/-- The entries on the dirty list: every node reachable from
`buffer_dirty_head` through `next_dirty` within one more than the table
size. -/
def dirtyMembers (cfg : Cfg) (s : St) : List Nat :=
  dirty_walk s (cfg.numBuffers + 1) s.dirtyHead

/-- Configuration for the dirty-list divergence run: one buffer, one hash
bucket, one allocatable frame, an always-succeeding device. -/
def cfg3 : Cfg where
  numBuffers := 1
  nrBufHash := 1
  numPages := 1
  nrPageHash := 1
  nrBufReclaim := 1
  allocSupply := 1
  registered := fun _ => true
  hasRead := fun _ => true
  hasWrite := fun _ => true
  readResult := fun _ _ => 0
  readData := fun _ _ _ => 0
  writeResult := fun _ _ => 0
  bmap := fun _ _ _ => 1

/-- `bread(1,7,1024)` on the fresh cache: buffer 0 is read and held. -/
def c3s1 : St :=
  ((BufferC.bread cfg3 (BufferC.buffer_init cfg3) 1 7 1024).getD
    (none, BufferC.emptySt)).2

/-- `bwrite` of the held buffer: buffer 0 becomes the sole dirty entry. -/
def c3s2 : St := BufferC.bwrite c3s1 0

/-- `bread(1,7,1024)` again: a hash hit on the still-dirty buffer 0. -/
def c3s3 : St :=
  ((BufferC.bread cfg3 c3s2 1 7 1024).getD (none, BufferC.emptySt)).2

/-- Second `bwrite`: `insert_on_dirty_list`'s `prev||next` membership test
misses the sole dirty element and self-links it. -/
def c3s4 : St := BufferC.bwrite c3s3 0

/-- `getblk(2,9,1024)` victimises the dirty buffer: the write-back succeeds
and `remove_from_dirty_list` runs on the self-linked node, leaving
`buffer_dirty_head` pointing at the now-clean buffer. -/
def c3s5 : St :=
  ((BufferC.getblk cfg3 c3s4 2 9 1024).getD (none, BufferC.emptySt)).2

/-- C3: the claimed invariant `DIRTY ⇔ on the dirty list` fails on the code.
After `bread;bwrite;bread;bwrite` of block `(1,7,1024)` followed by a
`getblk(2,9,1024)` that recycles the buffer, the reachable state has buffer
0 on the dirty list (it is `buffer_dirty_head`) with its `BUFFER_DIRTY` flag
clear. -/
theorem c3_dirty_list_divergence :
    Reachable cfg3 c3s5 ∧ 0 ∈ dirtyMembers cfg3 c3s5 ∧ (c3s5.bufs 0).dirty = false := by
  refine ⟨?_, by decide, by decide⟩
  have h1 : Reachable cfg3 c3s1 :=
    Reachable.step Reachable.init
      (Step.breadS 1 7 1024 (some 0) (BufferC.buffer_init cfg3) c3s1 rfl)
  have h2 : Reachable cfg3 c3s2 :=
    Reachable.step h1 (Step.bwriteS 0 c3s1 (by decide) (by decide))
  have h3 : Reachable cfg3 c3s3 :=
    Reachable.step h2 (Step.breadS 1 7 1024 (some 0) c3s2 c3s3 rfl)
  have h4 : Reachable cfg3 c3s4 :=
    Reachable.step h3 (Step.bwriteS 0 c3s3 (by decide) (by decide))
  exact Reachable.step h4 (Step.getblkS 2 9 1024 (some 0) c3s4 c3s5 rfl)

/-! ### The `VALID`/`data` claim -/

/-- One `reclaim_buffers` pass over the untouched fresh cache (it cycles the
whole free list, frees nothing, but stamps `BUFFER_VALID` everywhere). -/
def c4state : St :=
  ((BufferC.reclaim_buffers cfgW 3 (BufferC.buffer_init cfgW)).getD
    (BufferC.emptySt, 0)).1

/-- C4 as stated is false on the code: `reclaim_buffers` sets `BUFFER_VALID`
on every entry it cycles purely to steer the free-list reinsertion to the
tail, so right after a reclaim pass over the fresh cache, buffer 1 is
`VALID` with no data frame. -/
theorem c4_counterexample :
    Reachable cfgW c4state ∧ (c4state.bufs 1).valid = true ∧
      (c4state.bufs 1).data.isSome = false := by
  refine ⟨?_, by decide, by decide⟩
  exact Reachable.step Reachable.init
    (Step.reclaimS 3 0 (BufferC.buffer_init cfgW) c4state rfl)

/-- A block-device layer on which every write-back succeeds: every device is
registered, has the `write_block` method, and returns non-negative. -/
def goodDisk (cfg : Cfg) : Prop :=
  ∀ dev, cfg.registered dev = true ∧ cfg.hasWrite dev = true ∧
    ∀ blk, 0 ≤ cfg.writeResult dev blk

/-- Data presence: every hashed buffer, every dirty buffer and every held
(locked) buffer has a data frame. -/
def DataInv (s : St) : Prop :=
  (∀ i, ∀ b ∈ s.hashT i, (s.bufs b).data.isSome = true) ∧
  (∀ b, (s.bufs b).dirty = true → (s.bufs b).data.isSome = true) ∧
  (∀ b, (s.bufs b).locked = true → (s.bufs b).data.isSome = true)

/-- Like `DataInv` but with the held-buffer clause waived for one entry (the
entry currently being recycled). -/
def DataInvX (s : St) (b0 : Nat) : Prop :=
  (∀ i, ∀ b ∈ s.hashT i, (s.bufs b).data.isSome = true) ∧
  (∀ b, (s.bufs b).dirty = true → (s.bufs b).data.isSome = true) ∧
  (∀ b, b ≠ b0 → (s.bufs b).locked = true → (s.bufs b).data.isSome = true)

/-- The hash bucket of a buffer's current key. -/
def bucketOf (cfg : Cfg) (s : St) (b : Nat) : Nat :=
  BufferC.BUFFER_HASH cfg (s.bufs b).dev (s.bufs b).block

/-- Hash well-formedness: chains hold no duplicates, and an entry only sits
in the bucket of its current key. -/
def HashWF (cfg : Cfg) (s : St) : Prop :=
  (∀ i, (s.hashT i).Nodup) ∧
  (∀ i b, b ∈ s.hashT i → i = bucketOf cfg s b)

theorem dataInv_of_sameCore {s s' : St} (hsc : SameCore s s') (h : DataInv s) :
    DataInv s' := by
  obtain ⟨hh, hd, hl⟩ := h
  refine ⟨?_, ?_, ?_⟩
  · intro i b hb
    rw [hsc.2.1] at hb
    rw [(hsc.2.2.2 b).2.2.2.1]
    exact hh i b hb
  · intro b hb
    rw [(hsc.2.2.2 b).2.2.2.1]
    exact hd b ((hsc.2.2.2 b).2.2.2.2.2.2 hb)
  · intro b hb
    rw [(hsc.2.2.2 b).2.2.2.1]
    exact hl b (by rw [← (hsc.2.2.2 b).2.2.2.2.2.1]; exact hb)

theorem hashWF_of_sameCore {cfg : Cfg} {s s' : St} (hsc : SameCore s s')
    (h : HashWF cfg s) : HashWF cfg s' := by
  obtain ⟨hn, hw⟩ := h
  refine ⟨fun i => by rw [hsc.2.1]; exact hn i, fun i b hb => ?_⟩
  rw [hsc.2.1] at hb
  unfold bucketOf
  rw [(hsc.2.2.2 b).1, (hsc.2.2.2 b).2.1]
  exact hw i b hb

/-- Transport of both invariants along a pointwise update that keeps key,
data, dirty and locked information intact except as stated. -/
theorem dataInv_updBuf_flags {s : St} {b0 : Nat} (f : Buffer → Buffer)
    (hf : ∀ x, (f x).dev = x.dev ∧ (f x).block = x.block ∧ (f x).data = x.data ∧
      ((f x).dirty = true → x.dirty = true) ∧ ((f x).locked = true → x.locked = true))
    (h : DataInv s) : DataInv (updBuf s b0 f) := by
  obtain ⟨hh, hd, hl⟩ := h
  have hbufs : ∀ x, ((updBuf s b0 f).bufs x).data = (s.bufs x).data := by
    intro x
    rw [updBuf_bufs]
    by_cases hxb : x = b0
    · subst hxb; rw [if_pos rfl]; exact (hf _).2.2.1
    · rw [if_neg hxb]
  refine ⟨?_, ?_, ?_⟩
  · intro i b hb
    rw [hbufs b]
    exact hh i b hb
  · intro b hb
    rw [hbufs b]
    refine hd b ?_
    rw [updBuf_bufs] at hb
    by_cases hxb : b = b0
    · subst hxb; rw [if_pos rfl] at hb; exact (hf _).2.2.2.1 hb
    · rw [if_neg hxb] at hb; exact hb
  · intro b hb
    rw [hbufs b]
    refine hl b ?_
    rw [updBuf_bufs] at hb
    by_cases hxb : b = b0
    · subst hxb; rw [if_pos rfl] at hb; exact (hf _).2.2.2.2 hb
    · rw [if_neg hxb] at hb; exact hb

theorem hashWF_updBuf_keykeep {cfg : Cfg} {s : St} {b0 : Nat} (f : Buffer → Buffer)
    (hf : ∀ x, (f x).dev = x.dev ∧ (f x).block = x.block)
    (h : HashWF cfg s) : HashWF cfg (updBuf s b0 f) := by
  obtain ⟨hn, hw⟩ := h
  refine ⟨fun i => hn i, fun i b hb => ?_⟩
  have hb' : b ∈ s.hashT i := hb
  rw [hw i b hb']
  unfold bucketOf BufferC.BUFFER_HASH
  rw [updBuf_bufs]
  by_cases hxb : b = b0
  · subst hxb; rw [if_pos rfl, (hf _).1, (hf _).2]
  · rw [if_neg hxb]

theorem remove_from_dirty_list_dirty_self (s : St) (b : Nat) :
    ((BufferC.remove_from_dirty_list s b).bufs b).dirty = false := by
  show ((updBuf (BufferC.rfdl_fix_head (BufferC.rfdl_fix_prev
      (BufferC.rfdl_fix_next s b) b) b) b fun x =>
      { x with prev_dirty := none, next_dirty := none, dirty := false }).bufs b).dirty = false
  rw [updBuf_bufs, if_pos rfl]

/-- With a well-behaved device, a write-back always clears `BUFFER_DIRTY`. -/
theorem sync_one_clears_dirty {cfg : Cfg} (s : St) (b : Nat) (hgd : goodDisk cfg) :
    ((BufferC.sync_one_buffer cfg s b).bufs b).dirty = false := by
  unfold BufferC.sync_one_buffer
  rw [if_pos ((hgd (s.bufs b).dev).1), if_pos ((hgd (s.bufs b).dev).2.1)]
  dsimp only
  rw [if_neg (by exact not_lt.mpr ((hgd (s.bufs b).dev).2.2 _))]
  exact remove_from_dirty_list_dirty_self _ b

theorem dataInvX_of_dataInv {s : St} (b0 : Nat) (h : DataInv s) : DataInvX s b0 :=
  ⟨h.1, h.2.1, fun x _ => h.2.2 x⟩

theorem dataInvX_of_sameCore {s s' : St} {b0 : Nat} (hsc : SameCore s s')
    (h : DataInvX s b0) : DataInvX s' b0 := by
  obtain ⟨hh, hd, hl⟩ := h
  refine ⟨?_, ?_, ?_⟩
  · intro i b hb
    rw [hsc.2.1] at hb
    rw [(hsc.2.2.2 b).2.2.2.1]
    exact hh i b hb
  · intro b hb
    rw [(hsc.2.2.2 b).2.2.2.1]
    exact hd b ((hsc.2.2.2 b).2.2.2.2.2.2 hb)
  · intro b hb0 hb
    rw [(hsc.2.2.2 b).2.2.2.1]
    exact hl b hb0 (by rw [← (hsc.2.2.2 b).2.2.2.2.2.1]; exact hb)

theorem insert_to_hash_hashT_eq (cfg : Cfg) (s : St) (b i : Nat) :
    (BufferC.insert_to_hash cfg s b).hashT i =
      if i = BufferC.BUFFER_HASH cfg (s.bufs b).dev (s.bufs b).block
      then b :: s.hashT i else s.hashT i := by
  by_cases h : i = BufferC.BUFFER_HASH cfg (s.bufs b).dev (s.bufs b).block <;>
    simp [BufferC.insert_to_hash, h]

theorem remove_from_hash_hashT_eq (cfg : Cfg) (s : St) (b i : Nat) :
    (BufferC.remove_from_hash cfg s b).hashT i =
      if i = BufferC.BUFFER_HASH cfg (s.bufs b).dev (s.bufs b).block
      then (s.hashT i).erase b else s.hashT i := by
  by_cases h : i = BufferC.BUFFER_HASH cfg (s.bufs b).dev (s.bufs b).block <;>
    simp [BufferC.remove_from_hash, h]

/-- After `remove_from_hash`, a well-formed hash holds the entry nowhere. -/
theorem remove_from_hash_gone {cfg : Cfg} {s : St} (b : Nat) (hH : HashWF cfg s)
    (i : Nat) : b ∉ (BufferC.remove_from_hash cfg s b).hashT i := by
  rw [remove_from_hash_hashT_eq]
  by_cases hib : i = BufferC.BUFFER_HASH cfg (s.bufs b).dev (s.bufs b).block
  · rw [if_pos hib]
    intro hc
    exact ((List.Nodup.mem_erase_iff (hH.1 i)).mp hc).1 rfl
  · rw [if_neg hib]
    intro hc
    exact hib (hH.2 i b hc)

theorem hashWF_remove_from_hash {cfg : Cfg} {s : St} (b : Nat) (hH : HashWF cfg s) :
    HashWF cfg (BufferC.remove_from_hash cfg s b) := by
  refine ⟨fun i => ?_, fun i x hx => ?_⟩
  · rw [remove_from_hash_hashT_eq]
    split
    · exact (hH.1 i).erase b
    · exact hH.1 i
  · have hx' : x ∈ s.hashT i := remove_from_hash_mem hx
    rw [hH.2 i x hx']
    rfl

theorem dataInv_remove_from_hash {cfg : Cfg} {s : St} (b : Nat) (h : DataInvX s b) :
    DataInvX (BufferC.remove_from_hash cfg s b) b := by
  refine ⟨fun i x hx => h.1 i x (remove_from_hash_mem hx), h.2.1, h.2.2⟩

/-- `brelse` turns a one-entry-waived data invariant into the full one: the
waived entry comes back unlocked. -/
theorem dataInv_brelse {s : St} {b : Nat} (h : DataInvX s b) :
    DataInv (BufferC.brelse s b) := by
  obtain ⟨s1, hsc, heq⟩ := brelse_eq s b
  have h1 : DataInvX s1 b := dataInvX_of_sameCore hsc h
  rw [heq]
  have hframe := insert_on_free_list_frame s1 b
  obtain ⟨hh, hd, hl⟩ := h1
  have hbufs : ∀ x, ((updBuf (BufferC.insert_on_free_list s1 b) b fun y =>
      { y with locked := false }).bufs x) =
      if x = b then { s1.bufs b with locked := false } else s1.bufs x := by
    intro x
    rw [updBuf_bufs, congrFun hframe.1 x]
    by_cases hxb : x = b
    · subst hxb; simp
    · rw [if_neg hxb, if_neg hxb]
  refine ⟨?_, ?_, ?_⟩
  · intro i x hx
    have hx' : x ∈ (BufferC.insert_on_free_list s1 b).hashT i := hx
    rw [hframe.2.1] at hx'
    rw [hbufs x]
    by_cases hxb : x = b
    · subst hxb; rw [if_pos rfl]; exact hh i x hx'
    · rw [if_neg hxb]; exact hh i x hx'
  · intro x hx
    rw [hbufs x] at hx ⊢
    by_cases hxb : x = b
    · subst hxb; rw [if_pos rfl] at hx ⊢; exact hd x hx
    · rw [if_neg hxb] at hx ⊢; exact hd x hx
  · intro x hx
    rw [hbufs x] at hx ⊢
    by_cases hxb : x = b
    · subst hxb; rw [if_pos rfl] at hx; exact absurd hx (by simp)
    · rw [if_neg hxb] at hx ⊢; exact hl x hxb hx

theorem hashWF_brelse {cfg : Cfg} {s : St} {b : Nat} (h : HashWF cfg s) :
    HashWF cfg (BufferC.brelse s b) := by
  obtain ⟨s1, hsc, heq⟩ := brelse_eq s b
  have h1 : HashWF cfg s1 := hashWF_of_sameCore hsc h
  rw [heq]
  have hframe := insert_on_free_list_frame s1 b
  refine ⟨fun i => ?_, fun i x hx => ?_⟩
  · show ((BufferC.insert_on_free_list s1 b).hashT i).Nodup
    rw [hframe.2.1]
    exact h1.1 i
  · have hx' : x ∈ (BufferC.insert_on_free_list s1 b).hashT i := hx
    rw [hframe.2.1] at hx'
    rw [h1.2 i x hx']
    unfold bucketOf BufferC.BUFFER_HASH
    rw [updBuf_bufs, congrFun hframe.1 x]
    by_cases hxb : x = b
    · subst hxb; rw [if_pos rfl]
    · rw [if_neg hxb]

theorem dataInv_bwrite {s : St} {b : Nat} (h : DataInv s)
    (hl : (s.bufs b).locked = true) : DataInv (BufferC.bwrite s b) := by
  unfold BufferC.bwrite
  apply dataInv_brelse
  refine ⟨?_, ?_, ?_⟩
  · intro i x hx
    rw [updBuf_bufs]
    by_cases hxb : x = b
    · subst hxb; rw [if_pos rfl]; exact h.2.2 x hl
    · rw [if_neg hxb]; exact h.1 i x hx
  · intro x hx
    rw [updBuf_bufs]
    by_cases hxb : x = b
    · subst hxb; rw [if_pos rfl]; exact h.2.2 x hl
    · rw [if_neg hxb]
      rw [updBuf_bufs, if_neg hxb] at hx
      exact h.2.1 x hx
  · intro x hxb hx
    rw [updBuf_bufs, if_neg hxb] at hx ⊢
    exact h.2.2 x hx

theorem hashWF_bwrite {cfg : Cfg} {s : St} {b : Nat} (h : HashWF cfg s) :
    HashWF cfg (BufferC.bwrite s b) := by
  unfold BufferC.bwrite
  exact hashWF_brelse (hashWF_updBuf_keykeep _ (fun x => ⟨rfl, rfl⟩) h)

/-- Rebinding a held victim that has a frame restores the full data
invariant and hash well-formedness at the new key. -/
theorem dhi_rebind {cfg : Cfg} {X : St} {b0 : Nat} (d bl sz : Nat)
    (hD : DataInvX X b0) (hH : HashWF cfg X)
    (hdata : (X.bufs b0).data.isSome = true) :
    DataInv (BufferC.getblk_rebind cfg X b0 d bl sz).2 ∧
    HashWF cfg (BufferC.getblk_rebind cfg X b0 d bl sz).2 := by
  have hbufs : ∀ x, (BufferC.getblk_rebind cfg X b0 d bl sz).2.bufs x =
      if x = b0 then { X.bufs b0 with dev := d, block := bl, size := sz, valid := false }
      else X.bufs x := fun x => getblk_rebind_bufs cfg X b0 d bl sz x
  have hgone := remove_from_hash_gone b0 hH
  -- the hash table of the rebind result, bucket by bucket
  have hhash : ∀ i, (BufferC.getblk_rebind cfg X b0 d bl sz).2.hashT i =
      if i = BufferC.BUFFER_HASH cfg d bl
      then b0 :: (BufferC.remove_from_hash cfg X b0).hashT i
      else (BufferC.remove_from_hash cfg X b0).hashT i := by
    intro i
    show (BufferC.insert_to_hash cfg (updBuf (BufferC.remove_from_hash cfg X b0) b0
      fun y => { y with dev := d, block := bl, size := sz }) b0).hashT i = _
    rw [insert_to_hash_hashT_eq]
    rw [show ((updBuf (BufferC.remove_from_hash cfg X b0) b0
      fun y => { y with dev := d, block := bl, size := sz }).bufs b0) =
      { (BufferC.remove_from_hash cfg X b0).bufs b0 with
        dev := d, block := bl, size := sz } from by rw [updBuf_bufs, if_pos rfl]]
    rfl
  constructor
  · refine ⟨?_, ?_, ?_⟩
    · intro i x hx
      rw [hhash i] at hx
      rw [hbufs x]
      by_cases hxb : x = b0
      · subst hxb; rw [if_pos rfl]; exact hdata
      · rw [if_neg hxb]
        have hx' : x ∈ (BufferC.remove_from_hash cfg X b0).hashT i := by
          by_cases hib : i = BufferC.BUFFER_HASH cfg d bl
          · rw [if_pos hib] at hx
            rcases List.mem_cons.mp hx with h' | h'
            · exact absurd h' hxb
            · exact h'
          · rw [if_neg hib] at hx; exact hx
        exact hD.1 i x (remove_from_hash_mem hx')
    · intro x hx
      rw [hbufs x] at hx ⊢
      by_cases hxb : x = b0
      · subst hxb; rw [if_pos rfl]; exact hdata
      · rw [if_neg hxb] at hx ⊢; exact hD.2.1 x hx
    · intro x hx
      rw [hbufs x] at hx ⊢
      by_cases hxb : x = b0
      · subst hxb; rw [if_pos rfl]; exact hdata
      · rw [if_neg hxb] at hx ⊢; exact hD.2.2 x hxb hx
  · refine ⟨fun i => ?_, fun i x hx => ?_⟩
    · rw [hhash i]
      by_cases hib : i = BufferC.BUFFER_HASH cfg d bl
      · rw [if_pos hib]
        exact List.nodup_cons.mpr ⟨hgone i, (hashWF_remove_from_hash b0 hH).1 i⟩
      · rw [if_neg hib]
        exact (hashWF_remove_from_hash b0 hH).1 i
    · rw [hhash i] at hx
      unfold bucketOf BufferC.BUFFER_HASH
      rw [hbufs x]
      by_cases hxb : x = b0
      · subst hxb
        rw [if_pos rfl]
        by_cases hib : i = BufferC.BUFFER_HASH cfg d bl
        · exact hib.trans (by rfl)
        · rw [if_neg hib] at hx
          exact absurd hx (hgone i)
      · rw [if_neg hxb]
        have hx' : x ∈ (BufferC.remove_from_hash cfg X b0).hashT i := by
          by_cases hib : i = BufferC.BUFFER_HASH cfg d bl
          · rw [if_pos hib] at hx
            rcases List.mem_cons.mp hx with h' | h'
            · exact absurd h' hxb
            · exact h'
          · rw [if_neg hib] at hx; exact hx
        have := hH.2 i x (remove_from_hash_mem hx')
        rw [this]
        rfl

theorem dataInvX_updBuf_flags {s : St} {b0 bt : Nat} (f : Buffer → Buffer)
    (hf : ∀ x, (f x).data = x.data ∧ ((f x).dirty = true → x.dirty = true) ∧
      ((f x).locked = true → x.locked = true))
    (h : DataInvX s bt) : DataInvX (updBuf s b0 f) bt := by
  obtain ⟨hh, hd, hl⟩ := h
  have hbufs : ∀ x, ((updBuf s b0 f).bufs x).data = (s.bufs x).data := by
    intro x
    rw [updBuf_bufs]
    by_cases hxb : x = b0
    · subst hxb; rw [if_pos rfl]; exact (hf _).1
    · rw [if_neg hxb]
  refine ⟨fun i x hx => by rw [hbufs x]; exact hh i x hx, ?_, ?_⟩
  · intro x hx
    rw [hbufs x]
    refine hd x ?_
    rw [updBuf_bufs] at hx
    by_cases hxb : x = b0
    · subst hxb; rw [if_pos rfl] at hx; exact (hf _).2.1 hx
    · rw [if_neg hxb] at hx; exact hx
  · intro x hxt hx
    rw [hbufs x]
    refine hl x hxt ?_
    rw [updBuf_bufs] at hx
    by_cases hxb : x = b0
    · subst hxb; rw [if_pos rfl] at hx; exact (hf _).2.2 hx
    · rw [if_neg hxb] at hx; exact hx

theorem dataInvX_lock {s : St} {b0 : Nat} (hD : DataInv s) :
    DataInvX (updBuf s b0 fun x => { x with locked := true }) b0 := by
  have h0 : DataInvX s b0 := dataInvX_of_dataInv b0 hD
  obtain ⟨hh, hd, hl⟩ := h0
  refine ⟨fun i x hx => ?_, fun x hx => ?_, fun x hxt hx => ?_⟩
  · rw [updBuf_bufs]
    by_cases hxb : x = b0
    · subst hxb; rw [if_pos rfl]; exact hh i x hx
    · rw [if_neg hxb]; exact hh i x hx
  · rw [updBuf_bufs] at hx ⊢
    by_cases hxb : x = b0
    · subst hxb; rw [if_pos rfl] at hx ⊢; exact hd x hx
    · rw [if_neg hxb] at hx ⊢; exact hd x hx
  · rw [updBuf_bufs, if_neg hxt] at hx ⊢
    exact hD.2.2 x hx

theorem dataInv_lock_hashed {s : St} {b0 : Nat} (hD : DataInv s)
    (hdat : (s.bufs b0).data.isSome = true) :
    DataInv (updBuf s b0 fun x => { x with locked := true }) := by
  obtain ⟨hh, hd, hl⟩ := hD
  have hbufs : ∀ x, ((updBuf s b0 fun x => { x with locked := true }).bufs x).data =
      (s.bufs x).data := by
    intro x
    rw [updBuf_bufs]
    by_cases hxb : x = b0
    · subst hxb; rw [if_pos rfl]
    · rw [if_neg hxb]
  refine ⟨fun i x hx => by rw [hbufs x]; exact hh i x hx, fun x hx => ?_, fun x hx => ?_⟩
  · rw [hbufs x]
    refine hd x ?_
    rw [updBuf_bufs] at hx
    by_cases hxb : x = b0
    · subst hxb; rw [if_pos rfl] at hx; exact hx
    · rw [if_neg hxb] at hx; exact hx
  · rw [hbufs x]
    by_cases hxb : x = b0
    · subst hxb; exact hdat
    · rw [updBuf_bufs, if_neg hxb] at hx
      exact hl x hx

theorem dataInv_remove_full {cfg : Cfg} {s : St} (b : Nat) (h : DataInv s) :
    DataInv (BufferC.remove_from_hash cfg s b) :=
  ⟨fun i x hx => h.1 i x (remove_from_hash_mem hx), h.2.1, h.2.2⟩

/-- `getblk` preserves data presence and hash well-formedness. -/
theorem dhi_getblk {cfg : Cfg} {s : St} {d bl sz : Nat} {r : Option Nat} {s' : St}
    (hD : DataInv s) (hH : HashWF cfg s)
    (he : BufferC.getblk cfg s d bl sz = some (r, s')) :
    DataInv s' ∧ HashWF cfg s' := by
  unfold BufferC.getblk at he
  cases hs : BufferC.search_buffer_hash cfg s d bl sz with
  | some b0 =>
      rw [hs] at he
      dsimp only at he
      by_cases hl : (s.bufs b0).locked
      · rw [if_pos hl] at he; simp at he
      · rw [if_neg (by simp [hl])] at he
        injection he with he1
        have hs' : _ = s' := congrArg Prod.snd he1
        subst hs'
        have hdat : (s.bufs b0).data.isSome = true :=
          hD.1 _ b0 (List.mem_of_find?_eq_some hs)
        rw [remove_from_free_list_eq]
        exact ⟨dataInv_lock_hashed hD hdat,
          @hashWF_updBuf_keykeep cfg s b0 (fun x => { x with locked := true })
            (fun x => ⟨rfl, rfl⟩) hH⟩
  | none =>
      rw [hs] at he
      dsimp only at he
      cases hg : BufferC.get_free_buffer s with
      | none => rw [hg] at he; simp at he
      | some pr =>
          obtain ⟨b0, s1⟩ := pr
          rw [hg] at he
          dsimp only at he
          obtain ⟨t, hfl, hlk, hs1⟩ := get_free_buffer_eq hg
          have hD1 : DataInvX s1 b0 := by
            rw [hs1]
            exact dataInvX_lock hD
          have hH1 : HashWF cfg s1 := by
            rw [hs1]
            exact hashWF_updBuf_keykeep _ (fun x => ⟨rfl, rfl⟩) hH
          by_cases hd : (s1.bufs b0).dirty
          · rw [if_pos hd] at he
            injection he with he1
            have hsc := sameCore_sync_one_buffer cfg s1 b0
            have hdat : ((BufferC.sync_one_buffer cfg s1 b0).bufs b0).data.isSome = true := by
              rw [(hsc.2.2.2 b0).2.2.2.1]
              exact hD1.2.1 b0 hd
            obtain ⟨hDa, hHa⟩ := dhi_rebind d bl sz
              (dataInvX_of_sameCore hsc hD1) (hashWF_of_sameCore hsc hH1) hdat
            have hs' : _ = s' := congrArg Prod.snd he1
            exact hs' ▸ ⟨hDa, hHa⟩
          · rw [if_neg hd] at he
            by_cases hdat : (s1.bufs b0).data.isSome
            · rw [if_pos hdat] at he
              injection he with he1
              obtain ⟨hDa, hHa⟩ := dhi_rebind d bl sz hD1 hH1 hdat
              have hs' : _ = s' := congrArg Prod.snd he1
              exact hs' ▸ ⟨hDa, hHa⟩
            · rw [if_neg hdat] at he
              by_cases hsup : s1.allocSupply = 0
              · rw [if_pos hsup] at he
                injection he with he1
                have hs' : BufferC.brelse s1 b0 = s' := congrArg Prod.snd he1
                exact hs' ▸ ⟨dataInv_brelse hD1, hashWF_brelse hH1⟩
              · rw [if_neg hsup] at he
                injection he with he1
                have hD2 : DataInvX (updBuf s1 b0 fun x =>
                    { x with data := some fun _ => 0 }) b0 := by
                  obtain ⟨hh, hdd, hll⟩ := hD1
                  have hbufs : ∀ x, ((updBuf s1 b0 fun x =>
                      { x with data := some fun _ => 0 }).bufs x).data.isSome = true ∨
                      ((updBuf s1 b0 fun x =>
                      { x with data := some fun _ => 0 }).bufs x).data = (s1.bufs x).data := by
                    intro x
                    rw [updBuf_bufs]
                    by_cases hxb : x = b0
                    · subst hxb; rw [if_pos rfl]; exact Or.inl rfl
                    · rw [if_neg hxb]; exact Or.inr rfl
                  refine ⟨fun i x hx => ?_, fun x hx => ?_, fun x hxt hx => ?_⟩
                  · rcases hbufs x with h' | h'
                    · exact h'
                    · rw [h']; exact hh i x hx
                  · rcases hbufs x with h' | h'
                    · exact h'
                    · rw [h']
                      refine hdd x ?_
                      rw [updBuf_bufs] at hx
                      by_cases hxb : x = b0
                      · subst hxb; rw [if_pos rfl] at hx; exact hx
                      · rw [if_neg hxb] at hx; exact hx
                  · rcases hbufs x with h' | h'
                    · exact h'
                    · rw [h']
                      refine hll x hxt ?_
                      rw [updBuf_bufs, if_neg hxt] at hx
                      exact hx
                have hH2 : HashWF cfg (updBuf s1 b0 fun x =>
                    { x with data := some fun _ => 0 }) :=
                  hashWF_updBuf_keykeep _ (fun x => ⟨rfl, rfl⟩) hH1
                have hdat2 : (((updBuf s1 b0 fun x => { x with data := some fun _ => 0 }) :
                    St).bufs b0).data.isSome = true := by
                  rw [updBuf_bufs, if_pos rfl]
                  rfl
                have hs'2 : _ = s' := congrArg Prod.snd he1
                subst hs'2
                exact dhi_rebind d bl sz hD2 hH2 hdat2

/-- `bread` preserves data presence and hash well-formedness. -/
theorem dhi_bread {cfg : Cfg} {s : St} {d bl sz : Nat} {r : Option Nat} {s' : St}
    (hD : DataInv s) (hH : HashWF cfg s)
    (he : BufferC.bread cfg s d bl sz = some (r, s')) :
    DataInv s' ∧ HashWF cfg s' := by
  unfold BufferC.bread at he
  by_cases hreg : cfg.registered d
  · rw [if_pos hreg] at he
    cases hgb : BufferC.getblk cfg s d bl sz with
    | none => rw [hgb] at he; simp at he
    | some pr =>
        obtain ⟨rb, s1⟩ := pr
        rw [hgb] at he
        obtain ⟨hD1, hH1⟩ := dhi_getblk hD hH hgb
        cases rb with
        | none =>
            dsimp only at he
            injection he with he1
            have hs1 : s1 = s' := congrArg Prod.snd he1
            exact hs1 ▸ ⟨hD1, hH1⟩
        | some b =>
            dsimp only at he
            by_cases hv1 : (s1.bufs b).valid
            · rw [if_pos hv1, if_pos hv1] at he
              injection he with he1
              have hs1 : s1 = s' := congrArg Prod.snd he1
              exact hs1 ▸ ⟨hD1, hH1⟩
            · rw [if_neg hv1] at he
              by_cases hr2 : cfg.hasRead d
              · rw [if_pos hr2] at he
                by_cases hrr : 0 ≤ cfg.readResult d bl
                · rw [if_pos hrr] at he
                  have hc : ((updBuf { s1 with log := s1.log ++ [DevEvent.readB d bl sz] } b
                      fun x => { x with
                        data := some (memcpy_b (dataD x.data) 0 (cfg.readData d bl) sz),
                        valid := true }).bufs b).valid = true := by
                    rw [updBuf_bufs, if_pos rfl]
                  rw [if_pos hc] at he
                  injection he with he1
                  have hs1 : _ = s' := congrArg Prod.snd he1
                  subst hs1
                  constructor
                  · obtain ⟨hh, hdd, hll⟩ := hD1
                    have hbufs : ∀ x, ((updBuf { s1 with
                        log := s1.log ++ [DevEvent.readB d bl sz] } b fun x => { x with
                        data := some (memcpy_b (dataD x.data) 0 (cfg.readData d bl) sz),
                        valid := true }).bufs x).data.isSome = true ∨
                        ((updBuf { s1 with
                        log := s1.log ++ [DevEvent.readB d bl sz] } b fun x => { x with
                        data := some (memcpy_b (dataD x.data) 0 (cfg.readData d bl) sz),
                        valid := true }).bufs x).data = (s1.bufs x).data := by
                      intro x
                      rw [updBuf_bufs]
                      by_cases hxb : x = b
                      · subst hxb; rw [if_pos rfl]; exact Or.inl rfl
                      · rw [if_neg hxb]; exact Or.inr rfl
                    refine ⟨fun i x hx => ?_, fun x hx => ?_, fun x hx => ?_⟩
                    · rcases hbufs x with h' | h'
                      · exact h'
                      · rw [h']; exact hh i x hx
                    · rcases hbufs x with h' | h'
                      · exact h'
                      · rw [h']
                        refine hdd x ?_
                        rw [updBuf_bufs] at hx
                        by_cases hxb : x = b
                        · subst hxb; rw [if_pos rfl] at hx; exact hx
                        · rw [if_neg hxb] at hx; exact hx
                    · rcases hbufs x with h' | h'
                      · exact h'
                      · rw [h']
                        rw [updBuf_bufs] at hx
                        by_cases hxb : x = b
                        · subst hxb; rw [if_pos rfl] at hx; exact hll x hx
                        · rw [if_neg hxb] at hx; exact hll x hx
                  · have hH1' : HashWF cfg ({ s1 with
                        log := s1.log ++ [DevEvent.readB d bl sz] } : St) := hH1
                    exact @hashWF_updBuf_keykeep cfg
                      { s1 with log := s1.log ++ [DevEvent.readB d bl sz] } b
                      (fun x => { x with
                        data := some (memcpy_b (dataD x.data) 0 (cfg.readData d bl) sz),
                        valid := true })
                      (fun x => ⟨rfl, rfl⟩) hH1'
                · rw [if_neg hrr] at he
                  have hc : ¬(({ s1 with
                      log := s1.log ++ [DevEvent.readB d bl sz] } : St).bufs b).valid = true := hv1
                  rw [if_neg hc] at he
                  injection he with he1
                  have hs1 : _ = s' := congrArg Prod.snd he1
                  subst hs1
                  exact ⟨dataInv_brelse (dataInvX_of_dataInv b hD1),
                    hashWF_brelse hH1⟩
              · rw [if_neg hr2] at he
                rw [if_neg hv1] at he
                injection he with he1
                have hs1 : _ = s' := congrArg Prod.snd he1
                subst hs1
                exact ⟨dataInv_brelse (dataInvX_of_dataInv b hD1), hashWF_brelse hH1⟩
  · rw [if_neg hreg] at he
    injection he with he1
    have hs1 : s = s' := congrArg Prod.snd he1
    exact hs1 ▸ ⟨hD, hH⟩

theorem dhi_inv_step {cfg : Cfg} {s : St} (dev b : Nat) (hD : DataInv s)
    (hH : HashWF cfg s) :
    DataInv (BufferC.inv_step cfg dev s b) ∧ HashWF cfg (BufferC.inv_step cfg dev s b) := by
  unfold BufferC.inv_step
  split
  · dsimp only
    constructor
    · exact dataInv_updBuf_flags _
        (fun x => ⟨rfl, rfl, rfl, fun h => h, fun h => nomatch h⟩)
        (dataInv_remove_full b hD)
    · exact hashWF_updBuf_keykeep _ (fun x => ⟨rfl, rfl⟩)
        (hashWF_remove_from_hash b hH)
  · exact ⟨hD, hH⟩

theorem dhi_invalidate {cfg : Cfg} {s : St} (dev : Nat) (hD : DataInv s)
    (hH : HashWF cfg s) :
    DataInv (BufferC.invalidate_buffers cfg dev s) ∧
    HashWF cfg (BufferC.invalidate_buffers cfg dev s) := by
  unfold BufferC.invalidate_buffers
  generalize List.range cfg.numBuffers = l
  induction l generalizing s with
  | nil => exact ⟨hD, hH⟩
  | cons b t ih =>
      obtain ⟨hD', hH'⟩ := dhi_inv_step dev b hD hH
      exact ih hD' hH'

theorem reclaim_body_dirty_false {cfg : Cfg} (s1 : St) (b : Nat) (hgd : goodDisk cfg) :
    ((BufferC.reclaim_body cfg s1 b).bufs b).dirty = false := by
  unfold BufferC.reclaim_body
  dsimp only
  rw [updBuf_bufs, if_pos rfl]
  show ((if (s1.bufs b).dirty = true then
      BufferC.sync_one_buffer cfg s1 b else s1).bufs b).dirty = false
  split
  · exact sync_one_clears_dirty _ b hgd
  · rename_i hnd
    simpa using hnd

theorem dhi_reclaim_body {cfg : Cfg} {s1 : St} {b : Nat} (hD : DataInvX s1 b)
    (hH : HashWF cfg s1) :
    DataInvX (BufferC.reclaim_body cfg s1 b) b ∧
    HashWF cfg (BufferC.reclaim_body cfg s1 b) := by
  unfold BufferC.reclaim_body
  dsimp only
  have hsc : SameCore s1 (if (s1.bufs b).dirty = true then
      BufferC.sync_one_buffer cfg s1 b else s1) := by
    split
    · exact sameCore_sync_one_buffer cfg s1 b
    · exact SameCore.refl s1
  constructor
  · exact dataInvX_updBuf_flags _ (fun x => ⟨rfl, fun h => h, fun h => h⟩)
      (dataInvX_of_sameCore hsc hD)
  · exact hashWF_updBuf_keykeep _ (fun x => ⟨rfl, rfl⟩) (hashWF_of_sameCore hsc hH)

theorem dhi_reclaim_free {cfg : Cfg} {s3 : St} {b : Nat} (hD : DataInvX s3 b)
    (hH : HashWF cfg s3) (hdirty : (s3.bufs b).dirty = false) :
    DataInvX (BufferC.reclaim_free cfg s3 b) b ∧
    HashWF cfg (BufferC.reclaim_free cfg s3 b) := by
  unfold BufferC.reclaim_free
  dsimp only
  have hH4 : HashWF cfg (updBuf s3 b fun x => { x with data := none }) :=
    hashWF_updBuf_keykeep _ (fun x => ⟨rfl, rfl⟩) hH
  have hgone := remove_from_hash_gone b hH4
  have hbufs : ∀ x, ((BufferC.remove_from_hash cfg
      (updBuf s3 b fun x => { x with data := none }) b).bufs x) =
      if x = b then { s3.bufs b with data := none } else s3.bufs x := by
    intro x
    show ((updBuf s3 b fun y => { y with data := none }).bufs x) = _
    rw [updBuf_bufs]
    by_cases hxb : x = b
    · subst hxb; simp
    · rw [if_neg hxb, if_neg hxb]
  constructor
  · refine ⟨fun i x hx => ?_, fun x hx => ?_, fun x hxt hx => ?_⟩
    · have hx' : x ∈ (BufferC.remove_from_hash cfg
          (updBuf s3 b fun y => { y with data := none }) b).hashT i := hx
      have hxb : x ≠ b := by
        intro hc
        subst hc
        exact hgone i hx'
      have hmem0 := remove_from_hash_mem hx'
      have hmem : x ∈ s3.hashT i := hmem0
      show ((BufferC.remove_from_hash cfg
          (updBuf s3 b fun y => { y with data := none }) b).bufs x).data.isSome = true
      rw [hbufs x, if_neg hxb]
      exact hD.1 i x hmem
    · show ((BufferC.remove_from_hash cfg
          (updBuf s3 b fun y => { y with data := none }) b).bufs x).data.isSome = true
      have hx' : ((BufferC.remove_from_hash cfg
          (updBuf s3 b fun y => { y with data := none }) b).bufs x).dirty = true := hx
      rw [hbufs x] at hx' ⊢
      by_cases hxb : x = b
      · subst hxb
        rw [if_pos rfl] at hx'
        exact absurd hx' (by simpa using hdirty)
      · rw [if_neg hxb] at hx' ⊢
        exact hD.2.1 x hx'
    · show ((BufferC.remove_from_hash cfg
          (updBuf s3 b fun y => { y with data := none }) b).bufs x).data.isSome = true
      have hx' : ((BufferC.remove_from_hash cfg
          (updBuf s3 b fun y => { y with data := none }) b).bufs x).locked = true := hx
      rw [hbufs x] at hx' ⊢
      rw [if_neg hxt] at hx' ⊢
      exact hD.2.2 x hxt hx'
  · have h5 := hashWF_remove_from_hash b hH4
    exact ⟨h5.1, fun i x hx => h5.2 i x hx⟩

theorem dhi_reclaim_loop {cfg : Cfg} (hgd : goodDisk cfg) :
    ∀ (fuel : Nat) (first : Option Nat) (reclaimed : Nat) (s s' : St) (n : Nat),
      DataInv s → HashWF cfg s →
      BufferC.reclaim_loop cfg fuel first reclaimed s = some (s', n) →
      DataInv s' ∧ HashWF cfg s' := by
  intro fuel
  induction fuel with
  | zero =>
      intro first reclaimed s s' n hD hH he
      rw [BufferC.reclaim_loop] at he
      exact absurd he (by simp)
  | succ f ih =>
      intro first reclaimed s s' n hD hH he
      rw [BufferC.reclaim_loop] at he
      cases hg : BufferC.get_free_buffer s with
      | none => rw [hg] at he; simp at he
      | some pr =>
          obtain ⟨b, s1⟩ := pr
          rw [hg] at he
          dsimp only at he
          obtain ⟨t, hfl, hlk, hs1⟩ := get_free_buffer_eq hg
          have hD1 : DataInvX s1 b := by
            rw [hs1]; exact dataInvX_lock hD
          have hH1 : HashWF cfg s1 := by
            rw [hs1]
            exact hashWF_updBuf_keykeep _ (fun x => ⟨rfl, rfl⟩) hH
          obtain ⟨hD3, hH3⟩ := dhi_reclaim_body hD1 hH1
          by_cases hf : first = some b
          · rw [if_pos hf] at he
            injection he with he1
            have hs' : BufferC.brelse (BufferC.reclaim_body cfg s1 b) b = s' :=
              congrArg Prod.fst he1
            exact hs' ▸ ⟨dataInv_brelse hD3, hashWF_brelse hH3⟩
          · rw [if_neg hf] at he
            by_cases hdat : ((BufferC.reclaim_body cfg s1 b).bufs b).data.isSome
            · rw [if_pos hdat] at he
              obtain ⟨hD6, hH6⟩ := dhi_reclaim_free hD3 hH3
                (reclaim_body_dirty_false s1 b hgd)
              by_cases htar : reclaimed + 1 = cfg.nrBufReclaim
              · rw [if_pos htar] at he
                injection he with he1
                have hs' : BufferC.brelse (BufferC.reclaim_free cfg
                    (BufferC.reclaim_body cfg s1 b) b) b = s' := congrArg Prod.fst he1
                exact hs' ▸ ⟨dataInv_brelse hD6, hashWF_brelse hH6⟩
              · rw [if_neg htar] at he
                exact ih _ _ _ _ _ (dataInv_brelse hD6) (hashWF_brelse hH6) he
            · rw [if_neg hdat] at he
              exact ih _ _ _ _ _ (dataInv_brelse hD3) (hashWF_brelse hH3) he

theorem dhi_init (cfg : Cfg) :
    DataInv (BufferC.buffer_init cfg) ∧ HashWF cfg (BufferC.buffer_init cfg) := by
  constructor
  · refine ⟨fun i b hb => ?_, fun b hb => ?_, fun b hb => ?_⟩
    · rw [buffer_init_hashT] at hb
      exact absurd hb (List.not_mem_nil b)
    · rw [buffer_init_bufs] at hb
      exact absurd hb (by simp [Buffer.dirty])
    · rw [buffer_init_bufs] at hb
      exact absurd hb (by simp [Buffer.locked])
  · refine ⟨fun i => ?_, fun i b hb => ?_⟩
    · rw [buffer_init_hashT]
      exact List.nodup_nil
    · rw [buffer_init_hashT] at hb
      exact absurd hb (List.not_mem_nil b)

/-- Every atomic operation preserves data presence and hash
well-formedness, once every device write-back succeeds. -/
theorem dhi_step {cfg : Cfg} {s s' : St} (hgd : goodDisk cfg)
    (hD : DataInv s) (hH : HashWF cfg s) (hs : Step cfg s s') :
    DataInv s' ∧ HashWF cfg s' := by
  cases hs with
  | getblkS dev block size r s s' he => exact dhi_getblk hD hH he
  | breadS dev block size r s s' he => exact dhi_bread hD hH he
  | bwriteS b s hb hl => exact ⟨dataInv_bwrite hD hl, hashWF_bwrite hH⟩
  | brelseS b s hb hl =>
      exact ⟨dataInv_brelse (dataInvX_of_dataInv b hD), hashWF_brelse hH⟩
  | syncS dev fuel s s' he =>
      have hsc := sync_loop_sameCore cfg dev fuel s.dirtyHead s s' he
      exact ⟨dataInv_of_sameCore hsc hD, hashWF_of_sameCore hsc hH⟩
  | invS dev s => exact dhi_invalidate dev hD hH
  | reclaimS fuel n s s' he => exact dhi_reclaim_loop hgd _ _ _ _ _ _ hD hH he

theorem dhi_reachable {cfg : Cfg} {s : St} (hgd : goodDisk cfg)
    (h : Reachable cfg s) : DataInv s ∧ HashWF cfg s := by
  induction h with
  | init => exact dhi_init cfg
  | step hr hst ih => exact dhi_step hgd ih.1 ih.2 hst

/-- C4, amended: with devices whose write-back succeeds, every buffer
present in the hash has a non-null data frame in every reachable state; in
particular `reclaim_buffers` preserves this, removing from the hash every
entry whose frame it frees (while leaving `VALID` set on those entries). -/
theorem c4_hashed_data {cfg : Cfg} {s : St} (hgd : goodDisk cfg)
    (h : Reachable cfg s) (i b : Nat) (hb : b ∈ s.hashT i) :
    (s.bufs b).data.isSome = true :=
  (dhi_reachable hgd h).1.1 i b hb

/-- `bread(1,7,1024)` on the fresh two-buffer cache: buffer 1 is read and
hashed. -/
def c4wits : St :=
  ((BufferC.bread cfgW (BufferC.buffer_init cfgW) 1 7 1024).getD
    (none, BufferC.emptySt)).2

theorem c4_witness :
    goodDisk cfgW ∧ 1 ∈ c4wits.hashT (BufferC.BUFFER_HASH cfgW 1 7) ∧
    (c4wits.bufs 1).data.isSome = true := by
  have hgd : goodDisk cfgW := fun dev => ⟨rfl, rfl, fun blk => le_refl 0⟩
  refine ⟨hgd, by decide, ?_⟩
  exact c4_hashed_data hgd
    (Reachable.step Reachable.init
      (Step.breadS 1 7 1024 (some 1) (BufferC.buffer_init cfgW) c4wits rfl))
    (BufferC.BUFFER_HASH cfgW 1 7) 1 (by decide)

/-! ### The buffer cache never touches the page cache or the inodes -/

/-- The page-cache and inode fields of the state. -/
def SamePages (s s' : St) : Prop :=
  s'.pages = s.pages ∧ s'.pageFree = s.pageFree ∧ s'.pageHash = s.pageHash ∧
  s'.kcached = s.kcached ∧ s'.inodes = s.inodes

theorem samePages_refl (s : St) : SamePages s s := ⟨rfl, rfl, rfl, rfl, rfl⟩

theorem samePages_trans {s1 s2 s3 : St} (h : SamePages s1 s2) (h' : SamePages s2 s3) :
    SamePages s1 s3 :=
  ⟨h'.1.trans h.1, h'.2.1.trans h.2.1, h'.2.2.1.trans h.2.2.1,
    h'.2.2.2.1.trans h.2.2.2.1, h'.2.2.2.2.trans h.2.2.2.2⟩

theorem samePages_iodl_link (s : St) (b : Nat) : SamePages s (BufferC.iodl_link s b) := by
  unfold BufferC.iodl_link
  cases h : s.dirtyHead <;> simp only [h]
  · exact samePages_refl s
  · exact ⟨rfl, rfl, rfl, rfl, rfl⟩

theorem samePages_insert_on_dirty_list (s : St) (b : Nat) :
    SamePages s (BufferC.insert_on_dirty_list s b) := by
  unfold BufferC.insert_on_dirty_list
  split
  · exact samePages_refl s
  · exact samePages_trans (samePages_iodl_link s b) ⟨rfl, rfl, rfl, rfl, rfl⟩

theorem samePages_rfdl_fix_next (s : St) (b : Nat) : SamePages s (BufferC.rfdl_fix_next s b) := by
  unfold BufferC.rfdl_fix_next
  cases h : (s.bufs b).next_dirty <;> simp only [h]
  · exact samePages_refl s
  · exact ⟨rfl, rfl, rfl, rfl, rfl⟩

theorem samePages_rfdl_fix_prev (s : St) (b : Nat) : SamePages s (BufferC.rfdl_fix_prev s b) := by
  unfold BufferC.rfdl_fix_prev
  cases h : (s.bufs b).prev_dirty <;> simp only [h]
  · exact samePages_refl s
  · exact ⟨rfl, rfl, rfl, rfl, rfl⟩

theorem samePages_rfdl_fix_head (s : St) (b : Nat) : SamePages s (BufferC.rfdl_fix_head s b) := by
  unfold BufferC.rfdl_fix_head
  split
  · exact ⟨rfl, rfl, rfl, rfl, rfl⟩
  · exact samePages_refl s

theorem samePages_remove_from_dirty_list (s : St) (b : Nat) :
    SamePages s (BufferC.remove_from_dirty_list s b) := by
  unfold BufferC.remove_from_dirty_list
  exact samePages_trans (samePages_trans (samePages_trans (samePages_rfdl_fix_next s b)
    (samePages_rfdl_fix_prev _ b)) (samePages_rfdl_fix_head _ b)) ⟨rfl, rfl, rfl, rfl, rfl⟩

theorem samePages_sync_one_buffer (cfg : Cfg) (s : St) (b : Nat) :
    SamePages s (BufferC.sync_one_buffer cfg s b) := by
  unfold BufferC.sync_one_buffer
  split
  · split
    · dsimp only
      split
      · exact ⟨rfl, rfl, rfl, rfl, rfl⟩
      · exact samePages_trans ⟨rfl, rfl, rfl, rfl, rfl⟩
          (samePages_remove_from_dirty_list _ b)
    · exact samePages_refl s
  · exact samePages_refl s

theorem samePages_insert_on_free_list (s : St) (b : Nat) :
    SamePages s (BufferC.insert_on_free_list s b) := by
  cases hv : (s.bufs b).valid
  · rw [insert_on_free_list_invalid s b hv]
    exact ⟨rfl, rfl, rfl, rfl, rfl⟩
  · rw [insert_on_free_list_valid s b hv]
    exact ⟨rfl, rfl, rfl, rfl, rfl⟩

theorem samePages_brelse (s : St) (b : Nat) : SamePages s (BufferC.brelse s b) := by
  unfold BufferC.brelse
  dsimp only
  split
  · exact samePages_trans (samePages_trans (samePages_insert_on_dirty_list s b)
      (samePages_insert_on_free_list _ b)) ⟨rfl, rfl, rfl, rfl, rfl⟩
  · exact samePages_trans (samePages_insert_on_free_list s b) ⟨rfl, rfl, rfl, rfl, rfl⟩

theorem samePages_bwrite (s : St) (b : Nat) : SamePages s (BufferC.bwrite s b) := by
  unfold BufferC.bwrite
  exact samePages_trans ⟨rfl, rfl, rfl, rfl, rfl⟩ (samePages_brelse _ b)

theorem samePages_getblk {cfg : Cfg} {s : St} {d bl sz : Nat} {r : Option Nat} {s' : St}
    (he : BufferC.getblk cfg s d bl sz = some (r, s')) : SamePages s s' := by
  unfold BufferC.getblk at he
  cases hs : BufferC.search_buffer_hash cfg s d bl sz with
  | some b0 =>
      rw [hs] at he
      dsimp only at he
      by_cases hl : (s.bufs b0).locked
      · rw [if_pos hl] at he; simp at he
      · rw [if_neg (by simp [hl])] at he
        injection he with he1
        have hs' : _ = s' := congrArg Prod.snd he1
        subst hs'
        rw [remove_from_free_list_eq]
        exact ⟨rfl, rfl, rfl, rfl, rfl⟩
  | none =>
      rw [hs] at he
      dsimp only at he
      cases hg : BufferC.get_free_buffer s with
      | none => rw [hg] at he; simp at he
      | some pr =>
          obtain ⟨b0, s1⟩ := pr
          rw [hg] at he
          dsimp only at he
          obtain ⟨t, hfl, hlk, hs1⟩ := get_free_buffer_eq hg
          have hsp1 : SamePages s s1 := by
            rw [hs1]; exact ⟨rfl, rfl, rfl, rfl, rfl⟩
          by_cases hd : (s1.bufs b0).dirty
          · rw [if_pos hd] at he
            injection he with he1
            have hs' : _ = s' := congrArg Prod.snd he1
            subst hs'
            exact samePages_trans (samePages_trans hsp1
              (samePages_sync_one_buffer cfg s1 b0)) ⟨rfl, rfl, rfl, rfl, rfl⟩
          · rw [if_neg hd] at he
            by_cases hdat : (s1.bufs b0).data.isSome
            · rw [if_pos hdat] at he
              injection he with he1
              have hs' : _ = s' := congrArg Prod.snd he1
              subst hs'
              exact samePages_trans hsp1 ⟨rfl, rfl, rfl, rfl, rfl⟩
            · rw [if_neg hdat] at he
              by_cases hsup : s1.allocSupply = 0
              · rw [if_pos hsup] at he
                injection he with he1
                have hs' : BufferC.brelse s1 b0 = s' := congrArg Prod.snd he1
                subst hs'
                exact samePages_trans hsp1 (samePages_brelse s1 b0)
              · rw [if_neg hsup] at he
                injection he with he1
                have hs' : _ = s' := congrArg Prod.snd he1
                subst hs'
                exact samePages_trans hsp1 ⟨rfl, rfl, rfl, rfl, rfl⟩

theorem samePages_bread {cfg : Cfg} {s : St} {d bl sz : Nat} {r : Option Nat} {s' : St}
    (he : BufferC.bread cfg s d bl sz = some (r, s')) : SamePages s s' := by
  unfold BufferC.bread at he
  by_cases hreg : cfg.registered d
  · rw [if_pos hreg] at he
    cases hgb : BufferC.getblk cfg s d bl sz with
    | none => rw [hgb] at he; simp at he
    | some pr =>
        obtain ⟨rb, s1⟩ := pr
        rw [hgb] at he
        have hsp1 := samePages_getblk hgb
        cases rb with
        | none =>
            dsimp only at he
            injection he with he1
            have hs1 : s1 = s' := congrArg Prod.snd he1
            exact hs1 ▸ hsp1
        | some b =>
            dsimp only at he
            by_cases hv1 : (s1.bufs b).valid
            · rw [if_pos hv1, if_pos hv1] at he
              injection he with he1
              have hs1 : s1 = s' := congrArg Prod.snd he1
              exact hs1 ▸ hsp1
            · rw [if_neg hv1] at he
              by_cases hr2 : cfg.hasRead d
              · rw [if_pos hr2] at he
                by_cases hrr : 0 ≤ cfg.readResult d bl
                · rw [if_pos hrr] at he
                  have hc : ((updBuf { s1 with log := s1.log ++ [DevEvent.readB d bl sz] } b
                      fun x => { x with
                        data := some (memcpy_b (dataD x.data) 0 (cfg.readData d bl) sz),
                        valid := true }).bufs b).valid = true := by
                    rw [updBuf_bufs, if_pos rfl]
                  rw [if_pos hc] at he
                  injection he with he1
                  have hs1 : _ = s' := congrArg Prod.snd he1
                  subst hs1
                  exact samePages_trans hsp1 ⟨rfl, rfl, rfl, rfl, rfl⟩
                · rw [if_neg hrr] at he
                  have hc : ¬(({ s1 with
                      log := s1.log ++ [DevEvent.readB d bl sz] } : St).bufs b).valid = true := hv1
                  rw [if_neg hc] at he
                  injection he with he1
                  have hs1 : _ = s' := congrArg Prod.snd he1
                  subst hs1
                  exact samePages_trans (samePages_trans hsp1 ⟨rfl, rfl, rfl, rfl, rfl⟩)
                    (samePages_brelse _ b)
              · rw [if_neg hr2] at he
                rw [if_neg hv1] at he
                injection he with he1
                have hs1 : _ = s' := congrArg Prod.snd he1
                subst hs1
                exact samePages_trans hsp1 (samePages_brelse s1 b)
  · rw [if_neg hreg] at he
    injection he with he1
    have hs1 : s = s' := congrArg Prod.snd he1
    exact hs1 ▸ samePages_refl s

/-! ### Ghost-field frame lemmas: the dirty-list surgery and the release
path never touch the freed-frame record or the device log -/

theorem iodl_link_ghost (s : St) (b : Nat) :
    (BufferC.iodl_link s b).freedFrames = s.freedFrames ∧
    (BufferC.iodl_link s b).log = s.log := by
  unfold BufferC.iodl_link
  cases h : s.dirtyHead <;> exact ⟨rfl, rfl⟩

theorem insert_on_dirty_list_ghost (s : St) (b : Nat) :
    (BufferC.insert_on_dirty_list s b).freedFrames = s.freedFrames ∧
    (BufferC.insert_on_dirty_list s b).log = s.log := by
  unfold BufferC.insert_on_dirty_list
  split
  · exact ⟨rfl, rfl⟩
  · exact ⟨(iodl_link_ghost s b).1, (iodl_link_ghost s b).2⟩

theorem rfdl_fix_next_ghost (s : St) (b : Nat) :
    (BufferC.rfdl_fix_next s b).freedFrames = s.freedFrames ∧
    (BufferC.rfdl_fix_next s b).log = s.log := by
  unfold BufferC.rfdl_fix_next
  cases h : (s.bufs b).next_dirty <;> exact ⟨rfl, rfl⟩

theorem rfdl_fix_prev_ghost (s : St) (b : Nat) :
    (BufferC.rfdl_fix_prev s b).freedFrames = s.freedFrames ∧
    (BufferC.rfdl_fix_prev s b).log = s.log := by
  unfold BufferC.rfdl_fix_prev
  cases h : (s.bufs b).prev_dirty <;> exact ⟨rfl, rfl⟩

theorem rfdl_fix_head_ghost (s : St) (b : Nat) :
    (BufferC.rfdl_fix_head s b).freedFrames = s.freedFrames ∧
    (BufferC.rfdl_fix_head s b).log = s.log := by
  unfold BufferC.rfdl_fix_head
  split
  · exact ⟨rfl, rfl⟩
  · exact ⟨rfl, rfl⟩

theorem remove_from_dirty_list_ghost (s : St) (b : Nat) :
    (BufferC.remove_from_dirty_list s b).freedFrames = s.freedFrames ∧
    (BufferC.remove_from_dirty_list s b).log = s.log := by
  constructor
  · show (BufferC.rfdl_fix_head (BufferC.rfdl_fix_prev (BufferC.rfdl_fix_next s b) b)
      b).freedFrames = s.freedFrames
    rw [(rfdl_fix_head_ghost _ b).1, (rfdl_fix_prev_ghost _ b).1, (rfdl_fix_next_ghost s b).1]
  · show (BufferC.rfdl_fix_head (BufferC.rfdl_fix_prev (BufferC.rfdl_fix_next s b) b)
      b).log = s.log
    rw [(rfdl_fix_head_ghost _ b).2, (rfdl_fix_prev_ghost _ b).2, (rfdl_fix_next_ghost s b).2]

theorem sync_one_buffer_freed (cfg : Cfg) (s : St) (b : Nat) :
    (BufferC.sync_one_buffer cfg s b).freedFrames = s.freedFrames := by
  unfold BufferC.sync_one_buffer
  split
  · split
    · dsimp only
      split
      · rfl
      · exact ((remove_from_dirty_list_ghost _ b).1).trans rfl
    · rfl
  · rfl

/-- `brelse` touches the free list and the released buffer's `LOCKED` bit
and dirty-list links, nothing else. -/
theorem brelse_frame (s : St) (b : Nat) :
    (BufferC.brelse s b).hashT = s.hashT ∧
    (BufferC.brelse s b).freedFrames = s.freedFrames ∧
    (BufferC.brelse s b).log = s.log ∧
    (∀ x, ((BufferC.brelse s b).bufs x).data = (s.bufs x).data) ∧
    ((BufferC.brelse s b).bufs b).locked = false ∧
    (∀ x, x ≠ b → ((BufferC.brelse s b).bufs x).locked = (s.bufs x).locked) ∧
    (∀ x, x ∈ (BufferC.brelse s b).freeList ↔ x = b ∨ x ∈ s.freeList) := by
  unfold BufferC.brelse
  dsimp only
  split
  · rename_i hdirty
    have hsc := sameCore_insert_on_dirty_list s b
    have hgh := insert_on_dirty_list_ghost s b
    have hframe := insert_on_free_list_frame (BufferC.insert_on_dirty_list s b) b
    refine ⟨?_, ?_, ?_, fun x => ?_, ?_, fun x hxb => ?_, fun x => ?_⟩
    · show (BufferC.insert_on_free_list (BufferC.insert_on_dirty_list s b) b).hashT = s.hashT
      rw [hframe.2.1, hsc.2.1]
    · show (BufferC.insert_on_free_list
        (BufferC.insert_on_dirty_list s b) b).freedFrames = s.freedFrames
      rw [hframe.2.2.2.2.2.2.2, hgh.1]
    · show (BufferC.insert_on_free_list (BufferC.insert_on_dirty_list s b) b).log = s.log
      rw [hframe.2.2.2.2.2.1, hgh.2]
    · rw [updBuf_bufs, congrFun hframe.1 x]
      by_cases hxb : x = b
      · rw [if_pos hxb]
        show ((BufferC.insert_on_dirty_list s b).bufs x).data = (s.bufs x).data
        exact (hsc.2.2.2 x).2.2.2.1
      · rw [if_neg hxb]
        exact (hsc.2.2.2 x).2.2.2.1
    · rw [updBuf_bufs, if_pos rfl]
    · rw [updBuf_bufs, if_neg hxb, congrFun hframe.1 x]
      exact (hsc.2.2.2 x).2.2.2.2.2.1
    · show x ∈ (BufferC.insert_on_free_list (BufferC.insert_on_dirty_list s b) b).freeList ↔ _
      rw [insert_on_free_list_mem, hsc.1]
  · have hframe := insert_on_free_list_frame s b
    refine ⟨?_, ?_, ?_, fun x => ?_, ?_, fun x hxb => ?_, fun x => ?_⟩
    · show (BufferC.insert_on_free_list s b).hashT = s.hashT
      exact hframe.2.1
    · show (BufferC.insert_on_free_list s b).freedFrames = s.freedFrames
      exact hframe.2.2.2.2.2.2.2
    · show (BufferC.insert_on_free_list s b).log = s.log
      exact hframe.2.2.2.2.2.1
    · rw [updBuf_bufs, congrFun hframe.1 x]
      by_cases hxb : x = b
      · rw [if_pos hxb]
      · rw [if_neg hxb]
    · rw [updBuf_bufs, if_pos rfl]
    · rw [updBuf_bufs, if_neg hxb, congrFun hframe.1 x]
    · show x ∈ (BufferC.insert_on_free_list s b).freeList ↔ _
      rw [insert_on_free_list_mem]

theorem brelse_nodup {s : St} {b : Nat} (hnd : s.freeList.Nodup)
    (hb : b ∉ s.freeList) : (BufferC.brelse s b).freeList.Nodup := by
  obtain ⟨s1, hsc, heq⟩ := brelse_eq s b
  rw [heq]
  show (BufferC.insert_on_free_list s1 b).freeList.Nodup
  refine insert_on_free_list_nodup s1 b ?_ ?_
  · rw [hsc.1]; exact hnd
  · rw [hsc.1]; exact hb

/-- One `reclaim_buffers` round head: only the victim's flags, the dirty
list and the log can change. -/
theorem reclaim_body_frame (cfg : Cfg) (s1 : St) (b : Nat) :
    (BufferC.reclaim_body cfg s1 b).hashT = s1.hashT ∧
    (BufferC.reclaim_body cfg s1 b).freeList = s1.freeList ∧
    (BufferC.reclaim_body cfg s1 b).freedFrames = s1.freedFrames ∧
    ∀ x, ((BufferC.reclaim_body cfg s1 b).bufs x).data = (s1.bufs x).data ∧
      ((BufferC.reclaim_body cfg s1 b).bufs x).locked = (s1.bufs x).locked := by
  have hsc : SameCore s1 (if (s1.bufs b).dirty = true then
      BufferC.sync_one_buffer cfg s1 b else s1) := by
    split
    · exact sameCore_sync_one_buffer cfg s1 b
    · exact SameCore.refl s1
  have hfr : (if (s1.bufs b).dirty = true then
      BufferC.sync_one_buffer cfg s1 b else s1).freedFrames = s1.freedFrames := by
    split
    · exact sync_one_buffer_freed cfg s1 b
    · rfl
  refine ⟨?_, ?_, ?_, fun x => ⟨?_, ?_⟩⟩
  · show ((updBuf (if (s1.bufs b).dirty = true then BufferC.sync_one_buffer cfg s1 b else s1)
      b fun y => { y with valid := true }).hashT) = s1.hashT
    exact hsc.2.1
  · show ((updBuf (if (s1.bufs b).dirty = true then BufferC.sync_one_buffer cfg s1 b else s1)
      b fun y => { y with valid := true }).freeList) = s1.freeList
    exact hsc.1
  · show ((updBuf (if (s1.bufs b).dirty = true then BufferC.sync_one_buffer cfg s1 b else s1)
      b fun y => { y with valid := true }).freedFrames) = s1.freedFrames
    exact hfr
  · show (((updBuf (if (s1.bufs b).dirty = true then BufferC.sync_one_buffer cfg s1 b else s1)
      b fun y => { y with valid := true }).bufs x).data) = (s1.bufs x).data
    rw [updBuf_bufs]
    by_cases hxb : x = b
    · rw [if_pos hxb]
      exact (hsc.2.2.2 x).2.2.2.1
    · rw [if_neg hxb]
      exact (hsc.2.2.2 x).2.2.2.1
  · show (((updBuf (if (s1.bufs b).dirty = true then BufferC.sync_one_buffer cfg s1 b else s1)
      b fun y => { y with valid := true }).bufs x).locked) = (s1.bufs x).locked
    rw [updBuf_bufs]
    by_cases hxb : x = b
    · rw [if_pos hxb]
      exact (hsc.2.2.2 x).2.2.2.2.2.1
    · rw [if_neg hxb]
      exact (hsc.2.2.2 x).2.2.2.2.2.1

/-- The freeing part of a `reclaim_buffers` round, field by field. -/
theorem reclaim_free_frame (cfg : Cfg) (s3 : St) (b : Nat) :
    (BufferC.reclaim_free cfg s3 b).freeList = s3.freeList ∧
    (BufferC.reclaim_free cfg s3 b).freedFrames = s3.freedFrames ++ [b] ∧
    (BufferC.reclaim_free cfg s3 b).log = s3.log ∧
    ∀ x, (BufferC.reclaim_free cfg s3 b).bufs x =
      if x = b then { s3.bufs b with data := none } else s3.bufs x := by
  refine ⟨rfl, rfl, rfl, fun x => ?_⟩
  show ((updBuf s3 b fun y => { y with data := none }).bufs x) = _
  rw [updBuf_bufs]
  by_cases hxb : x = b
  · subst hxb; simp
  · rw [if_neg hxb, if_neg hxb]

theorem reclaim_free_gone {cfg : Cfg} {s3 : St} {b : Nat} (hH : HashWF cfg s3)
    (i : Nat) : b ∉ (BufferC.reclaim_free cfg s3 b).hashT i := by
  have hH4 : HashWF cfg (updBuf s3 b fun x => { x with data := none }) :=
    hashWF_updBuf_keykeep _ (fun x => ⟨rfl, rfl⟩) hH
  exact remove_from_hash_gone b hH4 i

theorem reclaim_free_not_mem {cfg : Cfg} {s3 : St} {b x : Nat} (i : Nat)
    (hx : x ∉ s3.hashT i) : x ∉ (BufferC.reclaim_free cfg s3 b).hashT i := by
  intro hc
  have hc' : x ∈ (BufferC.remove_from_hash cfg
      (updBuf s3 b fun y => { y with data := none }) b).hashT i := hc
  have hmem := remove_from_hash_mem hc'
  exact hx hmem

/-! ### Hash well-formedness holds in every reachable state, with no
assumption on the devices -/

theorem hashWF_rebind {cfg : Cfg} {X : St} {b0 : Nat} (d bl sz : Nat)
    (hH : HashWF cfg X) : HashWF cfg (BufferC.getblk_rebind cfg X b0 d bl sz).2 := by
  have hbufs : ∀ x, (BufferC.getblk_rebind cfg X b0 d bl sz).2.bufs x =
      if x = b0 then { X.bufs b0 with dev := d, block := bl, size := sz, valid := false }
      else X.bufs x := fun x => getblk_rebind_bufs cfg X b0 d bl sz x
  have hgone := remove_from_hash_gone b0 hH
  have hhash : ∀ i, (BufferC.getblk_rebind cfg X b0 d bl sz).2.hashT i =
      if i = BufferC.BUFFER_HASH cfg d bl
      then b0 :: (BufferC.remove_from_hash cfg X b0).hashT i
      else (BufferC.remove_from_hash cfg X b0).hashT i := by
    intro i
    show (BufferC.insert_to_hash cfg (updBuf (BufferC.remove_from_hash cfg X b0) b0
      fun y => { y with dev := d, block := bl, size := sz }) b0).hashT i = _
    rw [insert_to_hash_hashT_eq]
    rw [show ((updBuf (BufferC.remove_from_hash cfg X b0) b0
      fun y => { y with dev := d, block := bl, size := sz }).bufs b0) =
      { (BufferC.remove_from_hash cfg X b0).bufs b0 with
        dev := d, block := bl, size := sz } from by rw [updBuf_bufs, if_pos rfl]]
    rfl
  refine ⟨fun i => ?_, fun i x hx => ?_⟩
  · rw [hhash i]
    by_cases hib : i = BufferC.BUFFER_HASH cfg d bl
    · rw [if_pos hib]
      exact List.nodup_cons.mpr ⟨hgone i, (hashWF_remove_from_hash b0 hH).1 i⟩
    · rw [if_neg hib]
      exact (hashWF_remove_from_hash b0 hH).1 i
  · rw [hhash i] at hx
    unfold bucketOf BufferC.BUFFER_HASH
    rw [hbufs x]
    by_cases hxb : x = b0
    · subst hxb
      rw [if_pos rfl]
      by_cases hib : i = BufferC.BUFFER_HASH cfg d bl
      · exact hib.trans (by rfl)
      · rw [if_neg hib] at hx
        exact absurd hx (hgone i)
    · rw [if_neg hxb]
      have hx' : x ∈ (BufferC.remove_from_hash cfg X b0).hashT i := by
        by_cases hib : i = BufferC.BUFFER_HASH cfg d bl
        · rw [if_pos hib] at hx
          rcases List.mem_cons.mp hx with h' | h'
          · exact absurd h' hxb
          · exact h'
        · rw [if_neg hib] at hx; exact hx
      have := hH.2 i x (remove_from_hash_mem hx')
      rw [this]
      rfl

theorem hashWF_getblk {cfg : Cfg} {s : St} {d bl sz : Nat} {r : Option Nat} {s' : St}
    (hH : HashWF cfg s)
    (he : BufferC.getblk cfg s d bl sz = some (r, s')) : HashWF cfg s' := by
  unfold BufferC.getblk at he
  cases hs : BufferC.search_buffer_hash cfg s d bl sz with
  | some b0 =>
      rw [hs] at he
      dsimp only at he
      by_cases hl : (s.bufs b0).locked
      · rw [if_pos hl] at he; simp at he
      · rw [if_neg (by simp [hl])] at he
        injection he with he1
        have hs' : _ = s' := congrArg Prod.snd he1
        subst hs'
        rw [remove_from_free_list_eq]
        exact @hashWF_updBuf_keykeep cfg s b0 (fun x => { x with locked := true })
          (fun x => ⟨rfl, rfl⟩) hH
  | none =>
      rw [hs] at he
      dsimp only at he
      cases hg : BufferC.get_free_buffer s with
      | none => rw [hg] at he; simp at he
      | some pr =>
          obtain ⟨b0, s1⟩ := pr
          rw [hg] at he
          dsimp only at he
          obtain ⟨t, hfl, hlk, hs1⟩ := get_free_buffer_eq hg
          have hH1 : HashWF cfg s1 := by
            rw [hs1]
            exact hashWF_updBuf_keykeep _ (fun x => ⟨rfl, rfl⟩) hH
          by_cases hd : (s1.bufs b0).dirty
          · rw [if_pos hd] at he
            injection he with he1
            have hsc := sameCore_sync_one_buffer cfg s1 b0
            have hs' : _ = s' := congrArg Prod.snd he1
            subst hs'
            exact hashWF_rebind d bl sz (hashWF_of_sameCore hsc hH1)
          · rw [if_neg hd] at he
            by_cases hdat : (s1.bufs b0).data.isSome
            · rw [if_pos hdat] at he
              injection he with he1
              have hs' : _ = s' := congrArg Prod.snd he1
              subst hs'
              exact hashWF_rebind d bl sz hH1
            · rw [if_neg hdat] at he
              by_cases hsup : s1.allocSupply = 0
              · rw [if_pos hsup] at he
                injection he with he1
                have hs' : BufferC.brelse s1 b0 = s' := congrArg Prod.snd he1
                subst hs'
                exact hashWF_brelse hH1
              · rw [if_neg hsup] at he
                injection he with he1
                have hH2 : HashWF cfg (updBuf s1 b0 fun x =>
                    { x with data := some fun _ => 0 }) :=
                  hashWF_updBuf_keykeep _ (fun x => ⟨rfl, rfl⟩) hH1
                have hs'2 : _ = s' := congrArg Prod.snd he1
                subst hs'2
                exact hashWF_rebind d bl sz hH2

theorem hashWF_bread {cfg : Cfg} {s : St} {d bl sz : Nat} {r : Option Nat} {s' : St}
    (hH : HashWF cfg s)
    (he : BufferC.bread cfg s d bl sz = some (r, s')) : HashWF cfg s' := by
  unfold BufferC.bread at he
  by_cases hreg : cfg.registered d
  · rw [if_pos hreg] at he
    cases hgb : BufferC.getblk cfg s d bl sz with
    | none => rw [hgb] at he; simp at he
    | some pr =>
        obtain ⟨rb, s1⟩ := pr
        rw [hgb] at he
        have hH1 : HashWF cfg s1 := hashWF_getblk hH hgb
        cases rb with
        | none =>
            dsimp only at he
            injection he with he1
            have hs1 : s1 = s' := congrArg Prod.snd he1
            exact hs1 ▸ hH1
        | some b =>
            dsimp only at he
            by_cases hv1 : (s1.bufs b).valid
            · rw [if_pos hv1, if_pos hv1] at he
              injection he with he1
              have hs1 : s1 = s' := congrArg Prod.snd he1
              exact hs1 ▸ hH1
            · rw [if_neg hv1] at he
              by_cases hr2 : cfg.hasRead d
              · rw [if_pos hr2] at he
                by_cases hrr : 0 ≤ cfg.readResult d bl
                · rw [if_pos hrr] at he
                  have hc : ((updBuf { s1 with log := s1.log ++ [DevEvent.readB d bl sz] } b
                      fun x => { x with
                        data := some (memcpy_b (dataD x.data) 0 (cfg.readData d bl) sz),
                        valid := true }).bufs b).valid = true := by
                    rw [updBuf_bufs, if_pos rfl]
                  rw [if_pos hc] at he
                  injection he with he1
                  have hs1 : _ = s' := congrArg Prod.snd he1
                  subst hs1
                  have hH1' : HashWF cfg ({ s1 with
                      log := s1.log ++ [DevEvent.readB d bl sz] } : St) := hH1
                  exact @hashWF_updBuf_keykeep cfg
                    { s1 with log := s1.log ++ [DevEvent.readB d bl sz] } b
                    (fun x => { x with
                      data := some (memcpy_b (dataD x.data) 0 (cfg.readData d bl) sz),
                      valid := true })
                    (fun x => ⟨rfl, rfl⟩) hH1'
                · rw [if_neg hrr] at he
                  have hc : ¬(({ s1 with
                      log := s1.log ++ [DevEvent.readB d bl sz] } : St).bufs b).valid = true := hv1
                  rw [if_neg hc] at he
                  injection he with he1
                  have hs1 : _ = s' := congrArg Prod.snd he1
                  subst hs1
                  exact hashWF_brelse hH1
              · rw [if_neg hr2] at he
                rw [if_neg hv1] at he
                injection he with he1
                have hs1 : _ = s' := congrArg Prod.snd he1
                subst hs1
                exact hashWF_brelse hH1
  · rw [if_neg hreg] at he
    injection he with he1
    have hs1 : s = s' := congrArg Prod.snd he1
    exact hs1 ▸ hH

theorem hashWF_inv_step {cfg : Cfg} {s : St} (dev b : Nat) (hH : HashWF cfg s) :
    HashWF cfg (BufferC.inv_step cfg dev s b) := by
  unfold BufferC.inv_step
  split
  · dsimp only
    exact hashWF_updBuf_keykeep _ (fun x => ⟨rfl, rfl⟩)
      (hashWF_remove_from_hash b hH)
  · exact hH

theorem hashWF_invalidate {cfg : Cfg} {s : St} (dev : Nat) (hH : HashWF cfg s) :
    HashWF cfg (BufferC.invalidate_buffers cfg dev s) := by
  unfold BufferC.invalidate_buffers
  generalize List.range cfg.numBuffers = l
  induction l generalizing s with
  | nil => exact hH
  | cons b t ih => exact ih (hashWF_inv_step dev b hH)

theorem hashWF_reclaim_body {cfg : Cfg} {s1 : St} {b : Nat} (hH : HashWF cfg s1) :
    HashWF cfg (BufferC.reclaim_body cfg s1 b) := by
  unfold BufferC.reclaim_body
  dsimp only
  have hsc : SameCore s1 (if (s1.bufs b).dirty = true then
      BufferC.sync_one_buffer cfg s1 b else s1) := by
    split
    · exact sameCore_sync_one_buffer cfg s1 b
    · exact SameCore.refl s1
  exact hashWF_updBuf_keykeep _ (fun x => ⟨rfl, rfl⟩) (hashWF_of_sameCore hsc hH)

theorem hashWF_reclaim_free {cfg : Cfg} {s3 : St} {b : Nat} (hH : HashWF cfg s3) :
    HashWF cfg (BufferC.reclaim_free cfg s3 b) := by
  have hH4 : HashWF cfg (updBuf s3 b fun x => { x with data := none }) :=
    hashWF_updBuf_keykeep _ (fun x => ⟨rfl, rfl⟩) hH
  have h5 := hashWF_remove_from_hash b hH4
  exact ⟨h5.1, fun i x hx => h5.2 i x hx⟩

theorem hashWF_reclaim_loop {cfg : Cfg} :
    ∀ (fuel : Nat) (first : Option Nat) (reclaimed : Nat) (s s' : St) (n : Nat),
      HashWF cfg s →
      BufferC.reclaim_loop cfg fuel first reclaimed s = some (s', n) →
      HashWF cfg s' := by
  intro fuel
  induction fuel with
  | zero =>
      intro first reclaimed s s' n hH he
      rw [BufferC.reclaim_loop] at he
      exact absurd he (by simp)
  | succ f ih =>
      intro first reclaimed s s' n hH he
      rw [BufferC.reclaim_loop] at he
      cases hg : BufferC.get_free_buffer s with
      | none => rw [hg] at he; simp at he
      | some pr =>
          obtain ⟨b, s1⟩ := pr
          rw [hg] at he
          dsimp only at he
          obtain ⟨t, hfl, hlk, hs1⟩ := get_free_buffer_eq hg
          have hH1 : HashWF cfg s1 := by
            rw [hs1]
            exact hashWF_updBuf_keykeep _ (fun x => ⟨rfl, rfl⟩) hH
          have hH3 : HashWF cfg (BufferC.reclaim_body cfg s1 b) := hashWF_reclaim_body hH1
          by_cases hf : first = some b
          · rw [if_pos hf] at he
            injection he with he1
            have hs' : BufferC.brelse (BufferC.reclaim_body cfg s1 b) b = s' :=
              congrArg Prod.fst he1
            exact hs' ▸ hashWF_brelse hH3
          · rw [if_neg hf] at he
            by_cases hdat : ((BufferC.reclaim_body cfg s1 b).bufs b).data.isSome
            · rw [if_pos hdat] at he
              have hH6 : HashWF cfg (BufferC.reclaim_free cfg
                  (BufferC.reclaim_body cfg s1 b) b) := hashWF_reclaim_free hH3
              by_cases htar : reclaimed + 1 = cfg.nrBufReclaim
              · rw [if_pos htar] at he
                injection he with he1
                have hs' : BufferC.brelse (BufferC.reclaim_free cfg
                    (BufferC.reclaim_body cfg s1 b) b) b = s' := congrArg Prod.fst he1
                exact hs' ▸ hashWF_brelse hH6
              · rw [if_neg htar] at he
                exact ih _ _ _ _ _ (hashWF_brelse hH6) he
            · rw [if_neg hdat] at he
              exact ih _ _ _ _ _ (hashWF_brelse hH3) he

theorem hashWF_init (cfg : Cfg) : HashWF cfg (BufferC.buffer_init cfg) := by
  refine ⟨fun i => ?_, fun i b hb => ?_⟩
  · rw [buffer_init_hashT]
    exact List.nodup_nil
  · rw [buffer_init_hashT] at hb
    exact absurd hb (List.not_mem_nil b)

theorem hashWF_step {cfg : Cfg} {s s' : St} (hH : HashWF cfg s) (hs : Step cfg s s') :
    HashWF cfg s' := by
  cases hs with
  | getblkS dev block size r s s' he => exact hashWF_getblk hH he
  | breadS dev block size r s s' he => exact hashWF_bread hH he
  | bwriteS b s hb hl => exact hashWF_bwrite hH
  | brelseS b s hb hl => exact hashWF_brelse hH
  | syncS dev fuel s s' he =>
      exact hashWF_of_sameCore (sync_loop_sameCore cfg dev fuel s.dirtyHead s s' he) hH
  | invS dev s => exact hashWF_invalidate dev hH
  | reclaimS fuel n s s' he => exact hashWF_reclaim_loop _ _ _ _ _ _ hH he

/-- Every reachable state has a well-formed buffer hash: duplicate-free
chains, each entry sitting in the bucket of its current key. -/
theorem hashWF_reachable {cfg : Cfg} {s : St} (h : Reachable cfg s) :
    HashWF cfg s := by
  induction h with
  | init => exact hashWF_init cfg
  | step hr hst ih => exact hashWF_step ih hst

/-! ### The reclaim bound (C5) -/

/-- The reclaim loop never resurrects a freed frame: an entry with no data
frame and no hash binding keeps both properties to the end of the loop. -/
theorem reclaim_loop_keeps_gone {cfg : Cfg} :
    ∀ (fuel : Nat) (first : Option Nat) (reclaimed : Nat) (s s' : St) (n x : Nat),
      BufferC.reclaim_loop cfg fuel first reclaimed s = some (s', n) →
      (s.bufs x).data = none → (∀ i, x ∉ s.hashT i) →
      (s'.bufs x).data = none ∧ ∀ i, x ∉ s'.hashT i := by
  intro fuel
  induction fuel with
  | zero =>
      intro first reclaimed s s' n x he _ _
      rw [BufferC.reclaim_loop] at he
      exact absurd he (by simp)
  | succ f ih =>
      intro first reclaimed s s' n x he hdat hgone
      rw [BufferC.reclaim_loop] at he
      cases hg : BufferC.get_free_buffer s with
      | none => rw [hg] at he; simp at he
      | some pr =>
          obtain ⟨b, s1⟩ := pr
          rw [hg] at he
          dsimp only at he
          obtain ⟨t, hfl, hlk, hs1⟩ := get_free_buffer_eq hg
          have hdat1 : (s1.bufs x).data = none := by
            rw [hs1, updBuf_bufs]
            by_cases hxb : x = b
            · rw [if_pos hxb]; exact hdat
            · rw [if_neg hxb]; exact hdat
          have hgone1 : ∀ i, x ∉ s1.hashT i := by
            intro i
            rw [hs1]
            exact hgone i
          have hbf := reclaim_body_frame cfg s1 b
          have hdat3 : ((BufferC.reclaim_body cfg s1 b).bufs x).data = none := by
            rw [(hbf.2.2.2 x).1]; exact hdat1
          have hgone3 : ∀ i, x ∉ (BufferC.reclaim_body cfg s1 b).hashT i := by
            intro i
            rw [hbf.1]
            exact hgone1 i
          by_cases hf : first = some b
          · rw [if_pos hf] at he
            injection he with he1
            have hs' : BufferC.brelse (BufferC.reclaim_body cfg s1 b) b = s' :=
              congrArg Prod.fst he1
            subst hs'
            have hbr := brelse_frame (BufferC.reclaim_body cfg s1 b) b
            exact ⟨by rw [hbr.2.2.2.1 x]; exact hdat3,
              fun i => by rw [congrFun hbr.1 i]; exact hgone3 i⟩
          · rw [if_neg hf] at he
            by_cases hdt : ((BufferC.reclaim_body cfg s1 b).bufs b).data.isSome
            · rw [if_pos hdt] at he
              have hrf := reclaim_free_frame cfg (BufferC.reclaim_body cfg s1 b) b
              have hdat6 : ((BufferC.reclaim_free cfg
                  (BufferC.reclaim_body cfg s1 b) b).bufs x).data = none := by
                rw [hrf.2.2.2 x]
                by_cases hxb : x = b
                · rw [if_pos hxb]
                · rw [if_neg hxb]; exact hdat3
              have hgone6 : ∀ i, x ∉ (BufferC.reclaim_free cfg
                  (BufferC.reclaim_body cfg s1 b) b).hashT i :=
                fun i => reclaim_free_not_mem i (hgone3 i)
              by_cases htar : reclaimed + 1 = cfg.nrBufReclaim
              · rw [if_pos htar] at he
                injection he with he1
                have hs' : BufferC.brelse (BufferC.reclaim_free cfg
                    (BufferC.reclaim_body cfg s1 b) b) b = s' := congrArg Prod.fst he1
                subst hs'
                have hbr := brelse_frame (BufferC.reclaim_free cfg
                  (BufferC.reclaim_body cfg s1 b) b) b
                exact ⟨by rw [hbr.2.2.2.1 x]; exact hdat6,
                  fun i => by rw [congrFun hbr.1 i]; exact hgone6 i⟩
              · rw [if_neg htar] at he
                have hbr := brelse_frame (BufferC.reclaim_free cfg
                  (BufferC.reclaim_body cfg s1 b) b) b
                refine ih _ _ _ _ _ _ he ?_ ?_
                · rw [hbr.2.2.2.1 x]; exact hdat6
                · intro i
                  rw [congrFun hbr.1 i]
                  exact hgone6 i
            · rw [if_neg hdt] at he
              have hbr := brelse_frame (BufferC.reclaim_body cfg s1 b) b
              refine ih _ _ _ _ _ _ he ?_ ?_
              · rw [hbr.2.2.2.1 x]; exact hdat3
              · intro i
                rw [congrFun hbr.1 i]
                exact hgone3 i

/-- Full behaviour of the reclaim loop, relative to its entry state: the
count stays under the target, the freed frames are exactly the new ghost
entries, each was taken from the free list (hence unlocked), and each ends
with no data frame and no hash binding. -/
theorem reclaim_loop_spec {cfg : Cfg} :
    ∀ (fuel : Nat) (first : Option Nat) (reclaimed : Nat) (s s' : St) (n : Nat),
      BufferC.reclaim_loop cfg fuel first reclaimed s = some (s', n) →
      reclaimed < cfg.nrBufReclaim →
      HashWF cfg s →
      s.freeList.Nodup →
      (∀ x ∈ s.freeList, (s.bufs x).locked = false) →
      n ≤ cfg.nrBufReclaim ∧
      ∃ newly : List Nat,
        s'.freedFrames = s.freedFrames ++ newly ∧
        newly.length + reclaimed = n ∧
        (∀ b ∈ newly, b ∈ s.freeList) ∧
        ∀ b ∈ newly, (s'.bufs b).data = none ∧ ∀ i, b ∉ s'.hashT i := by
  intro fuel
  induction fuel with
  | zero =>
      intro first reclaimed s s' n he _ _ _ _
      rw [BufferC.reclaim_loop] at he
      exact absurd he (by simp)
  | succ f ih =>
      intro first reclaimed s s' n he hlt hH hnd hunl
      rw [BufferC.reclaim_loop] at he
      cases hg : BufferC.get_free_buffer s with
      | none => rw [hg] at he; simp at he
      | some pr =>
          obtain ⟨b, s1⟩ := pr
          rw [hg] at he
          dsimp only at he
          obtain ⟨t, hfl, hlk, hs1⟩ := get_free_buffer_eq hg
          have hbmem : b ∈ s.freeList := by rw [hfl]; exact List.mem_cons_self b t
          have hbt : b ∉ t := by
            have : (b :: t).Nodup := by rw [← hfl]; exact hnd
            exact (List.nodup_cons.mp this).1
          have htnd : t.Nodup := by
            have : (b :: t).Nodup := by rw [← hfl]; exact hnd
            exact (List.nodup_cons.mp this).2
          have hs1fl : s1.freeList = if t.length = 1 then [] else t := by rw [hs1]; rfl
          have hs1fr : s1.freedFrames = s.freedFrames := by rw [hs1]; rfl
          have hs1lk : ∀ x, x ≠ b → (s1.bufs x).locked = (s.bufs x).locked := by
            intro x hxb
            rw [hs1, updBuf_bufs, if_neg hxb]
          have hH1 : HashWF cfg s1 := by
            rw [hs1]
            exact hashWF_updBuf_keykeep _ (fun x => ⟨rfl, rfl⟩) hH
          have hbf := reclaim_body_frame cfg s1 b
          have hH3 : HashWF cfg (BufferC.reclaim_body cfg s1 b) := hashWF_reclaim_body hH1
          by_cases hf : first = some b
          · rw [if_pos hf] at he
            injection he with he1
            have hs' : BufferC.brelse (BufferC.reclaim_body cfg s1 b) b = s' :=
              congrArg Prod.fst he1
            have hn : reclaimed = n := congrArg Prod.snd he1
            subst hs' hn
            have hbr := brelse_frame (BufferC.reclaim_body cfg s1 b) b
            refine ⟨le_of_lt hlt, [], ?_, by simp, by simp, by simp⟩
            rw [hbr.2.1, hbf.2.2.1, hs1fr, List.append_nil]
          · rw [if_neg hf] at he
            by_cases hdt : ((BufferC.reclaim_body cfg s1 b).bufs b).data.isSome
            · rw [if_pos hdt] at he
              have hrf := reclaim_free_frame cfg (BufferC.reclaim_body cfg s1 b) b
              have hgone6 : ∀ i, b ∉ (BufferC.reclaim_free cfg
                  (BufferC.reclaim_body cfg s1 b) b).hashT i :=
                fun i => reclaim_free_gone hH3 i
              have hdat6 : ((BufferC.reclaim_free cfg
                  (BufferC.reclaim_body cfg s1 b) b).bufs b).data = none := by
                rw [hrf.2.2.2 b, if_pos rfl]
              have hfr6 : (BufferC.reclaim_free cfg
                  (BufferC.reclaim_body cfg s1 b) b).freedFrames =
                  s.freedFrames ++ [b] := by
                rw [hrf.2.1, hbf.2.2.1, hs1fr]
              have hfl6 : (BufferC.reclaim_free cfg
                  (BufferC.reclaim_body cfg s1 b) b).freeList
                  = if t.length = 1 then [] else t := by
                rw [hrf.1, hbf.2.1, hs1fl]
              by_cases htar : reclaimed + 1 = cfg.nrBufReclaim
              · rw [if_pos htar] at he
                injection he with he1
                have hs' : BufferC.brelse (BufferC.reclaim_free cfg
                    (BufferC.reclaim_body cfg s1 b) b) b = s' := congrArg Prod.fst he1
                have hn : reclaimed + 1 = n := congrArg Prod.snd he1
                subst hs'
                have hbr := brelse_frame (BufferC.reclaim_free cfg
                  (BufferC.reclaim_body cfg s1 b) b) b
                refine ⟨?_, [b], ?_, ?_, ?_, ?_⟩
                · omega
                · rw [hbr.2.1, hfr6]
                · simp only [List.length_singleton]
                  omega
                · intro x hx
                  rw [List.mem_singleton] at hx
                  subst hx
                  exact hbmem
                · intro x hx
                  rw [List.mem_singleton] at hx
                  subst hx
                  exact ⟨by rw [hbr.2.2.2.1 x]; exact hdat6,
                    fun i => by rw [congrFun hbr.1 i]; exact hgone6 i⟩
              · rw [if_neg htar] at he
                have hbr := brelse_frame (BufferC.reclaim_free cfg
                  (BufferC.reclaim_body cfg s1 b) b) b
                have hlt' : reclaimed + 1 < cfg.nrBufReclaim :=
                  lt_of_le_of_ne (Nat.succ_le_of_lt hlt) htar
                have hHn : HashWF cfg (BufferC.brelse (BufferC.reclaim_free cfg
                    (BufferC.reclaim_body cfg s1 b) b) b) :=
                  hashWF_brelse (hashWF_reclaim_free hH3)
                have hndn : (BufferC.brelse (BufferC.reclaim_free cfg
                    (BufferC.reclaim_body cfg s1 b) b) b).freeList.Nodup := by
                  refine brelse_nodup ?_ ?_
                  · rw [hfl6]; exact emptied_nodup htnd
                  · rw [hfl6]; exact emptied_not_mem hbt
                have hunln : ∀ x ∈ (BufferC.brelse (BufferC.reclaim_free cfg
                    (BufferC.reclaim_body cfg s1 b) b) b).freeList,
                    ((BufferC.brelse (BufferC.reclaim_free cfg
                      (BufferC.reclaim_body cfg s1 b) b) b).bufs x).locked = false := by
                  intro x hx
                  rcases (hbr.2.2.2.2.2.2 x).mp hx with hxb | hxm
                  · subst hxb
                    exact hbr.2.2.2.2.1
                  · rw [hfl6] at hxm
                    have hxm2 : x ∈ t := emptied_sub x hxm
                    have hxb : x ≠ b := fun hc => hbt (hc ▸ hxm2)
                    rw [hbr.2.2.2.2.2.1 x hxb, hrf.2.2.2 x, if_neg hxb, (hbf.2.2.2 x).2,
                      hs1lk x hxb]
                    exact hunl x (by rw [hfl]; exact List.mem_cons_of_mem b hxm2)
                obtain ⟨ihn, newly', ihfr, ihlen, ihmem, ihgone⟩ :=
                  ih _ _ _ _ _ he hlt' hHn hndn hunln
                have hkeep := reclaim_loop_keeps_gone f _ _ _ _ _ b he
                  (by rw [hbr.2.2.2.1 b]; exact hdat6)
                  (fun i => by rw [congrFun hbr.1 i]; exact hgone6 i)
                refine ⟨ihn, b :: newly', ?_, ?_, ?_, ?_⟩
                · rw [ihfr, hbr.2.1, hfr6, List.append_assoc]
                  rfl
                · simp only [List.length_cons]
                  omega
                · intro x hx
                  rcases List.mem_cons.mp hx with hxb | hxm
                  · subst hxb
                    exact hbmem
                  · rcases (hbr.2.2.2.2.2.2 x).mp (ihmem x hxm) with hxb | hxm'
                    · subst hxb
                      exact hbmem
                    · rw [hfl6] at hxm'
                      rw [hfl]
                      exact List.mem_cons_of_mem b (emptied_sub x hxm')
                · intro x hx
                  rcases List.mem_cons.mp hx with hxb | hxm
                  · subst hxb
                    exact hkeep
                  · exact ihgone x hxm
            · rw [if_neg hdt] at he
              have hbr := brelse_frame (BufferC.reclaim_body cfg s1 b) b
              have hHn : HashWF cfg (BufferC.brelse (BufferC.reclaim_body cfg s1 b) b) :=
                hashWF_brelse hH3
              have hfl3 : (BufferC.reclaim_body cfg s1 b).freeList
                  = if t.length = 1 then [] else t := by
                rw [hbf.2.1, hs1fl]
              have hndn : (BufferC.brelse (BufferC.reclaim_body cfg s1 b) b).freeList.Nodup := by
                refine brelse_nodup ?_ ?_
                · rw [hfl3]; exact emptied_nodup htnd
                · rw [hfl3]; exact emptied_not_mem hbt
              have hunln : ∀ x ∈ (BufferC.brelse (BufferC.reclaim_body cfg s1 b) b).freeList,
                  ((BufferC.brelse (BufferC.reclaim_body cfg s1 b) b).bufs x).locked
                    = false := by
                intro x hx
                rcases (hbr.2.2.2.2.2.2 x).mp hx with hxb | hxm
                · subst hxb
                  exact hbr.2.2.2.2.1
                · rw [hfl3] at hxm
                  have hxm2 : x ∈ t := emptied_sub x hxm
                  have hxb : x ≠ b := fun hc => hbt (hc ▸ hxm2)
                  rw [hbr.2.2.2.2.2.1 x hxb, (hbf.2.2.2 x).2, hs1lk x hxb]
                  exact hunl x (by rw [hfl]; exact List.mem_cons_of_mem b hxm2)
              obtain ⟨ihn, newly', ihfr, ihlen, ihmem, ihgone⟩ :=
                ih _ _ _ _ _ he hlt hHn hndn hunln
              refine ⟨ihn, newly', ?_, ihlen, ?_, ihgone⟩
              · rw [ihfr, hbr.2.1, hbf.2.2.1, hs1fr]
              · intro x hx
                rcases (hbr.2.2.2.2.2.2 x).mp (ihmem x hx) with hxb | hxm'
                · subst hxb
                  exact hbmem
                · rw [hfl3] at hxm'
                  rw [hfl]
                  exact List.mem_cons_of_mem b (emptied_sub x hxm')

/-- C5: on any reachable state, a completed `reclaim_buffers` call with a
positive `NR_BUF_RECLAIM` frees at most `NR_BUF_RECLAIM` frames; every frame
it frees belongs to a buffer entry that was taken from the free list and was
unlocked at call entry, and each freed entry ends the call with a null data
pointer and no buffer-hash binding. -/
theorem c5_reclaim_bound {cfg : Cfg} {s s' : St} {fuel n : Nat}
    (h : Reachable cfg s) (htar : 0 < cfg.nrBufReclaim)
    (he : BufferC.reclaim_buffers cfg fuel s = some (s', n)) :
    n ≤ cfg.nrBufReclaim ∧
    ∃ newly : List Nat,
      s'.freedFrames = s.freedFrames ++ newly ∧
      newly.length = n ∧
      ∀ b ∈ newly, b ∈ s.freeList ∧ (s.bufs b).locked = false ∧
        (s'.bufs b).data = none ∧ ∀ i, b ∉ s'.hashT i := by
  have hlfi := lfi_reachable h
  have hH := hashWF_reachable h
  have hunl : ∀ x ∈ s.freeList, (s.bufs x).locked = false := hlfi.2.2.2
  obtain ⟨h1, newly, h2, h3, h4, h5⟩ :=
    reclaim_loop_spec fuel none 0 s s' n he htar hH hlfi.1 hunl
  have hlen : newly.length = n := by omega
  exact ⟨h1, newly, h2, hlen, fun b hb =>
    ⟨h4 b hb, hunl b (h4 b hb), (h5 b hb).1, (h5 b hb).2⟩⟩

/-- The held buffer produced by the cold read of block `(1,7)`. -/
def c5pre : St :=
  ((BufferC.bread cfgW (BufferC.buffer_init cfgW) 1 7 1024).getD
    (none, BufferC.emptySt)).2

/-- The same cache once the caller releases the buffer. -/
def c5rel : St := BufferC.brelse c5pre 1

/-- One full reclaim pass over that cache (it frees the frame of entry 1). -/
def c5res : St × Nat :=
  (BufferC.reclaim_buffers cfgW 3 c5rel).getD (BufferC.emptySt, 0)

theorem c5_witness :
    0 < cfgW.nrBufReclaim ∧
    (c5res.2 ≤ cfgW.nrBufReclaim ∧
      ∃ newly : List Nat,
        c5res.1.freedFrames = c5rel.freedFrames ++ newly ∧
        newly.length = c5res.2 ∧
        ∀ b ∈ newly, b ∈ c5rel.freeList ∧ (c5rel.bufs b).locked = false ∧
          (c5res.1.bufs b).data = none ∧ ∀ i, b ∉ c5res.1.hashT i) := by
  have h1 : Reachable cfgW c5pre :=
    Reachable.step Reachable.init
      (Step.breadS 1 7 1024 (some 1) (BufferC.buffer_init cfgW) c5pre rfl)
  have h2 : Reachable cfgW c5rel :=
    Reachable.step h1 (Step.brelseS 1 c5pre (by decide) (by decide))
  exact ⟨by decide, @c5_reclaim_bound cfgW c5rel c5res.1 3 c5res.2 h2 (by decide) rfl⟩

/-! ### Sync idempotence (C6): the dirty list as a doubly-linked chain -/

/-- `Dll s p l`: `l` is a well-linked doubly-linked segment whose first
element has `prev_dirty = p` and whose last element has `next_dirty = none`
(each element's `next_dirty` is the following element). -/
def Dll (s : St) (p : Option Nat) : List Nat → Prop
  | [] => True
  | b :: rest => (s.bufs b).prev_dirty = p ∧
      (s.bufs b).next_dirty = rest.head? ∧ Dll s (some b) rest

/-- A state change that keeps every link of the segment keeps the segment. -/
theorem dll_congr {s s' : St} :
    ∀ (l : List Nat) (p : Option Nat),
      (∀ y ∈ l, (s'.bufs y).prev_dirty = (s.bufs y).prev_dirty ∧
        (s'.bufs y).next_dirty = (s.bufs y).next_dirty) →
      Dll s p l → Dll s' p l := by
  intro l
  induction l with
  | nil => intro p _ _; exact trivial
  | cons b rest ih =>
      intro p hkeep hd
      obtain ⟨h1, h2, h3⟩ := hd
      refine ⟨?_, ?_, ?_⟩
      · rw [(hkeep b (List.mem_cons_self b rest)).1]; exact h1
      · rw [(hkeep b (List.mem_cons_self b rest)).2]; exact h2
      · exact ih (some b) (fun y hy => hkeep y (List.mem_cons_of_mem b hy)) h3

/-- Pointwise effect of `remove_from_dirty_list` on the links and the head
pointer, for a node whose neighbours are distinct from it and from each
other. -/
theorem remove_links {s : St} {x : Nat} {po no : Option Nat}
    (hprev : (s.bufs x).prev_dirty = po) (hnext : (s.bufs x).next_dirty = no)
    (hpx : po ≠ some x) (hnx : no ≠ some x)
    (hpn : ∀ z, po = some z → no ≠ some z) :
    (∀ y, y ≠ x →
      ((BufferC.remove_from_dirty_list s x).bufs y).prev_dirty =
        (if no = some y then po else (s.bufs y).prev_dirty) ∧
      ((BufferC.remove_from_dirty_list s x).bufs y).next_dirty =
        (if po = some y then no else (s.bufs y).next_dirty)) ∧
    (BufferC.remove_from_dirty_list s x).dirtyHead =
      (if s.dirtyHead = some x then no else s.dirtyHead) := by
  have hA : ∀ y, ((BufferC.rfdl_fix_next s x).bufs y).prev_dirty =
      (if no = some y then po else (s.bufs y).prev_dirty) ∧
      ((BufferC.rfdl_fix_next s x).bufs y).next_dirty = (s.bufs y).next_dirty := by
    intro y
    unfold BufferC.rfdl_fix_next
    rw [hnext]
    cases no with
    | none =>
        rw [if_neg (show ¬((none : Option Nat) = some y) from fun hc =>
          Option.noConfusion hc)]
        exact ⟨rfl, rfl⟩
    | some nx =>
        rw [updBuf_bufs]
        by_cases hy : y = nx
        · subst hy
          rw [if_pos rfl, if_pos rfl]
          exact ⟨hprev, rfl⟩
        · rw [if_neg hy, if_neg (fun hc => hy (Option.some.inj hc).symm)]
          exact ⟨rfl, rfl⟩
  have hAhead : (BufferC.rfdl_fix_next s x).dirtyHead = s.dirtyHead := by
    unfold BufferC.rfdl_fix_next
    rw [hnext]
    cases no with
    | none => rfl
    | some nx => rfl
  have hAxp : ((BufferC.rfdl_fix_next s x).bufs x).prev_dirty = po := by
    rw [(hA x).1, if_neg hnx]
    exact hprev
  have hAxn : ((BufferC.rfdl_fix_next s x).bufs x).next_dirty = no := by
    rw [(hA x).2]
    exact hnext
  have hB : ∀ y, ((BufferC.rfdl_fix_prev (BufferC.rfdl_fix_next s x) x).bufs y).prev_dirty =
      (if no = some y then po else (s.bufs y).prev_dirty) ∧
      ((BufferC.rfdl_fix_prev (BufferC.rfdl_fix_next s x) x).bufs y).next_dirty =
      (if po = some y then no else (s.bufs y).next_dirty) := by
    intro y
    unfold BufferC.rfdl_fix_prev
    rw [hAxp]
    cases po with
    | none =>
        rw [if_neg (show ¬((none : Option Nat) = some y) from fun hc =>
          Option.noConfusion hc)]
        exact ⟨(hA y).1, (hA y).2⟩
    | some p =>
        rw [updBuf_bufs]
        by_cases hy : y = p
        · subst hy
          rw [if_pos rfl, if_pos rfl]
          constructor
          · show ((BufferC.rfdl_fix_next s x).bufs y).prev_dirty = _
            exact (hA y).1
          · show ((BufferC.rfdl_fix_next s x).bufs x).next_dirty = no
            exact hAxn
        · rw [if_neg hy, if_neg (fun hc => hy (Option.some.inj hc).symm)]
          exact ⟨(hA y).1, (hA y).2⟩
  have hBhead : (BufferC.rfdl_fix_prev (BufferC.rfdl_fix_next s x) x).dirtyHead =
      s.dirtyHead := by
    unfold BufferC.rfdl_fix_prev
    rw [hAxp]
    cases po with
    | none => exact hAhead
    | some p => exact hAhead
  have hBxn : ((BufferC.rfdl_fix_prev (BufferC.rfdl_fix_next s x) x).bufs x).next_dirty
      = no := by
    rw [(hB x).2, if_neg hpx]
    exact hnext
  have hCb : ∀ y, ((BufferC.rfdl_fix_head
      (BufferC.rfdl_fix_prev (BufferC.rfdl_fix_next s x) x) x).bufs y) =
      (BufferC.rfdl_fix_prev (BufferC.rfdl_fix_next s x) x).bufs y := by
    intro y
    unfold BufferC.rfdl_fix_head
    split
    · rfl
    · rfl
  have hChead : (BufferC.rfdl_fix_head
      (BufferC.rfdl_fix_prev (BufferC.rfdl_fix_next s x) x) x).dirtyHead =
      (if s.dirtyHead = some x then no else s.dirtyHead) := by
    unfold BufferC.rfdl_fix_head
    by_cases hh : s.dirtyHead = some x
    · rw [if_pos (by rw [hBhead]; exact hh), if_pos hh]
      exact hBxn
    · rw [if_neg (by rw [hBhead]; exact hh), if_neg hh]
      exact hBhead
  constructor
  · intro y hyx
    constructor
    · show ((updBuf (BufferC.rfdl_fix_head
        (BufferC.rfdl_fix_prev (BufferC.rfdl_fix_next s x) x) x) x fun b =>
        { b with prev_dirty := none, next_dirty := none, dirty := false }).bufs
          y).prev_dirty = _
      rw [updBuf_bufs, if_neg hyx, hCb y]
      exact (hB y).1
    · show ((updBuf (BufferC.rfdl_fix_head
        (BufferC.rfdl_fix_prev (BufferC.rfdl_fix_next s x) x) x) x fun b =>
        { b with prev_dirty := none, next_dirty := none, dirty := false }).bufs
          y).next_dirty = _
      rw [updBuf_bufs, if_neg hyx, hCb y]
      exact (hB y).2
  · show (BufferC.rfdl_fix_head
      (BufferC.rfdl_fix_prev (BufferC.rfdl_fix_next s x) x) x).dirtyHead = _
    exact hChead

/-- One matching round of the `sync_buffers` walk (lock, successful
write-back, unlock): the node leaves the list, its neighbours are stitched
together, the head is redirected when the node was the head. -/
theorem sync_step_effects {cfg : Cfg} {s : St} {x : Nat} {po no : Option Nat}
    (hreg : cfg.registered (s.bufs x).dev = true)
    (hw : cfg.hasWrite (s.bufs x).dev = true)
    (hres : 0 ≤ cfg.writeResult (s.bufs x).dev (s.bufs x).block)
    (hprev : (s.bufs x).prev_dirty = po) (hnext : (s.bufs x).next_dirty = no)
    (hpx : po ≠ some x) (hnx : no ≠ some x)
    (hpn : ∀ z, po = some z → no ≠ some z) :
    (∀ y, y ≠ x →
      ((updBuf (BufferC.sync_one_buffer cfg
          (updBuf s x fun b => { b with locked := true }) x) x
          fun b => { b with locked := false }).bufs y).prev_dirty =
        (if no = some y then po else (s.bufs y).prev_dirty) ∧
      ((updBuf (BufferC.sync_one_buffer cfg
          (updBuf s x fun b => { b with locked := true }) x) x
          fun b => { b with locked := false }).bufs y).next_dirty =
        (if po = some y then no else (s.bufs y).next_dirty)) ∧
    (updBuf (BufferC.sync_one_buffer cfg
        (updBuf s x fun b => { b with locked := true }) x) x
        fun b => { b with locked := false }).dirtyHead =
      (if s.dirtyHead = some x then no else s.dirtyHead) := by
  have hkey : BufferC.sync_one_buffer cfg
      (updBuf s x fun b => { b with locked := true }) x =
      BufferC.remove_from_dirty_list
        { updBuf s x fun b => { b with locked := true } with
          log := (updBuf s x fun b => { b with locked := true }).log ++
            [DevEvent.writeB
              ((updBuf s x fun b => { b with locked := true }).bufs x).dev
              ((updBuf s x fun b => { b with locked := true }).bufs x).block
              ((updBuf s x fun b => { b with locked := true }).bufs x).size] } x := by
    have hupd : ((updBuf s x fun b => { b with locked := true }).bufs x) =
        { s.bufs x with locked := true } := by
      rw [updBuf_bufs, if_pos rfl]
    unfold BufferC.sync_one_buffer
    split
    · split
      · dsimp only
        split
        · rename_i hlt
          rw [hupd] at hlt
          dsimp only at hlt
          exact absurd hres (not_le.mpr hlt)
        · rfl
      · rename_i hnw
        rw [hupd] at hnw
        dsimp only at hnw
        exact absurd hw hnw
    · rename_i hnr
      rw [hupd] at hnr
      dsimp only at hnr
      exact absurd hreg hnr
  have hrm := @remove_links
    { updBuf s x fun b => { b with locked := true } with
      log := (updBuf s x fun b => { b with locked := true }).log ++
        [DevEvent.writeB
          ((updBuf s x fun b => { b with locked := true }).bufs x).dev
          ((updBuf s x fun b => { b with locked := true }).bufs x).block
          ((updBuf s x fun b => { b with locked := true }).bufs x).size] } x po no
    (by show ((updBuf s x fun b => { b with locked := true }).bufs x).prev_dirty = po
        rw [updBuf_bufs, if_pos rfl]
        exact hprev)
    (by show ((updBuf s x fun b => { b with locked := true }).bufs x).next_dirty = no
        rw [updBuf_bufs, if_pos rfl]
        exact hnext)
    hpx hnx hpn
  refine ⟨fun y hyx => ?_, ?_⟩
  · have h1 := (hrm.1 y hyx).1
    have h2 := (hrm.1 y hyx).2
    constructor
    · rw [updBuf_bufs, if_neg hyx, hkey, h1]
      by_cases hc : no = some y
      · rw [if_pos hc, if_pos hc]
      · rw [if_neg hc, if_neg hc]
        show ((updBuf s x fun b => { b with locked := true }).bufs y).prev_dirty = _
        rw [updBuf_bufs, if_neg hyx]
    · rw [updBuf_bufs, if_neg hyx, hkey, h2]
      by_cases hc : po = some y
      · rw [if_pos hc, if_pos hc]
      · rw [if_neg hc, if_neg hc]
        show ((updBuf s x fun b => { b with locked := true }).bufs y).next_dirty = _
        rw [updBuf_bufs, if_neg hyx]
  · show (BufferC.sync_one_buffer cfg
      (updBuf s x fun b => { b with locked := true }) x).dirtyHead = _
    rw [hkey, hrm.2]
    rfl

theorem head_mem_of_eq {α : Type _} {l : List α} {a : α} (h : l.head? = some a) :
    a ∈ l := by
  cases l with
  | nil => simp at h
  | cons b t =>
      have hba : b = a := by simpa using h
      rw [← hba]
      exact List.mem_cons_self b t

/-- A walk over a chain none of whose entries matches the device leaves the
state untouched. -/
theorem sync_loop_skip {cfg : Cfg} {d : Nat} :
    ∀ (l : List Nat) (fuel : Nat) (s : St) (p : Option Nat),
      Dll s p l →
      (∀ b ∈ l, ¬(d = 0 ∨ (s.bufs b).dev = d)) →
      l.length ≤ fuel →
      BufferC.sync_loop cfg d fuel l.head? s = some s := by
  intro l
  induction l with
  | nil =>
      intro fuel s p _ _ _
      show BufferC.sync_loop cfg d fuel none s = some s
      cases fuel with
      | zero => rw [BufferC.sync_loop]
      | succ f => rw [BufferC.sync_loop]
  | cons x rest ih =>
      intro fuel s p hdll hmatch hfuel
      cases fuel with
      | zero => exact absurd hfuel (by simp)
      | succ f =>
          show BufferC.sync_loop cfg d (f + 1) (some x) s = some s
          rw [BufferC.sync_loop]
          dsimp only
          rw [if_neg (hmatch x (List.mem_cons_self x rest))]
          rw [hdll.2.1]
          exact ih f s (some x) hdll.2.2
            (fun b hb => hmatch b (List.mem_cons_of_mem x hb))
            (by simpa using Nat.le_of_succ_le_succ hfuel)

/-- The full effect of one `sync_buffers` walk over a well-formed dirty
chain, all of whose matching entries are unlocked and write back
successfully: the walk completes, drains every matching entry, and leaves a
well-formed chain of exactly the non-matching ones.  `p` is the chain
predecessor of the walked segment (`none` for a walk from the head). -/
theorem sync_loop_drain {cfg : Cfg} {d : Nat} :
    ∀ (l₂ : List Nat) (fuel : Nat) (s : St) (p : Option Nat),
      Dll s p l₂ →
      l₂.Nodup →
      (∀ p₀, p = some p₀ → p₀ ∉ l₂) →
      (∀ p₀, p = some p₀ → (s.bufs p₀).next_dirty = l₂.head?) →
      (p = none → s.dirtyHead = l₂.head?) →
      (∀ p₀, p = some p₀ → ∀ b ∈ l₂, s.dirtyHead ≠ some b) →
      (∀ b ∈ l₂, (s.bufs b).locked = false) →
      (∀ b ∈ l₂, (d = 0 ∨ (s.bufs b).dev = d) →
        cfg.registered (s.bufs b).dev = true ∧ cfg.hasWrite (s.bufs b).dev = true ∧
        0 ≤ cfg.writeResult (s.bufs b).dev (s.bufs b).block) →
      l₂.length ≤ fuel →
      ∃ s' l₂',
        BufferC.sync_loop cfg d fuel l₂.head? s = some s' ∧
        Dll s' p l₂' ∧
        l₂'.length ≤ l₂.length ∧
        (∀ b ∈ l₂', b ∈ l₂ ∧ ¬(d = 0 ∨ (s.bufs b).dev = d)) ∧
        (∀ y, (s'.bufs y).dev = (s.bufs y).dev ∧ (s'.bufs y).block = (s.bufs y).block ∧
          (s'.bufs y).locked = (s.bufs y).locked) ∧
        (∀ y, y ∉ l₂ → (∀ p₀, p = some p₀ → y ≠ p₀) →
          (s'.bufs y).prev_dirty = (s.bufs y).prev_dirty ∧
          (s'.bufs y).next_dirty = (s.bufs y).next_dirty) ∧
        (∀ p₀, p = some p₀ → (s'.bufs p₀).prev_dirty = (s.bufs p₀).prev_dirty ∧
          (s'.bufs p₀).next_dirty = l₂'.head?) ∧
        (p = none → s'.dirtyHead = l₂'.head?) ∧
        (p.isSome = true → s'.dirtyHead = s.dirtyHead) := by
  intro l₂
  induction l₂ with
  | nil =>
      intro fuel s p _ _ _ hpnext hheadn _ _ _ _
      refine ⟨s, [], ?_, trivial, le_refl 0, fun b hb => absurd hb (List.not_mem_nil b),
        fun y => ⟨rfl, rfl, rfl⟩, fun y _ _ => ⟨rfl, rfl⟩,
        fun p₀ hp => ⟨rfl, hpnext p₀ hp⟩, fun hp => hheadn hp, fun _ => rfl⟩
      show BufferC.sync_loop cfg d fuel none s = some s
      cases fuel with
      | zero => rw [BufferC.sync_loop]
      | succ f => rw [BufferC.sync_loop]
  | cons x rest ih =>
      intro fuel s p hdll hnd hpout hpnext hheadn hheads hunl hgood hfuel
      have hxmem : x ∈ x :: rest := List.mem_cons_self x rest
      have hxrest : x ∉ rest := (List.nodup_cons.mp hnd).1
      have hndrest : rest.Nodup := (List.nodup_cons.mp hnd).2
      cases fuel with
      | zero => exact absurd hfuel (by simp)
      | succ f =>
          by_cases hm : d = 0 ∨ (s.bufs x).dev = d
          · -- matching head of the segment: it is written back and removed
            obtain ⟨hreg, hw, hres⟩ := hgood x hxmem hm
            have hpx : p ≠ some x := by
              intro hc
              exact hpout x hc hxmem
            have hnx : rest.head? ≠ some x := fun hc => hxrest (head_mem_of_eq hc)
            have hpn : ∀ z, p = some z → rest.head? ≠ some z := fun z hz hc =>
              hpout z hz (List.mem_cons_of_mem x (head_mem_of_eq hc))
            have heff := @sync_step_effects cfg s x p rest.head?
              hreg hw hres hdll.1 hdll.2.1 hpx hnx hpn
            have hsc := sameCore_sync_step cfg s x (hunl x hxmem)
            -- the chain of the post-round state is `rest`, preceded by `p`
            have hdll3 : Dll (updBuf (BufferC.sync_one_buffer cfg
                (updBuf s x fun b => { b with locked := true }) x) x
                fun b => { b with locked := false }) p rest := by
              cases hr : rest with
              | nil => exact trivial
              | cons r0 rest' =>
                  have hr0 : r0 ∈ rest := by rw [hr]; exact List.mem_cons_self r0 rest'
                  have hr0x : r0 ≠ x := fun hc => hxrest (hc ▸ hr0)
                  have hdtl : Dll s (some x) (r0 :: rest') := by rw [← hr]; exact hdll.2.2
                  refine ⟨?_, ?_, ?_⟩
                  · rw [(heff.1 r0 hr0x).1, hr]
                    rw [if_pos (show (r0 :: rest').head? = some r0 from rfl)]
                  · rw [(heff.1 r0 hr0x).2, if_neg ?_]
                    · exact hdtl.2.1
                    · intro hc
                      exact hpout r0 hc (List.mem_cons_of_mem x hr0)
                  · refine dll_congr rest' (some r0) ?_ hdtl.2.2
                    intro y hy
                    have hyrest : y ∈ rest := by
                      rw [hr]; exact List.mem_cons_of_mem r0 hy
                    have hyx : y ≠ x := fun hc => hxrest (hc ▸ hyrest)
                    have hyr0 : y ≠ r0 := by
                      intro hc
                      have hnd' : (r0 :: rest').Nodup := by rw [← hr]; exact hndrest
                      exact (List.nodup_cons.mp hnd').1 (hc ▸ hy)
                    constructor
                    · rw [(heff.1 y hyx).1, if_neg ?_]
                      rw [hr]
                      intro hc
                      have hry : r0 = y := by simpa using hc
                      exact hyr0 hry.symm
                    · rw [(heff.1 y hyx).2, if_neg ?_]
                      intro hc
                      exact hpout y hc (List.mem_cons_of_mem x hyrest)
            have hrec := ih f (updBuf (BufferC.sync_one_buffer cfg
                (updBuf s x fun b => { b with locked := true }) x) x
                fun b => { b with locked := false }) p hdll3 hndrest
              (fun p₀ hp => fun hc => hpout p₀ hp (List.mem_cons_of_mem x hc))
              (fun p₀ hp => by
                have hp0x : p₀ ≠ x := fun hc => hpout p₀ hp (hc ▸ hxmem)
                rw [(heff.1 p₀ hp0x).2, if_pos (by rw [hp])])
              (fun hp => by
                have hcond : s.dirtyHead = some x := by rw [hheadn hp]; rfl
                rw [heff.2, if_pos hcond])
              (fun p₀ hp b hb => by
                rw [heff.2, if_neg (hheads p₀ hp x hxmem)]
                exact hheads p₀ hp b (List.mem_cons_of_mem x hb))
              (fun b hb => by
                rw [(hsc.2.2.2 b).2.2.2.2.2.1]
                exact hunl b (List.mem_cons_of_mem x hb))
              (fun b hb hmb => by
                rw [(hsc.2.2.2 b).1, (hsc.2.2.2 b).2.1]
                refine hgood b (List.mem_cons_of_mem x hb) ?_
                rcases hmb with h0 | hdev
                · exact Or.inl h0
                · exact Or.inr (by rw [← (hsc.2.2.2 b).1]; exact hdev))
              (by
                have := Nat.le_of_succ_le_succ hfuel
                simpa using this)
            obtain ⟨s', rest', hloop, hdll', hlen', hmem', hflags', hout', hconn',
              hheadn', hheads'⟩ := hrec
            refine ⟨s', rest', ?_, hdll', ?_, ?_, ?_, ?_, ?_, ?_, ?_⟩
            · show BufferC.sync_loop cfg d (f + 1) (some x) s = some s'
              rw [BufferC.sync_loop]
              dsimp only
              rw [if_pos hm, if_neg (by rw [hunl x hxmem]; exact Bool.false_ne_true)]
              rw [hdll.2.1]
              exact hloop
            · exact le_trans hlen' (by simp)
            · intro b hb
              obtain ⟨hb1, hb2⟩ := hmem' b hb
              refine ⟨List.mem_cons_of_mem x hb1, ?_⟩
              intro hc
              refine hb2 ?_
              rcases hc with h0 | hdev
              · exact Or.inl h0
              · exact Or.inr (by rw [(hsc.2.2.2 b).1]; exact hdev)
            · intro y
              obtain ⟨f1, f2, f3⟩ := hflags' y
              exact ⟨f1.trans (hsc.2.2.2 y).1, f2.trans (hsc.2.2.2 y).2.1,
                f3.trans (hsc.2.2.2 y).2.2.2.2.2.1⟩
            · intro y hy hyp
              have hyx : y ≠ x := fun hc => hy (hc ▸ hxmem)
              have hyrest : y ∉ rest := fun hc => hy (List.mem_cons_of_mem x hc)
              obtain ⟨g1, g2⟩ := hout' y hyrest hyp
              constructor
              · rw [g1, (heff.1 y hyx).1, if_neg ?_]
                intro hc
                exact hyrest (head_mem_of_eq hc)
              · rw [g2, (heff.1 y hyx).2, if_neg ?_]
                intro hc
                exact (hyp _ hc).symm rfl
            · intro p₀ hp
              have hp0x : p₀ ≠ x := fun hc => hpout p₀ hp (hc ▸ hxmem)
              have hp0rest : p₀ ∉ rest := fun hc =>
                hpout p₀ hp (List.mem_cons_of_mem x hc)
              obtain ⟨g1, g2⟩ := hconn' p₀ hp
              constructor
              · rw [g1, (heff.1 p₀ hp0x).1, if_neg ?_]
                intro hc
                exact hp0rest (head_mem_of_eq hc)
              · exact g2
            · intro hp
              exact hheadn' hp
            · intro hp
              rw [hheads' hp, heff.2, if_neg ?_]
              obtain ⟨p₀, hp₀⟩ := Option.isSome_iff_exists.mp hp
              exact hheads p₀ hp₀ x hxmem
          · -- non-matching head: it is kept, the walk moves on
            have hrec := ih f s (some x) hdll.2.2 hndrest
              (fun p₀ hp => by
                have hxp : x = p₀ := by simpa using hp
                subst hxp
                exact hxrest)
              (fun p₀ hp => by
                have hxp : x = p₀ := by simpa using hp
                subst hxp
                exact hdll.2.1)
              (fun hc => nomatch hc)
              (fun p₀ hp b hb => by
                have hxp : x = p₀ := by simpa using hp
                subst hxp
                cases hpc : p with
                | none =>
                    rw [hheadn hpc]
                    intro hc
                    have hxb : x = b := by simpa using hc
                    exact hxrest (hxb ▸ hb)
                | some q =>
                    exact hheads q hpc b (List.mem_cons_of_mem x hb))
              (fun b hb => hunl b (List.mem_cons_of_mem x hb))
              (fun b hb => hgood b (List.mem_cons_of_mem x hb))
              (by
                have := Nat.le_of_succ_le_succ hfuel
                simpa using this)
            obtain ⟨s', rest', hloop, hdll', hlen', hmem', hflags', hout', hconn',
              hheadn', hheads'⟩ := hrec
            refine ⟨s', x :: rest', ?_, ?_, ?_, ?_, hflags', ?_, ?_, ?_, ?_⟩
            · show BufferC.sync_loop cfg d (f + 1) (some x) s = some s'
              rw [BufferC.sync_loop]
              dsimp only
              rw [if_neg hm]
              rw [hdll.2.1]
              exact hloop
            · exact ⟨(hconn' x rfl).1.trans hdll.1, (hconn' x rfl).2, hdll'⟩
            · simpa using Nat.succ_le_succ hlen'
            · intro b hb
              rcases List.mem_cons.mp hb with hbx | hbr
              · subst hbx
                exact ⟨hxmem, hm⟩
              · obtain ⟨hb1, hb2⟩ := hmem' b hbr
                exact ⟨List.mem_cons_of_mem x hb1, hb2⟩
            · intro y hy hyp
              have hyx : y ≠ x := fun hc => hy (hc ▸ hxmem)
              exact hout' y (fun hc => hy (List.mem_cons_of_mem x hc))
                (fun p₀ hp => by
                  have : p₀ = x := by simpa using hp.symm
                  subst this
                  exact hyx)
            · intro p₀ hp
              have hp0x : p₀ ≠ x := fun hc => hpout p₀ hp (hc ▸ hxmem)
              have hp0rest : p₀ ∉ rest := fun hc =>
                hpout p₀ hp (List.mem_cons_of_mem x hc)
              obtain ⟨g1, g2⟩ := hout' p₀ hp0rest (fun q hq => by
                have : q = x := by simpa using hq.symm
                subst this
                exact hp0x)
              exact ⟨g1, g2.trans ((hpnext p₀ hp).trans rfl)⟩
            · intro hp
              subst hp
              rw [hheads' rfl, hheadn rfl]
              rfl
            · intro hp
              exact hheads' rfl

/-- C6, amended: when the dirty list is a well-formed chain of unlocked
entries and every write the walk issues succeeds, `sync_buffers(d)` followed
immediately by `sync_buffers(d)` returns the same state after the second
call as after the first: the second call issues no device write and has no
effect at all.  (An entry whose write-back fails stays dirty and is written
again by the second call, refuting the unconditional claim.) -/
theorem c6_sync_idempotent {cfg : Cfg} {d : Nat} {s : St} {l : List Nat}
    {fuel₁ fuel₂ : Nat}
    (hh : s.dirtyHead = l.head?) (hdll : Dll s none l) (hnd : l.Nodup)
    (hunl : ∀ b ∈ l, (s.bufs b).locked = false)
    (hgood : ∀ b ∈ l, (d = 0 ∨ (s.bufs b).dev = d) →
      cfg.registered (s.bufs b).dev = true ∧ cfg.hasWrite (s.bufs b).dev = true ∧
      0 ≤ cfg.writeResult (s.bufs b).dev (s.bufs b).block)
    (hf1 : l.length ≤ fuel₁) (hf2 : l.length ≤ fuel₂) :
    ∃ s1, BufferC.sync_buffers cfg d fuel₁ s = some s1 ∧
      BufferC.sync_buffers cfg d fuel₂ s1 = some s1 := by
  obtain ⟨s1, l', hloop, hdll', hlen', hmem', hflags', hout', hconn', hheadn', hheads'⟩ :=
    sync_loop_drain l fuel₁ s none hdll hnd (fun p₀ hp => nomatch hp)
      (fun p₀ hp => nomatch hp) (fun _ => hh) (fun p₀ hp => nomatch hp) hunl hgood hf1
  refine ⟨s1, ?_, ?_⟩
  · unfold BufferC.sync_buffers
    rw [hh]
    exact hloop
  · unfold BufferC.sync_buffers
    rw [hheadn' rfl]
    refine sync_loop_skip l' fuel₂ s1 none hdll' ?_ (hlen'.trans hf2)
    intro b hb hc
    refine (hmem' b hb).2 ?_
    rcases hc with h0 | hdev
    · exact Or.inl h0
    · exact Or.inr (by rw [← (hflags' b).1]; exact hdev)

/-- A device whose reads succeed but whose writes always fail. -/
def cfg6 : Cfg where
  numBuffers := 1
  nrBufHash := 1
  numPages := 1
  nrPageHash := 1
  nrBufReclaim := 1
  allocSupply := 1
  registered := fun _ => true
  hasRead := fun _ => true
  hasWrite := fun _ => true
  readResult := fun _ _ => 0
  readData := fun _ _ _ => 0
  writeResult := fun _ _ => -1
  bmap := fun _ _ _ => 1

/-- `bread(1,7,1024)` on the fresh failing-disk cache: buffer 0 is held. -/
def c6s0 : St :=
  ((BufferC.bread cfg6 (BufferC.buffer_init cfg6) 1 7 1024).getD
    (none, BufferC.emptySt)).2

/-- The buffer is marked dirty and released. -/
def c6pre : St := BufferC.bwrite c6s0 0

/-- First `sync_buffers(1)`: the write is issued and fails. -/
def c6s1 : St := (BufferC.sync_buffers cfg6 1 2 c6pre).getD BufferC.emptySt

/-- Second `sync_buffers(1)`. -/
def c6s2 : St := (BufferC.sync_buffers cfg6 1 2 c6s1).getD BufferC.emptySt

/-- Counterexample to the unconditional C6: when the device write fails, the
entry stays dirty on the dirty list and the immediately following
`sync_buffers(1)` issues a second `write_block` for it. -/
theorem c6_counterexample :
    Reachable cfg6 c6pre ∧
    BufferC.sync_buffers cfg6 1 2 c6pre = some c6s1 ∧
    BufferC.sync_buffers cfg6 1 2 c6s1 = some c6s2 ∧
    c6s2.log = c6s1.log ++ [DevEvent.writeB 1 7 1024] := by
  refine ⟨?_, rfl, rfl, by decide⟩
  exact Reachable.step (Reachable.step Reachable.init
      (Step.breadS 1 7 1024 (some 0) (BufferC.buffer_init cfg6) c6s0 rfl))
    (Step.bwriteS 0 c6s0 (by decide) (by decide))

/-- A dirty, released block `(1,7)` on the well-behaved two-buffer cache. -/
def c6w : St := BufferC.bwrite c5pre 1

theorem c6_witness :
    c6w.dirtyHead = some 1 ∧ (c6w.bufs 1).dirty = true ∧
    ∃ s1, BufferC.sync_buffers cfgW 1 2 c6w = some s1 ∧
      BufferC.sync_buffers cfgW 1 2 s1 = some s1 := by
  refine ⟨by decide, by decide, ?_⟩
  exact @c6_sync_idempotent cfgW 1 c6w [1] 2 2 (by decide)
    ⟨by decide, by decide, trivial⟩ (by decide) (by decide) (by decide)
    (by decide) (by decide)

/-! ### Invalidate-then-read (C7) -/

theorem inv_step_frame (cfg : Cfg) (d : Nat) (s : St) (b : Nat) :
    ∀ x, ((BufferC.inv_step cfg d s b).bufs x).dev = (s.bufs x).dev ∧
      (((BufferC.inv_step cfg d s b).bufs x).locked = true →
        (s.bufs x).locked = true) := by
  intro x
  unfold BufferC.inv_step
  split
  · dsimp only
    rw [updBuf_bufs]
    by_cases hxb : x = b
    · rw [if_pos hxb]
      exact ⟨rfl, fun hc => nomatch hc⟩
    · rw [if_neg hxb]
      exact ⟨rfl, fun hc => hc⟩
  · exact ⟨rfl, fun hc => hc⟩

/-- The invalidation scan: once it has run over `l`, any entry still hashed
is either outside `l` and of another device, or of another device. -/
theorem inv_scan {cfg : Cfg} {d : Nat} :
    ∀ (l : List Nat) (s : St),
      HashWF cfg s →
      (∀ x, x < cfg.numBuffers → (s.bufs x).dev = d → (s.bufs x).locked = false) →
      (∀ a ∈ l, a < cfg.numBuffers) →
      (∀ i, ∀ b ∈ s.hashT i, b ∈ l ∨ (s.bufs b).dev ≠ d) →
      ∀ i, ∀ b ∈ (l.foldl (BufferC.inv_step cfg d) s).hashT i,
        ((l.foldl (BufferC.inv_step cfg d) s).bufs b).dev ≠ d := by
  intro l
  induction l with
  | nil =>
      intro s _ _ _ hinv i b hb
      rcases hinv i b hb with h | h
      · exact absurd h (List.not_mem_nil b)
      · exact h
  | cons a l' ih =>
      intro s hH hunl hmem hinv
      have ha : a < cfg.numBuffers := hmem a (List.mem_cons_self a l')
      have hfr := inv_step_frame cfg d s a
      refine ih (BufferC.inv_step cfg d s a) (hashWF_inv_step d a hH) ?_ ?_ ?_
      · intro x hx hdev
        have hdev0 : (s.bufs x).dev = d := by rw [← (hfr x).1]; exact hdev
        cases hc : ((BufferC.inv_step cfg d s a).bufs x).locked
        · rfl
        · exact absurd ((hfr x).2 hc) (by rw [hunl x hx hdev0]; exact Bool.false_ne_true)
      · intro x hx
        exact hmem x (List.mem_cons_of_mem a hx)
      · intro i b hb
        revert hb
        unfold BufferC.inv_step
        split
        · rename_i hcond
          intro hb
          have hb' : b ∈ (BufferC.remove_from_hash cfg s a).hashT i := hb
          have hba : b ≠ a := by
            intro hc
            subst hc
            exact remove_from_hash_gone b hH i hb'
          have hbs : b ∈ s.hashT i := remove_from_hash_mem hb'
          rcases hinv i b hbs with h | h
          · rcases List.mem_cons.mp h with h' | h'
            · exact absurd h' hba
            · exact Or.inl h'
          · refine Or.inr ?_
            intro hc
            refine h ?_
            have hc' : ((updBuf (BufferC.remove_from_hash cfg s a) a fun x =>
                { x with valid := false, locked := false }).bufs b).dev = d := hc
            rw [updBuf_bufs, if_neg hba] at hc'
            exact hc'
        · intro hb
          rcases hinv i b hb with h | h
          · rcases List.mem_cons.mp h with h' | h'
            · subst h'
              rename_i hcond
              by_cases hdev : (s.bufs b).dev = d
              · exact absurd ⟨by
                  rw [hunl b ha hdev]
                  exact Bool.false_ne_true, hdev⟩ hcond
              · exact Or.inr hdev
            · exact Or.inl h'
          · exact Or.inr h

/-- After `invalidate_buffers(d)` on a state whose device-`d` entries are
all unlocked, no hashed entry belongs to device `d` any more. -/
theorem invalidate_unhashes {cfg : Cfg} {s : St} (d : Nat)
    (hH : HashWF cfg s)
    (hlt : ∀ i, ∀ b ∈ s.hashT i, b < cfg.numBuffers)
    (hunl : ∀ x, x < cfg.numBuffers → (s.bufs x).dev = d → (s.bufs x).locked = false) :
    ∀ i, ∀ b ∈ (BufferC.invalidate_buffers cfg d s).hashT i,
      ((BufferC.invalidate_buffers cfg d s).bufs b).dev ≠ d := by
  unfold BufferC.invalidate_buffers
  exact inv_scan (List.range cfg.numBuffers) s hH hunl
    (fun a ha => List.mem_range.mp ha)
    (fun i b hb => Or.inl (List.mem_range.mpr (hlt i b hb)))

theorem sync_one_log (cfg : Cfg) (s : St) (b : Nat) :
    ∃ w, (BufferC.sync_one_buffer cfg s b).log = s.log ++ w := by
  unfold BufferC.sync_one_buffer
  split
  · split
    · dsimp only
      split
      · exact ⟨[DevEvent.writeB (s.bufs b).dev (s.bufs b).block (s.bufs b).size], rfl⟩
      · refine ⟨[DevEvent.writeB (s.bufs b).dev (s.bufs b).block (s.bufs b).size], ?_⟩
        exact ((remove_from_dirty_list_ghost _ b).2).trans rfl
    · exact ⟨[], (List.append_nil s.log).symm⟩
  · exact ⟨[], (List.append_nil s.log).symm⟩

/-- A `getblk` that misses the hash hands out either `NULL` or a rebound,
not-`VALID` victim, and only ever logs (at most) one write-back. -/
theorem getblk_miss {cfg : Cfg} {t : St} {d bl sz : Nat} {r : Option Nat} {sg : St}
    (hs : BufferC.search_buffer_hash cfg t d bl sz = none)
    (he : BufferC.getblk cfg t d bl sz = some (r, sg)) :
    r = none ∨ ∃ b0 w, r = some b0 ∧ (sg.bufs b0).valid = false ∧
      sg.log = t.log ++ w := by
  unfold BufferC.getblk at he
  rw [hs] at he
  dsimp only at he
  cases hg : BufferC.get_free_buffer t with
  | none => rw [hg] at he; simp at he
  | some pr =>
      obtain ⟨b0, s1⟩ := pr
      rw [hg] at he
      dsimp only at he
      obtain ⟨tl, hfl, hlk, hs1⟩ := get_free_buffer_eq hg
      have hs1log : s1.log = t.log := by rw [hs1]; rfl
      by_cases hd : (s1.bufs b0).dirty
      · rw [if_pos hd] at he
        injection he with he1
        have hr : _ = r := congrArg Prod.fst he1
        have hst : _ = sg := congrArg Prod.snd he1
        obtain ⟨w, hw⟩ := sync_one_log cfg s1 b0
        refine Or.inr ⟨b0, w, hr.symm, ?_, ?_⟩
        · rw [← hst]
          rw [getblk_rebind_bufs, if_pos rfl]
        · rw [← hst]
          show (BufferC.sync_one_buffer cfg s1 b0).log = t.log ++ w
          rw [hw, hs1log]
      · rw [if_neg hd] at he
        by_cases hdat : (s1.bufs b0).data.isSome
        · rw [if_pos hdat] at he
          injection he with he1
          have hr : _ = r := congrArg Prod.fst he1
          have hst : _ = sg := congrArg Prod.snd he1
          refine Or.inr ⟨b0, [], hr.symm, ?_, ?_⟩
          · rw [← hst]
            rw [getblk_rebind_bufs, if_pos rfl]
          · rw [← hst]
            show s1.log = t.log ++ []
            rw [hs1log, List.append_nil]
        · rw [if_neg hdat] at he
          by_cases hsup : s1.allocSupply = 0
          · rw [if_pos hsup] at he
            injection he with he1
            exact Or.inl (congrArg Prod.fst he1).symm
          · rw [if_neg hsup] at he
            injection he with he1
            have hr : _ = r := congrArg Prod.fst he1
            have hst : _ = sg := congrArg Prod.snd he1
            refine Or.inr ⟨b0, [], hr.symm, ?_, ?_⟩
            · rw [← hst]
              rw [getblk_rebind_bufs, if_pos rfl]
            · rw [← hst]
              show s1.log = t.log ++ []
              rw [hs1log, List.append_nil]

/-- A `bread` that misses the hash and hands back a buffer always went to
the device: a `read_block` call (its log event) closes the interaction. -/
theorem bread_miss_reads {cfg : Cfg} {t : St} {d bl sz : Nat} {b : Nat} {s' : St}
    (hs : BufferC.search_buffer_hash cfg t d bl sz = none)
    (he : BufferC.bread cfg t d bl sz = some (some b, s')) :
    ∃ w, s'.log = t.log ++ w ++ [DevEvent.readB d bl sz] := by
  unfold BufferC.bread at he
  by_cases hreg : cfg.registered d
  · rw [if_pos hreg] at he
    cases hgb : BufferC.getblk cfg t d bl sz with
    | none => rw [hgb] at he; simp at he
    | some pr =>
        obtain ⟨rb, s1⟩ := pr
        rw [hgb] at he
        rcases getblk_miss hs hgb with hnone | ⟨b0, w, hrb, hval, hlog⟩
        · subst hnone
          dsimp only at he
          injection he with he1
          exact absurd (congrArg Prod.fst he1) (by simp)
        · subst hrb
          dsimp only at he
          have hv1 : ¬((s1.bufs b0).valid = true) := by
            rw [hval]
            exact Bool.false_ne_true
          rw [if_neg hv1] at he
          by_cases hr2 : cfg.hasRead d
          · rw [if_pos hr2] at he
            by_cases hrr : 0 ≤ cfg.readResult d bl
            · rw [if_pos hrr] at he
              have hc : ((updBuf { s1 with log := s1.log ++ [DevEvent.readB d bl sz] } b0
                  fun x => { x with
                    data := some (memcpy_b (dataD x.data) 0 (cfg.readData d bl) sz),
                    valid := true }).bufs b0).valid = true := by
                rw [updBuf_bufs, if_pos rfl]
              rw [if_pos hc] at he
              injection he with he1
              have hst : _ = s' := congrArg Prod.snd he1
              refine ⟨w, ?_⟩
              rw [← hst]
              show s1.log ++ [DevEvent.readB d bl sz] = t.log ++ w ++ [DevEvent.readB d bl sz]
              rw [hlog]
            · rw [if_neg hrr] at he
              have hc : ¬(({ s1 with
                  log := s1.log ++ [DevEvent.readB d bl sz] } : St).bufs b0).valid = true := hv1
              rw [if_neg hc] at he
              injection he with he1
              exact absurd (congrArg Prod.fst he1) (by simp)
          · rw [if_neg hr2] at he
            rw [if_neg hv1] at he
            injection he with he1
            exact absurd (congrArg Prod.fst he1) (by simp)
  · rw [if_neg hreg] at he
    injection he with he1
    exact absurd (congrArg Prod.fst he1) (by simp)

/-- C7: on any reachable state whose device-`d` buffer entries are all
unlocked, after `invalidate_buffers(d)` a completed `bread(d, bl, sz)` that
returns a buffer ends with a fresh `read_block(d, bl, sz)` device call (the
invalidation removed every device-`d` entry from the hash, so the prior
cached copy cannot be returned). -/
theorem c7_invalidate_then_read {cfg : Cfg} {s : St} {d bl sz : Nat} {b : Nat} {s' : St}
    (hreach : Reachable cfg s)
    (hunl : ∀ x, x < cfg.numBuffers → (s.bufs x).dev = d → (s.bufs x).locked = false)
    (he : BufferC.bread cfg (BufferC.invalidate_buffers cfg d s) d bl sz
      = some (some b, s')) :
    ∃ w, s'.log = (BufferC.invalidate_buffers cfg d s).log ++ w
      ++ [DevEvent.readB d bl sz] := by
  have hH := hashWF_reachable hreach
  have hlfi := lfi_reachable hreach
  have hnohash := invalidate_unhashes d hH hlfi.2.2.1 hunl
  have hs : BufferC.search_buffer_hash cfg
      (BufferC.invalidate_buffers cfg d s) d bl sz = none := by
    unfold BufferC.search_buffer_hash
    rw [List.find?_eq_none]
    intro x hx
    have hdev := hnohash _ x hx
    simp only [Bool.and_eq_true, beq_iff_eq]
    intro hc
    exact hdev hc.1.1
  exact bread_miss_reads hs he

theorem foldl_insert_misc :
    ∀ (l : List Nat) (s : St),
      (l.foldl (fun s' b => BufferC.insert_on_free_list s' b) s).kbuffers = s.kbuffers ∧
      (l.foldl (fun s' b => BufferC.insert_on_free_list s' b) s).log = s.log ∧
      (l.foldl (fun s' b => BufferC.insert_on_free_list s' b) s).allocSupply
        = s.allocSupply := by
  intro l
  induction l with
  | nil => intro s; exact ⟨rfl, rfl, rfl⟩
  | cons b t ih =>
      intro s
      rw [List.foldl_cons]
      obtain ⟨ih1, ih2, ih3⟩ := ih (BufferC.insert_on_free_list s b)
      have hfr := insert_on_free_list_frame s b
      exact ⟨ih1.trans hfr.2.2.2.1, ih2.trans hfr.2.2.2.2.2.1,
        ih3.trans hfr.2.2.2.2.2.2.1⟩

theorem buffer_init_kbuffers (cfg : Cfg) : (BufferC.buffer_init cfg).kbuffers = 0 :=
  (foldl_insert_misc (List.range cfg.numBuffers)
    { BufferC.emptySt with allocSupply := cfg.allocSupply }).1

theorem buffer_init_log (cfg : Cfg) : (BufferC.buffer_init cfg).log = [] :=
  (foldl_insert_misc (List.range cfg.numBuffers)
    { BufferC.emptySt with allocSupply := cfg.allocSupply }).2.1

theorem buffer_init_allocSupply (cfg : Cfg) :
    (BufferC.buffer_init cfg).allocSupply = cfg.allocSupply :=
  (foldl_insert_misc (List.range cfg.numBuffers)
    { BufferC.emptySt with allocSupply := cfg.allocSupply }).2.2

/-- `brelse` of a `VALID` buffer puts it at the tail of the free list. -/
theorem brelse_tail {s : St} {b : Nat} (hv : (s.bufs b).valid = true) :
    (BufferC.brelse s b).freeList = s.freeList ++ [b] := by
  obtain ⟨s1, hsc, heq⟩ := brelse_eq s b
  rw [heq]
  show (BufferC.insert_on_free_list s1 b).freeList = _
  rw [insert_on_free_list_valid s1 b (by rw [(hsc.2.2.2 b).2.2.2.2.1]; exact hv)]
  show s1.freeList ++ [b] = s.freeList ++ [b]
  rw [hsc.1]

/-- The two-buffer cache after `bread(1,7,1024)`, `brelse`,
`invalidate_buffers(1)`. -/
def c7t : St := BufferC.invalidate_buffers cfgW 1 c5rel

/-- The next `bread(1,7,1024)`: it must go to the device again. -/
def c7res : Option Nat × St :=
  (BufferC.bread cfgW c7t 1 7 1024).getD (none, BufferC.emptySt)

theorem c7_witness :
    (∀ x, x < cfgW.numBuffers → (c5rel.bufs x).dev = 1 → (c5rel.bufs x).locked = false) ∧
    BufferC.bread cfgW c7t 1 7 1024 = some (some 1, c7res.2) ∧
    ∃ w, c7res.2.log = c7t.log ++ w ++ [DevEvent.readB 1 7 1024] := by
  refine ⟨by decide, rfl, ?_⟩
  exact c7_invalidate_then_read
    (Reachable.step (Reachable.step Reachable.init
      (Step.breadS 1 7 1024 (some 1) (BufferC.buffer_init cfgW) c5pre rfl))
      (Step.brelseS 1 c5pre (by decide) (by decide)))
    (by decide) rfl

/-! ### The cold-read scenario (C8) -/

/-- The intermediate state of a cold read: the free-list head popped and
locked (for a two-buffer table, `m = 1`, the pop orphans the remaining
entry and the free list comes back empty). -/
def c8S1 (cfg : Cfg) (m : Nat) : St :=
  updBuf { BufferC.buffer_init cfg with
    freeList := if (List.range m).reverse.length = 1 then [] else (List.range m).reverse } m
    fun x => { x with locked := true }

/-- The victim with a freshly allocated (zeroed) frame; the counters are
updated. -/
def c8S3 (cfg : Cfg) (m : Nat) : St :=
  { updBuf (c8S1 cfg m) m (fun x => { x with data := some fun _ => 0 }) with
    allocSupply :=
      (updBuf (c8S1 cfg m) m fun x => { x with data := some fun _ => 0 }).allocSupply - 1,
    kbuffers :=
      (updBuf (c8S1 cfg m) m fun x => { x with data := some fun _ => 0 }).kbuffers
        + (PAGE_SIZE / 1024 : Nat) }

/-- The state `getblk` hands back: the victim rebound to `(1, 7, 1024)`. -/
def c8G (cfg : Cfg) (m : Nat) : St :=
  (BufferC.getblk_rebind cfg (c8S3 cfg m) m 1 7 1024).2

/-- The state `bread` hands back: the device bytes read into the frame. -/
def c8Final (cfg : Cfg) (m : Nat) : St :=
  updBuf { c8G cfg m with log := (c8G cfg m).log ++ [DevEvent.readB 1 7 1024] } m
    fun x => { x with
      data := some (memcpy_b (dataD x.data) 0 (cfg.readData 1 7) 1024),
      valid := true }

/-- C8, amended: on freshly initialised caches with `N = m + 1` buffers, a
working device and an available frame, `bread(1, 7, 1024)` issues exactly
one `read_block(1,7,1024)` call and hands back entry `m` with `VALID` set;
at that point the entry is still held (`LOCKED`, off the free list) — it
goes to the free-list tail only when the caller releases it — and
`kstat.buffers` grows by one frame, i.e. `PAGE_SIZE/1024` KiB (4), not 1. -/
theorem c8_cold_read {cfg : Cfg} {m : Nat}
    (hN : cfg.numBuffers = m + 1)
    (hreg : cfg.registered 1 = true)
    (hrd : cfg.hasRead 1 = true)
    (hrr : 0 ≤ cfg.readResult 1 7)
    (hsup : cfg.allocSupply ≠ 0) :
    ∃ s', BufferC.bread cfg (BufferC.buffer_init cfg) 1 7 1024
        = some (some m, s') ∧
      s'.log = [DevEvent.readB 1 7 1024] ∧
      (s'.bufs m).valid = true ∧
      (s'.bufs m).locked = true ∧
      m ∉ s'.freeList ∧
      s'.kbuffers = ((PAGE_SIZE / 1024 : Nat) : Int) ∧
      (BufferC.brelse s' m).freeList = s'.freeList ++ [m] := by
  have hbufs := buffer_init_bufs cfg
  have hfl : (BufferC.buffer_init cfg).freeList = m :: (List.range m).reverse := by
    rw [buffer_init_freeList, hN, List.range_succ, List.reverse_append]
    rfl
  have hsearch : BufferC.search_buffer_hash cfg (BufferC.buffer_init cfg) 1 7 1024
      = none := by
    unfold BufferC.search_buffer_hash
    rw [buffer_init_hashT]
    rfl
  have hgf : BufferC.get_free_buffer (BufferC.buffer_init cfg) =
      some (m, c8S1 cfg m) := by
    unfold BufferC.get_free_buffer
    rw [hfl]
    dsimp only
    rw [if_neg (show ¬((BufferC.buffer_init cfg).bufs m).locked = true by
      rw [congrFun hbufs m]
      exact Bool.false_ne_true)]
    rw [remove_from_free_list_eq, hfl, List.erase_cons_head]
    rfl
  have hS1m : ((c8S1 cfg m).bufs m) = { ({} : Buffer) with locked := true } := by
    show ((updBuf { BufferC.buffer_init cfg with
      freeList := if (List.range m).reverse.length = 1 then []
        else (List.range m).reverse } m
      fun x => { x with locked := true }).bufs m) = _
    rw [updBuf_bufs, if_pos rfl]
    show ({ (BufferC.buffer_init cfg).bufs m with locked := true } : Buffer) = _
    rw [congrFun hbufs m]
  have hgb : BufferC.getblk cfg (BufferC.buffer_init cfg) 1 7 1024 =
      some (some m, c8G cfg m) := by
    unfold BufferC.getblk
    rw [hsearch]
    dsimp only
    rw [hgf]
    dsimp only
    rw [if_neg (show ¬((c8S1 cfg m).bufs m).dirty = true by
      rw [hS1m]; exact Bool.false_ne_true)]
    rw [if_neg (show ¬((c8S1 cfg m).bufs m).data.isSome = true by
      rw [hS1m]; exact Bool.false_ne_true)]
    rw [if_neg (show ¬(c8S1 cfg m).allocSupply = 0 from ?_)]
    · rfl
    · show ¬(BufferC.buffer_init cfg).allocSupply = 0
      rw [buffer_init_allocSupply]
      exact hsup
  have hvG : ((c8G cfg m).bufs m).valid = false := by
    show ((BufferC.getblk_rebind cfg (c8S3 cfg m) m 1 7 1024).2.bufs m).valid = false
    rw [getblk_rebind_bufs, if_pos rfl]
  have hbread : BufferC.bread cfg (BufferC.buffer_init cfg) 1 7 1024 =
      some (some m, c8Final cfg m) := by
    unfold BufferC.bread
    rw [if_pos hreg, hgb]
    dsimp only
    rw [if_neg (show ¬((c8G cfg m).bufs m).valid = true by
      rw [hvG]; exact Bool.false_ne_true)]
    rw [if_pos hrd, if_pos hrr]
    have hc : ((updBuf { c8G cfg m with
        log := (c8G cfg m).log ++ [DevEvent.readB 1 7 1024] } m
        fun x => { x with
          data := some (memcpy_b (dataD x.data) 0 (cfg.readData 1 7) 1024),
          valid := true }).bufs m).valid = true := by
      rw [updBuf_bufs, if_pos rfl]
    rw [if_pos hc]
    rfl
  have hlog : (c8Final cfg m).log = [DevEvent.readB 1 7 1024] := by
    show (c8G cfg m).log ++ [DevEvent.readB 1 7 1024] = _
    have hGlog : (c8G cfg m).log = [] := by
      show (BufferC.buffer_init cfg).log = []
      exact buffer_init_log cfg
    rw [hGlog]
    rfl
  have hvalid : ((c8Final cfg m).bufs m).valid = true := by
    show ((updBuf { c8G cfg m with
        log := (c8G cfg m).log ++ [DevEvent.readB 1 7 1024] } m
        fun x => { x with
          data := some (memcpy_b (dataD x.data) 0 (cfg.readData 1 7) 1024),
          valid := true }).bufs m).valid = true
    rw [updBuf_bufs, if_pos rfl]
  have hlocked : ((c8Final cfg m).bufs m).locked = true := by
    show ((updBuf { c8G cfg m with
        log := (c8G cfg m).log ++ [DevEvent.readB 1 7 1024] } m
        fun x => { x with
          data := some (memcpy_b (dataD x.data) 0 (cfg.readData 1 7) 1024),
          valid := true }).bufs m).locked = true
    rw [updBuf_bufs, if_pos rfl]
    show ((c8G cfg m).bufs m).locked = true
    show ((BufferC.getblk_rebind cfg (c8S3 cfg m) m 1 7 1024).2.bufs m).locked = true
    rw [getblk_rebind_bufs, if_pos rfl]
    show ((updBuf (c8S1 cfg m) m fun x =>
      { x with data := some fun _ => 0 }).bufs m).locked = true
    rw [updBuf_bufs, if_pos rfl]
    show ((c8S1 cfg m).bufs m).locked = true
    rw [hS1m]
  have hoff : m ∉ (c8Final cfg m).freeList := by
    show m ∉ (if (List.range m).reverse.length = 1 then ([] : List Nat)
      else (List.range m).reverse)
    refine emptied_not_mem ?_
    rw [List.mem_reverse, List.mem_range]
    exact lt_irrefl m
  have hkb : (c8Final cfg m).kbuffers = ((PAGE_SIZE / 1024 : Nat) : Int) := by
    show (BufferC.buffer_init cfg).kbuffers + ((PAGE_SIZE / 1024 : Nat) : Int)
      = ((PAGE_SIZE / 1024 : Nat) : Int)
    rw [buffer_init_kbuffers]
    exact zero_add _
  exact ⟨c8Final cfg m, hbread, hlog, hvalid, hlocked, hoff, hkb,
    brelse_tail hvalid⟩

/-- The concrete cold read on the two-buffer cache. -/
def c8s : St :=
  ((BufferC.bread cfgW (BufferC.buffer_init cfgW) 1 7 1024).getD
    (none, BufferC.emptySt)).2

/-- Counterexample to C8 as stated: after the cold read, `kstat.buffers` is
`PAGE_SIZE/1024 = 4` KiB (one frame), not 1, and the returned entry is held
(`LOCKED`, off the free list), not released onto the free-list tail. -/
theorem c8_counterexample :
    BufferC.bread cfgW (BufferC.buffer_init cfgW) 1 7 1024 = some (some 1, c8s) ∧
    c8s.kbuffers = 4 ∧ ¬c8s.kbuffers = 1 ∧
    (c8s.bufs 1).locked = true ∧ 1 ∉ c8s.freeList ∧
    c8s.log = [DevEvent.readB 1 7 1024] ∧ (c8s.bufs 1).valid = true :=
  ⟨rfl, by decide, by decide, by decide, by decide, by decide, by decide⟩

theorem c8_witness :
    cfgW.numBuffers = 1 + 1 ∧ cfgW.registered 1 = true ∧ cfgW.hasRead 1 = true ∧
    0 ≤ cfgW.readResult 1 7 ∧ cfgW.allocSupply ≠ 0 ∧
    (∃ s', BufferC.bread cfgW (BufferC.buffer_init cfgW) 1 7 1024
        = some (some 1, s') ∧
      s'.log = [DevEvent.readB 1 7 1024] ∧
      (s'.bufs 1).valid = true ∧
      (s'.bufs 1).locked = true ∧
      1 ∉ s'.freeList ∧
      s'.kbuffers = ((PAGE_SIZE / 1024 : Nat) : Int) ∧
      (BufferC.brelse s' 1).freeList = s'.freeList ++ [1]) :=
  ⟨rfl, rfl, rfl, by decide, by decide,
    c8_cold_read rfl rfl rfl (by decide) (by decide)⟩

/-! ### Failed write-back of a recycled dirty victim (C9) -/

/-- A write-back that cannot reach the device (unregistered device, missing
method, or failing write) leaves everything but the log untouched. -/
theorem sync_one_fail {cfg : Cfg} {X : St} {v : Nat}
    (hfail : cfg.registered (X.bufs v).dev = false ∨
      cfg.hasWrite (X.bufs v).dev = false ∨
      cfg.writeResult (X.bufs v).dev (X.bufs v).block < 0) :
    ∃ w, BufferC.sync_one_buffer cfg X v = { X with log := X.log ++ w } := by
  unfold BufferC.sync_one_buffer
  split
  · split
    · dsimp only
      split
      · exact ⟨[DevEvent.writeB (X.bufs v).dev (X.bufs v).block (X.bufs v).size], rfl⟩
      · rename_i hr hw hlt
        rcases hfail with h | h | h
        · rw [h] at hr
          exact absurd hr (by simp)
        · rw [h] at hw
          exact absurd hw (by simp)
        · exact absurd h hlt
    · exact ⟨[], by rw [List.append_nil]⟩
  · exact ⟨[], by rw [List.append_nil]⟩

/-- A reachable device always receives the write (successful or not): the
log grows by exactly the `write_block` call for the buffer's key. -/
theorem sync_one_logs {cfg : Cfg} {X : St} {v : Nat}
    (hr : cfg.registered (X.bufs v).dev = true)
    (hw : cfg.hasWrite (X.bufs v).dev = true) :
    (BufferC.sync_one_buffer cfg X v).log =
      X.log ++ [DevEvent.writeB (X.bufs v).dev (X.bufs v).block (X.bufs v).size] := by
  unfold BufferC.sync_one_buffer
  rw [if_pos hr, if_pos hw]
  dsimp only
  split
  · rfl
  · exact ((remove_from_dirty_list_ghost _ v).2).trans rfl

/-- C9: when `getblk` recycles a free-list victim that is `DIRTY` and the
synchronous write-back cannot reach the device (or fails), the entry is
nevertheless rebound to the requested key with its old data, still `DIRTY`
and still linked on the dirty list — so a later write-back of this entry
sends a `write_block` for the new key (with the old contents). -/
theorem c9_failed_writeback_rebind {cfg : Cfg} {s : St} {v : Nat} {t : List Nat}
    {d2 bl2 sz2 : Nat}
    (hfl : s.freeList = v :: t)
    (hlk : (s.bufs v).locked = false)
    (hdirty : (s.bufs v).dirty = true)
    (hsearch : BufferC.search_buffer_hash cfg s d2 bl2 sz2 = none)
    (hfail : cfg.registered (s.bufs v).dev = false ∨
      cfg.hasWrite (s.bufs v).dev = false ∨
      cfg.writeResult (s.bufs v).dev (s.bufs v).block < 0)
    (hreg2 : cfg.registered d2 = true) (hw2 : cfg.hasWrite d2 = true) :
    ∃ s₂, BufferC.getblk cfg s d2 bl2 sz2 = some (some v, s₂) ∧
      (s₂.bufs v).dev = d2 ∧ (s₂.bufs v).block = bl2 ∧ (s₂.bufs v).size = sz2 ∧
      (s₂.bufs v).dirty = true ∧
      (s₂.bufs v).data = (s.bufs v).data ∧
      (s₂.bufs v).prev_dirty = (s.bufs v).prev_dirty ∧
      (s₂.bufs v).next_dirty = (s.bufs v).next_dirty ∧
      s₂.dirtyHead = s.dirtyHead ∧
      (BufferC.sync_one_buffer cfg s₂ v).log =
        s₂.log ++ [DevEvent.writeB d2 bl2 sz2] := by
  have hgf : BufferC.get_free_buffer s =
      some (v, updBuf { s with freeList := if t.length = 1 then [] else t } v fun x => { x with locked := true }) := by
    unfold BufferC.get_free_buffer
    rw [hfl]
    dsimp only
    rw [if_neg (show ¬(s.bufs v).locked = true by rw [hlk]; exact Bool.false_ne_true)]
    rw [remove_from_free_list_eq, hfl, List.erase_cons_head]
  have hS1v : ((updBuf { s with freeList := if t.length = 1 then [] else t } v
      fun x => { x with locked := true }).bufs v) = { s.bufs v with locked := true } := by
    rw [updBuf_bufs, if_pos rfl]
  have hdirty1 : ((updBuf { s with freeList := if t.length = 1 then [] else t } v
      fun x => { x with locked := true }).bufs v).dirty = true := by
    rw [hS1v]
    exact hdirty
  have hfail1 : cfg.registered ((updBuf { s with freeList := if t.length = 1 then [] else t } v
        fun x => { x with locked := true }).bufs v).dev = false ∨
      cfg.hasWrite ((updBuf { s with freeList := if t.length = 1 then [] else t } v
        fun x => { x with locked := true }).bufs v).dev = false ∨
      cfg.writeResult ((updBuf { s with freeList := if t.length = 1 then [] else t } v
          fun x => { x with locked := true }).bufs v).dev
        ((updBuf { s with freeList := if t.length = 1 then [] else t } v
          fun x => { x with locked := true }).bufs v).block < 0 := by
    rw [hS1v]
    exact hfail
  obtain ⟨w, hsync⟩ := sync_one_fail hfail1
  have hgb : BufferC.getblk cfg s d2 bl2 sz2 =
      some (some v, (BufferC.getblk_rebind cfg
        (BufferC.sync_one_buffer cfg
          (updBuf { s with freeList := if t.length = 1 then [] else t } v fun x => { x with locked := true }) v)
        v d2 bl2 sz2).2) := by
    unfold BufferC.getblk
    rw [hsearch]
    dsimp only
    rw [hgf]
    dsimp only
    rw [if_pos hdirty1]
    rfl
  have hGv2 : ((BufferC.getblk_rebind cfg
      (BufferC.sync_one_buffer cfg
        (updBuf { s with freeList := if t.length = 1 then [] else t } v fun x => { x with locked := true }) v)
      v d2 bl2 sz2).2.bufs v) =
      { s.bufs v with
          locked := true
          dev := d2
          block := bl2
          size := sz2
          valid := false } := by
    rw [getblk_rebind_bufs, if_pos rfl, hsync]
    show ({ (updBuf { s with freeList := if t.length = 1 then [] else t } v fun x =>
        { x with locked := true }).bufs v with
          dev := d2
          block := bl2
          size := sz2
          valid := false } : Buffer) = _
    rw [hS1v]
  refine ⟨_, hgb, ?_, ?_, ?_, ?_, ?_, ?_, ?_, ?_, ?_⟩
  · rw [hGv2]
  · rw [hGv2]
  · rw [hGv2]
  · rw [hGv2]; exact hdirty
  · rw [hGv2]
  · rw [hGv2]
  · rw [hGv2]
  · show (BufferC.sync_one_buffer cfg
      (updBuf { s with freeList := if t.length = 1 then [] else t } v fun x => { x with locked := true }) v).dirtyHead
      = s.dirtyHead
    rw [hsync]
    rfl
  · rw [sync_one_logs (by rw [hGv2]; exact hreg2) (by rw [hGv2]; exact hw2), hGv2]

theorem c9_witness :
    c6pre.freeList = 0 :: [] ∧ (c6pre.bufs 0).dirty = true ∧
    cfg6.writeResult (c6pre.bufs 0).dev (c6pre.bufs 0).block < 0 ∧
    (∃ s₂, BufferC.getblk cfg6 c6pre 2 9 1024 = some (some 0, s₂) ∧
      (s₂.bufs 0).dev = 2 ∧ (s₂.bufs 0).block = 9 ∧ (s₂.bufs 0).size = 1024 ∧
      (s₂.bufs 0).dirty = true ∧
      (s₂.bufs 0).data = (c6pre.bufs 0).data ∧
      (s₂.bufs 0).prev_dirty = (c6pre.bufs 0).prev_dirty ∧
      (s₂.bufs 0).next_dirty = (c6pre.bufs 0).next_dirty ∧
      s₂.dirtyHead = c6pre.dirtyHead ∧
      (BufferC.sync_one_buffer cfg6 s₂ 0).log =
        s₂.log ++ [DevEvent.writeB 2 9 1024]) := by
  refine ⟨rfl, by decide, by decide, ?_⟩
  exact c9_failed_writeback_rebind rfl (by decide) (by decide) (by decide)
    (Or.inr (Or.inr (by decide))) rfl rfl

/-! ### Reading past end-of-file (C10) -/

/-- C10: a `file_read` whose descriptor offset is at or past the inode's
size first clamps the stored offset to the file size and returns `0` bytes
read, leaving the state (page cache, buffer cache, device log) untouched. -/
theorem c10_read_past_eof {cfg : Cfg} {s : St} {ino fdoff count : Nat}
    (h : (s.inodes ino).i_size ≤ fdoff) :
    PageC.file_read cfg s ino fdoff count =
      some ⟨0, fun _ => 0, (s.inodes ino).i_size, s⟩ := by
  unfold PageC.file_read
  have hoff0 : (if fdoff > (s.inodes ino).i_size then (s.inodes ino).i_size else fdoff)
      = (s.inodes ino).i_size := by
    by_cases hc : fdoff > (s.inodes ino).i_size
    · rw [if_pos hc]
    · rw [if_neg hc]
      omega
  rw [hoff0]
  rw [PageC.file_read_loop]
  dsimp only
  have hcnt : (if (s.inodes ino).i_size + count > (s.inodes ino).i_size
      then (s.inodes ino).i_size - (s.inodes ino).i_size else count) = 0 := by
    by_cases hc : (s.inodes ino).i_size + count > (s.inodes ino).i_size
    · rw [if_pos hc]
      omega
    · rw [if_neg hc]
      omega
  rw [hcnt]
  rw [if_pos (rfl : (0 : Nat) = 0)]
  rfl

theorem c10_witness :
    ((BufferC.buffer_init cfgW).inodes 5).i_size ≤ 9 ∧
    PageC.file_read cfgW (BufferC.buffer_init cfgW) 5 9 7 =
      some ⟨0, fun _ => 0, ((BufferC.buffer_init cfgW).inodes 5).i_size,
        BufferC.buffer_init cfgW⟩ :=
  ⟨by decide, c10_read_past_eof (by decide)⟩

/-! ### Write-through coherency (C1)

The next lemmas analyse the page-cache side of `minix_file_write`: the
effect of `update_page_cache` on a page that is present in the hash, the
shape of `release_page`, and the byte-level overlay the per-chunk
`memcpy_b` calls accumulate on the cached frame. -/

theorem updPage_pages (s : St) (i : Nat) (f : Page → Page) (x : Nat) :
    (updPage s i f).pages x = if x = i then f (s.pages x) else s.pages x := rfl

theorem page_rfl_pages (s : St) (p : Nat) :
    (PageC.remove_from_free_list s p).pages = s.pages := by
  unfold PageC.remove_from_free_list
  split <;> rfl

theorem page_rfl_pageHash (s : St) (p : Nat) :
    (PageC.remove_from_free_list s p).pageHash = s.pageHash := by
  unfold PageC.remove_from_free_list
  split <;> rfl

theorem page_rfl_inodes (s : St) (p : Nat) :
    (PageC.remove_from_free_list s p).inodes = s.inodes := by
  unfold PageC.remove_from_free_list
  split <;> rfl

/-- Scanning a bucket with pointwise equal predicates finds the same entry. -/
theorem list_find_ext {α : Type} (f g : α → Bool) (l : List α)
    (h : ∀ a, f a = g a) : l.find? f = l.find? g := by
  induction l with
  | nil => rfl
  | cons a t ih =>
      simp only [List.find?]
      rw [h a]
      cases g a
      · exact ih
      · rfl

/-- `release_page` on a valid index whose count is positive always succeeds
and only decrements the count (besides moving the page within the free
list): frame bytes, key fields and the lock bit survive. -/
theorem release_page_facts {cfg : Cfg} {s : St} {p : Nat}
    (hp : p < cfg.numPages) (hcnt : ¬ (s.pages p).count = 0) :
    ∃ s', PageC.release_page cfg s p = some s' ∧
      s'.pageHash = s.pageHash ∧ s'.inodes = s.inodes ∧
      (∀ q, q ≠ p → s'.pages q = s.pages q) ∧
      (s'.pages p).pdata = (s.pages p).pdata ∧
      (s'.pages p).inode = (s.pages p).inode ∧
      (s'.pages p).offset = (s.pages p).offset ∧
      (s'.pages p).dev = (s.pages p).dev ∧
      (s'.pages p).locked = (s.pages p).locked := by
  have hqne : ∀ q, q ≠ p →
      (updPage s p fun x => { x with count := x.count - 1 }).pages q = s.pages q := by
    intro q hq
    rw [updPage_pages, if_neg hq]
  have hself : (updPage s p fun x => { x with count := x.count - 1 }).pages p
      = { s.pages p with count := (s.pages p).count - 1 } := by
    rw [updPage_pages, if_pos rfl]
  unfold PageC.release_page
  rw [if_pos hp, if_neg hcnt]
  dsimp only
  by_cases hpos : 0 < ((updPage s p fun x => { x with count := x.count - 1 }).pages p).count
  · rw [if_pos hpos]
    exact ⟨_, rfl, rfl, rfl, hqne, by rw [hself], by rw [hself], by rw [hself],
      by rw [hself], by rw [hself]⟩
  · rw [if_neg hpos]
    by_cases hi0 : ((PageC.insert_on_free_list
        (updPage s p fun x => { x with count := x.count - 1 }) p).pages p).inode = 0
    · rw [if_pos hi0]
      refine ⟨_, rfl, rfl, rfl, ?_, ?_, ?_, ?_, ?_, ?_⟩
      · intro q hq
        show (updPage s p fun x => { x with count := x.count - 1 }).pages q = s.pages q
        exact hqne q hq
      · show ((updPage s p fun x => { x with count := x.count - 1 }).pages p).pdata
          = (s.pages p).pdata
        rw [hself]
      · show ((updPage s p fun x => { x with count := x.count - 1 }).pages p).inode
          = (s.pages p).inode
        rw [hself]
      · show ((updPage s p fun x => { x with count := x.count - 1 }).pages p).offset
          = (s.pages p).offset
        rw [hself]
      · show ((updPage s p fun x => { x with count := x.count - 1 }).pages p).dev
          = (s.pages p).dev
        rw [hself]
      · show ((updPage s p fun x => { x with count := x.count - 1 }).pages p).locked
          = (s.pages p).locked
        rw [hself]
    · rw [if_neg hi0]
      refine ⟨_, rfl, rfl, rfl, ?_, ?_, ?_, ?_, ?_, ?_⟩
      · intro q hq
        show (updPage s p fun x => { x with count := x.count - 1 }).pages q = s.pages q
        exact hqne q hq
      · show ((updPage s p fun x => { x with count := x.count - 1 }).pages p).pdata
          = (s.pages p).pdata
        rw [hself]
      · show ((updPage s p fun x => { x with count := x.count - 1 }).pages p).inode
          = (s.pages p).inode
        rw [hself]
      · show ((updPage s p fun x => { x with count := x.count - 1 }).pages p).offset
          = (s.pages p).offset
        rw [hself]
      · show ((updPage s p fun x => { x with count := x.count - 1 }).pages p).dev
          = (s.pages p).dev
        rw [hself]
      · show ((updPage s p fun x => { x with count := x.count - 1 }).pages p).locked
          = (s.pages p).locked
        rw [hself]

/-- The hit path of `update_page_cache`: when the page bucket scan finds an
unlocked entry `p`, the call succeeds, the overlapping window of the frame
is overlaid from `src`, and everything else about the page cache (hash
chains, inode table, the other pages, `p`'s key and lock bit) is kept. -/
theorem upc_hit {cfg : Cfg} {s : St} {ino off chunk p : Nat} {src : Nat → Nat}
    (hfind : (s.pageHash (PageC.PAGE_HASH cfg ino (off - off % PAGE_SIZE))).find? (fun q =>
        (s.pages q).inode == ino && (s.pages q).offset == (off - off % PAGE_SIZE) &&
        (s.pages q).dev == (s.inodes ino).idev) = some p)
    (hp : p < cfg.numPages)
    (hlk : (s.pages p).locked = false)
    (hchunk : ¬ chunk = 0) :
    ∃ s', PageC.update_page_cache cfg s ino off src chunk = some s' ∧
      s'.pageHash = s.pageHash ∧ s'.inodes = s.inodes ∧
      (∀ q, q ≠ p → s'.pages q = s.pages q) ∧
      (s'.pages p).pdata = memcpy_b (s.pages p).pdata (off % PAGE_SIZE) src
        (min (PAGE_SIZE - off % PAGE_SIZE) chunk) ∧
      (s'.pages p).inode = (s.pages p).inode ∧
      (s'.pages p).offset = (s.pages p).offset ∧
      (s'.pages p).dev = (s.pages p).dev ∧
      (s'.pages p).locked = (s.pages p).locked := by
  have hs1pg : (if (s.pages p).count = 0 then PageC.remove_from_free_list s p
      else s).pages = s.pages := by
    split
    · exact page_rfl_pages s p
    · rfl
  have hs1ph : (if (s.pages p).count = 0 then PageC.remove_from_free_list s p
      else s).pageHash = s.pageHash := by
    split
    · exact page_rfl_pageHash s p
    · rfl
  have hs1in : (if (s.pages p).count = 0 then PageC.remove_from_free_list s p
      else s).inodes = s.inodes := by
    split
    · exact page_rfl_inodes s p
    · rfl
  have hsearch : PageC.search_page_hash cfg s ino (off - off % PAGE_SIZE)
      = some (p, updPage (if (s.pages p).count = 0 then PageC.remove_from_free_list s p
          else s) p fun x => { x with count := x.count + 1 }) := by
    unfold PageC.search_page_hash
    rw [hfind]
  have hS1p : ((updPage (if (s.pages p).count = 0 then PageC.remove_from_free_list s p
        else s) p fun x => { x with count := x.count + 1 }).pages p)
      = { s.pages p with count := (s.pages p).count + 1 } := by
    rw [updPage_pages, if_pos rfl, congrFun hs1pg p]
  have hnot : ¬ ((updPage (if (s.pages p).count = 0 then PageC.remove_from_free_list s p
      else s) p fun x => { x with count := x.count + 1 }).pages p).locked = true := by
    rw [hS1p]
    show ¬ (s.pages p).locked = true
    rw [hlk]
    exact Bool.false_ne_true
  have hupc : PageC.update_page_cache cfg s ino off src chunk
      = PageC.release_page cfg
          (updPage (updPage (updPage (updPage (if (s.pages p).count = 0
                then PageC.remove_from_free_list s p else s) p
              fun x => { x with count := x.count + 1 }) p
              fun x => { x with locked := true }) p
              fun x => { x with pdata := (memcpy_b x.pdata (off % PAGE_SIZE) src
                (min (PAGE_SIZE - off % PAGE_SIZE) chunk)) }) p
              fun x => { x with locked := false }) p := by
    unfold PageC.update_page_cache
    dsimp only
    rw [if_pos hchunk, hsearch]
    dsimp only
    rw [if_neg hnot]
  have hS4p : ((updPage (updPage (updPage (updPage (if (s.pages p).count = 0
            then PageC.remove_from_free_list s p else s) p
          fun x => { x with count := x.count + 1 }) p
          fun x => { x with locked := true }) p
          fun x => { x with pdata := (memcpy_b x.pdata (off % PAGE_SIZE) src
            (min (PAGE_SIZE - off % PAGE_SIZE) chunk)) }) p
          fun x => { x with locked := false }).pages p)
      = { s.pages p with
          count := (s.pages p).count + 1
          locked := false
          pdata := (memcpy_b (s.pages p).pdata (off % PAGE_SIZE) src
            (min (PAGE_SIZE - off % PAGE_SIZE) chunk)) } := by
    rw [updPage_pages, if_pos rfl, updPage_pages, if_pos rfl, updPage_pages, if_pos rfl,
      hS1p]
  rw [hupc]
  have hcnt4 : ¬ ((updPage (updPage (updPage (updPage (if (s.pages p).count = 0
          then PageC.remove_from_free_list s p else s) p
        fun x => { x with count := x.count + 1 }) p
        fun x => { x with locked := true }) p
        fun x => { x with pdata := (memcpy_b x.pdata (off % PAGE_SIZE) src
          (min (PAGE_SIZE - off % PAGE_SIZE) chunk)) }) p
        fun x => { x with locked := false }).pages p).count = 0 := by
    rw [hS4p]
    exact Nat.succ_ne_zero _
  obtain ⟨s', hrel, hph', hin', hfr', hpd', hino', hoff', hdev', hlk'⟩ :=
    release_page_facts hp hcnt4
  refine ⟨s', hrel, ?_, ?_, ?_, ?_, ?_, ?_, ?_, ?_⟩
  · rw [hph']
    exact hs1ph
  · rw [hin']
    exact hs1in
  · intro q hq
    rw [hfr' q hq, updPage_pages, if_neg hq, updPage_pages, if_neg hq, updPage_pages,
      if_neg hq, updPage_pages, if_neg hq]
    exact congrFun hs1pg q
  · rw [hpd', hS4p]
  · rw [hino', hS4p]
  · rw [hoff', hS4p]
  · rw [hdev', hS4p]
  · rw [hlk', hS4p]
    exact hlk.symm

/-- Patching the next `chunk` bytes extends an overlay of the first `total`
written bytes to an overlay of the first `total + chunk` written bytes. -/
theorem overlay_step (base src : Nat → Nat) (poff total bytes : Nat) :
    memcpy_b (fun k => if poff ≤ k ∧ k < poff + total then src (k - poff) else base k)
      (poff + total) (fun j => src (total + j)) bytes
    = fun k => if poff ≤ k ∧ k < poff + (total + bytes) then src (k - poff) else base k := by
  funext k
  unfold memcpy_b
  dsimp only
  by_cases h1 : poff + total ≤ k ∧ k < poff + total + bytes
  · rw [if_pos h1, if_pos (show poff ≤ k ∧ k < poff + (total + bytes) by omega)]
    have h2 : total + (k - (poff + total)) = k - poff := by omega
    rw [h2]
  · rw [if_neg h1]
    by_cases h3 : poff ≤ k ∧ k < poff + total
    · rw [if_pos h3, if_pos (show poff ≤ k ∧ k < poff + (total + bytes) by omega)]
    · rw [if_neg h3, if_neg (show ¬ (poff ≤ k ∧ k < poff + (total + bytes)) by omega)]

/-- A zero-byte `update_page_cache` is a no-op (`count` is checked first). -/
theorem upc_zero (cfg : Cfg) (t : St) (ino off : Nat) (src : Nat → Nat) :
    PageC.update_page_cache cfg t ino off src 0 = some t := by
  unfold PageC.update_page_cache
  dsimp only
  rw [if_neg (show ¬ ¬ (0 : Nat) = 0 from fun h => h rfl)]

/-- The `update_page_cache` call of one `minix_file_write` chunk, seen
through the loop invariant: in a state `t` whose page-cache lookup data
agree with the initial state `s` (same hash chains, same page keys and lock
bits, same inode table), the chunk at `off₀ + total` hits the cached page
`p` and overlays exactly `chunk` bytes at frame offset
`off₀ % PAGE_SIZE + total`, preserving all the lookup data. -/
theorem upc_hit_inv {cfg : Cfg} {s t : St} {ino off₀ total count chunk p : Nat}
    {src' : Nat → Nat} {r : Option St}
    (hequ : PageC.update_page_cache cfg t ino (off₀ + total) src' chunk = r)
    (hfind : (s.pageHash (PageC.PAGE_HASH cfg ino (off₀ - off₀ % PAGE_SIZE))).find? (fun q =>
        (s.pages q).inode == ino && (s.pages q).offset == (off₀ - off₀ % PAGE_SIZE) &&
        (s.pages q).dev == (s.inodes ino).idev) = some p)
    (hp : p < cfg.numPages)
    (hlk : (s.pages p).locked = false)
    (hph : t.pageHash = s.pageHash)
    (hin : t.inodes = s.inodes)
    (hflds : ∀ q, (t.pages q).inode = (s.pages q).inode ∧
      (t.pages q).offset = (s.pages q).offset ∧
      (t.pages q).dev = (s.pages q).dev ∧
      (t.pages q).locked = (s.pages q).locked)
    (hpage : off₀ % PAGE_SIZE + count ≤ PAGE_SIZE)
    (htl : total < count)
    (hchl : chunk ≤ count - total)
    (hchunk : ¬ chunk = 0) :
    ∃ s', r = some s' ∧ s'.pageHash = s.pageHash ∧ s'.inodes = s.inodes ∧
      (∀ q, (s'.pages q).inode = (s.pages q).inode ∧
        (s'.pages q).offset = (s.pages q).offset ∧
        (s'.pages q).dev = (s.pages q).dev ∧
        (s'.pages q).locked = (s.pages q).locked) ∧
      (s'.pages p).pdata = memcpy_b (t.pages p).pdata (off₀ % PAGE_SIZE + total)
        src' chunk := by
  have hP : PAGE_SIZE = 4096 := rfl
  have hmod : (off₀ + total) % PAGE_SIZE = off₀ % PAGE_SIZE + total := by
    rw [hP]
    rw [hP] at hpage
    omega
  have hoffA : off₀ + total - (off₀ + total) % PAGE_SIZE = off₀ - off₀ % PAGE_SIZE := by
    rw [hmod, hP]
    rw [hP] at hpage
    omega
  have hfind_t : (t.pageHash (PageC.PAGE_HASH cfg ino
        (off₀ + total - (off₀ + total) % PAGE_SIZE))).find? (fun q =>
      (t.pages q).inode == ino &&
      (t.pages q).offset == (off₀ + total - (off₀ + total) % PAGE_SIZE) &&
      (t.pages q).dev == (t.inodes ino).idev) = some p := by
    rw [hoffA, hph, hin]
    have hpred : ∀ a, ((t.pages a).inode == ino &&
        (t.pages a).offset == (off₀ - off₀ % PAGE_SIZE) &&
        (t.pages a).dev == (s.inodes ino).idev)
        = ((s.pages a).inode == ino &&
        (s.pages a).offset == (off₀ - off₀ % PAGE_SIZE) &&
        (s.pages a).dev == (s.inodes ino).idev) := by
      intro a
      obtain ⟨h1, h2, h3, _⟩ := hflds a
      rw [h1, h2, h3]
    rw [list_find_ext _ _ _ hpred]
    exact hfind
  have hlkt : (t.pages p).locked = false := (hflds p).2.2.2.trans hlk
  obtain ⟨s', hu, hph', hin', hfr', hpd', hino', hoff', hdev', hlk'⟩ :=
    upc_hit hfind_t hp hlkt hchunk
  rw [hu] at hequ
  refine ⟨s', hequ.symm, hph'.trans hph, hin'.trans hin, ?_, ?_⟩
  · intro q
    by_cases hq : q = p
    · subst hq
      exact ⟨hino'.trans (hflds q).1, hoff'.trans (hflds q).2.1,
        hdev'.trans (hflds q).2.2.1, hlk'.trans (hflds q).2.2.2⟩
    · rw [hfr' q hq]
      exact hflds q
  · rw [hpd', hmod]
    have hmin : min (PAGE_SIZE - (off₀ % PAGE_SIZE + total)) chunk = chunk := by
      refine Nat.min_eq_right ?_
      rw [hP]
      rw [hP] at hpage
      omega
    rw [hmin]

/-- Patching a buffer frame and writing the buffer back never touches the
page cache or the inode table. -/
theorem samePages_patch_bwrite (t : St) (b : Nat) (f : Buffer → Buffer) :
    SamePages t (BufferC.bwrite (updBuf t b f) b) :=
  samePages_trans ⟨rfl, rfl, rfl, rfl, rfl⟩ (samePages_bwrite (updBuf t b f) b)

/-- Invariant of the `minix_file_write` loop relative to the entry state
`s`: the page hash chains and every page's lookup key and lock bit are
unchanged, and the cached page `p` carries the first `total` written bytes
as an overlay at frame offset `poff` over its old contents. -/
def C1Inv (s : St) (p poff : Nat) (src : Nat → Nat) (total : Nat) (sc : St) : Prop :=
  sc.pageHash = s.pageHash ∧
  (∀ q, (sc.pages q).inode = (s.pages q).inode ∧
    (sc.pages q).offset = (s.pages q).offset ∧
    (sc.pages q).dev = (s.pages q).dev ∧
    (sc.pages q).locked = (s.pages q).locked) ∧
  (sc.pages p).pdata = fun k =>
    if poff ≤ k ∧ k < poff + total then src (k - poff) else (s.pages p).pdata k

/-- The `minix_file_write` loop maintains `C1Inv`: a completed run that
wrote all `count` bytes leaves the cached page overlaid with all of them,
keeps every page-lookup datum, preserves the inode's device and block size
and ends with the file size at least `off₀ + count`. -/
theorem c1_write_loop {cfg : Cfg} {s : St} {ino off₀ count p : Nat} {src : Nat → Nat}
    (hpage : off₀ % PAGE_SIZE + count ≤ PAGE_SIZE)
    (hfind : (s.pageHash (PageC.PAGE_HASH cfg ino (off₀ - off₀ % PAGE_SIZE))).find? (fun q =>
        (s.pages q).inode == ino && (s.pages q).offset == (off₀ - off₀ % PAGE_SIZE) &&
        (s.pages q).dev == (s.inodes ino).idev) = some p)
    (hp : p < cfg.numPages)
    (hlk : (s.pages p).locked = false) :
    ∀ fuel total sc res,
      total ≤ count →
      sc.inodes = s.inodes →
      C1Inv s p (off₀ % PAGE_SIZE) src total sc →
      MinixFileC.minix_file_write_loop cfg ino src count fuel total (off₀ + total) sc
        = some res →
      res.ret = (count : Int) →
      C1Inv s p (off₀ % PAGE_SIZE) src count res.st ∧
        (res.st.inodes ino).idev = (s.inodes ino).idev ∧
        (res.st.inodes ino).blocksize = (s.inodes ino).blocksize ∧
        off₀ + count ≤ (res.st.inodes ino).i_size := by
  intro fuel
  induction fuel with
  | zero =>
      intro total sc res _ _ _ he _
      rw [MinixFileC.minix_file_write_loop] at he
      exact Option.noConfusion he
  | succ fuel ih =>
      intro total sc res hle hin hinv he hret
      rw [MinixFileC.minix_file_write_loop] at he
      by_cases htl : total < count
      · rw [if_pos htl] at he
        dsimp only at he
        by_cases hblk : cfg.bmap ino (off₀ + total) true < 0
        · rw [if_pos hblk] at he
          injection he with he1
          rw [← he1] at hret
          dsimp only at hret
          omega
        · rw [if_neg hblk] at he
          split at he
          · exact Option.noConfusion he
          · rename_i s1 heqb
            injection he with he1
            rw [← he1] at hret
            dsimp only at hret
            have h5 : PageC.EIO = (5 : Int) := rfl
            rw [h5] at hret
            omega
          · rename_i b s1 heqb
            obtain ⟨hpg1, hpf1, hph1, hkc1, hin1⟩ := samePages_bread heqb
            have hflds1 : ∀ q, (s1.pages q).inode = (s.pages q).inode ∧
                (s1.pages q).offset = (s.pages q).offset ∧
                (s1.pages q).dev = (s.pages q).dev ∧
                (s1.pages q).locked = (s.pages q).locked := by
              intro q
              rw [hpg1]
              exact hinv.2.1 q
            have hphs1 : s1.pageHash = s.pageHash := hph1.trans hinv.1
            have hins1 : s1.inodes = s.inodes := hin1.trans hin
            by_cases hbz : min ((sc.inodes ino).blocksize
                - (off₀ + total) % (sc.inodes ino).blocksize) (count - total) = 0
            · rw [hbz, upc_zero] at he
              dsimp only at he
              simp only [Nat.add_zero] at he
              refine ih total _ res hle ?_ ?_ he hret
              · exact ((samePages_patch_bwrite s1 b _).2.2.2.2).trans hins1
              · refine ⟨((samePages_patch_bwrite s1 b _).2.2.1).trans hphs1, ?_, ?_⟩
                · intro q
                  rw [(samePages_patch_bwrite s1 b _).1]
                  exact hflds1 q
                · rw [(samePages_patch_bwrite s1 b _).1, hpg1]
                  exact hinv.2.2
            · split at he
              · exact Option.noConfusion he
              · rename_i s3 hequ
                obtain ⟨s', hr, hphN, hinN, hfldsN, hpdN⟩ :=
                  upc_hit_inv hequ hfind hp hlk hphs1 hins1 hflds1 hpage htl
                    (Nat.min_le_right _ _) hbz
                injection hr with hr1
                subst hr1
                obtain ⟨hpgW, hpfW, hphW, hkcW, hinW⟩ := samePages_bwrite s3 b
                have hpdN2 : (s3.pages p).pdata = memcpy_b (s1.pages p).pdata
                    (off₀ % PAGE_SIZE + total) (fun j => src (total + j))
                    (min ((sc.inodes ino).blocksize
                      - (off₀ + total) % (sc.inodes ino).blocksize) (count - total)) := hpdN
                rw [Nat.add_assoc] at he
                refine ih (total + min ((sc.inodes ino).blocksize
                    - (off₀ + total) % (sc.inodes ino).blocksize) (count - total))
                  (BufferC.bwrite s3 b) res ?_ (hinW.trans hinN) ⟨hphW.trans hphN, ?_, ?_⟩
                  he hret
                · have := Nat.min_le_right ((sc.inodes ino).blocksize
                    - (off₀ + total) % (sc.inodes ino).blocksize) (count - total)
                  omega
                · intro q
                  rw [hpgW]
                  exact hfldsN q
                · rw [hpgW, hpdN2, congrFun hpg1 p, hinv.2.2]
                  exact overlay_step (s.pages p).pdata src (off₀ % PAGE_SIZE) total _
      · rw [if_neg htl] at he
        dsimp only at he
        have htc : total = count := Nat.le_antisymm hle (Nat.not_lt.mp htl)
        subst htc
        by_cases hsz : off₀ + total > (sc.inodes ino).i_size
        · rw [if_pos hsz] at he
          injection he with he1
          subst he1
          refine ⟨hinv, ?_, ?_, ?_⟩
          · show ((if ino = ino then { sc.inodes ino with i_size := off₀ + total }
              else sc.inodes ino)).idev = (s.inodes ino).idev
            rw [if_pos rfl, hin]
          · show ((if ino = ino then { sc.inodes ino with i_size := off₀ + total }
              else sc.inodes ino)).blocksize = (s.inodes ino).blocksize
            rw [if_pos rfl, hin]
          · show off₀ + total ≤ ((if ino = ino then
              { sc.inodes ino with i_size := off₀ + total } else sc.inodes ino)).i_size
            rw [if_pos rfl]
        · rw [if_neg hsz] at he
          injection he with he1
          subst he1
          refine ⟨hinv, ?_, ?_, ?_⟩
          · exact congrArg InodeD.idev (congrFun hin ino)
          · exact congrArg InodeD.blocksize (congrFun hin ino)
          · exact Nat.le_of_not_lt hsz

/-- C1 (write-through coherency): a `minix_file_write` of `count` bytes at
offset `off₀` into a region whose page is present, unlocked, in the page
cache (the region lies within that one page) overlays the cached frame
chunk by chunk via `update_page_cache`, so a `file_read` of the same region
issued right after the write — with no `sync_buffers` in between — returns
exactly the newly written bytes. -/
theorem c1_write_read_coherent {cfg : Cfg} {s : St} {ino off₀ count p : Nat}
    {src : Nat → Nat} {res : MinixFileC.WRes}
    (hcount : 0 < count)
    (hpage : off₀ % PAGE_SIZE + count ≤ PAGE_SIZE)
    (hfind : (s.pageHash (PageC.PAGE_HASH cfg ino (off₀ - off₀ % PAGE_SIZE))).find? (fun q =>
        (s.pages q).inode == ino && (s.pages q).offset == (off₀ - off₀ % PAGE_SIZE) &&
        (s.pages q).dev == (s.inodes ino).idev) = some p)
    (hp : p < cfg.numPages)
    (hlk : (s.pages p).locked = false)
    (he : MinixFileC.minix_file_write cfg s ino off₀ false src count = some res)
    (hret : res.ret = (count : Int)) :
    ∃ fr : PageC.FRes, PageC.file_read cfg res.st ino off₀ count = some fr ∧
      fr.ret = (count : Int) ∧ ∀ j, j < count → fr.out j = src j := by
  unfold MinixFileC.minix_file_write at he
  dsimp only at he
  have hinv0 : C1Inv s p (off₀ % PAGE_SIZE) src 0 s := by
    refine ⟨rfl, fun q => ⟨rfl, rfl, rfl, rfl⟩, ?_⟩
    funext k
    rw [if_neg (show ¬ (off₀ % PAGE_SIZE ≤ k ∧ k < off₀ % PAGE_SIZE + 0) by omega)]
  obtain ⟨hinvf, hdev1, hbs1, hsz1⟩ :=
    c1_write_loop hpage hfind hp hlk (count + 1) 0 s res (Nat.zero_le count) rfl hinv0
      he hret
  unfold PageC.file_read
  dsimp only
  have hoff0 : (if off₀ > (res.st.inodes ino).i_size then (res.st.inodes ino).i_size
      else off₀) = off₀ := by
    rw [if_neg (show ¬ off₀ > (res.st.inodes ino).i_size by omega)]
  rw [hoff0, PageC.file_read_loop]
  dsimp only
  have hcnt1 : (if off₀ + count > (res.st.inodes ino).i_size
      then (res.st.inodes ino).i_size - off₀ else count) = count := by
    rw [if_neg (show ¬ off₀ + count > (res.st.inodes ino).i_size by omega)]
  rw [hcnt1, if_neg (show ¬ count = 0 by omega)]
  have hfind1 : (res.st.pageHash (PageC.PAGE_HASH cfg ino
        (off₀ - off₀ % PAGE_SIZE))).find? (fun q =>
      (res.st.pages q).inode == ino &&
      (res.st.pages q).offset == (off₀ - off₀ % PAGE_SIZE) &&
      (res.st.pages q).dev == (res.st.inodes ino).idev) = some p := by
    rw [hinvf.1, hdev1]
    have hpredR : ∀ a, ((res.st.pages a).inode == ino &&
        (res.st.pages a).offset == (off₀ - off₀ % PAGE_SIZE) &&
        (res.st.pages a).dev == (s.inodes ino).idev)
        = ((s.pages a).inode == ino &&
        (s.pages a).offset == (off₀ - off₀ % PAGE_SIZE) &&
        (s.pages a).dev == (s.inodes ino).idev) := by
      intro a
      obtain ⟨h1, h2, h3, _⟩ := hinvf.2.1 a
      rw [h1, h2, h3]
    rw [list_find_ext _ _ _ hpredR]
    exact hfind
  have hsearch1 : PageC.search_page_hash cfg res.st ino (off₀ - off₀ % PAGE_SIZE)
      = some (p, updPage (if (res.st.pages p).count = 0
          then PageC.remove_from_free_list res.st p else res.st) p
          fun x => { x with count := x.count + 1 }) := by
    unfold PageC.search_page_hash
    rw [hfind1]
  rw [hsearch1]
  dsimp only
  have hs1pg : (if (res.st.pages p).count = 0
      then PageC.remove_from_free_list res.st p else res.st).pages = res.st.pages := by
    split
    · exact page_rfl_pages _ p
    · rfl
  have hs1in : (if (res.st.pages p).count = 0
      then PageC.remove_from_free_list res.st p else res.st).inodes = res.st.inodes := by
    split
    · exact page_rfl_inodes _ p
    · rfl
  have hnot1 : ¬ ((updPage (if (res.st.pages p).count = 0
      then PageC.remove_from_free_list res.st p else res.st) p
      fun x => { x with count := x.count + 1 }).pages p).locked = true := by
    rw [updPage_pages, if_pos rfl, congrFun hs1pg p]
    show (res.st.pages p).locked ≠ true
    rw [(hinvf.2.1 p).2.2.2, hlk]
    exact Bool.false_ne_true
  rw [if_neg hnot1]
  have hbytes : min (PAGE_SIZE - off₀ % PAGE_SIZE) count = count := by
    refine Nat.min_eq_right ?_
    have hP : PAGE_SIZE = 4096 := rfl
    rw [hP]
    rw [hP] at hpage
    omega
  rw [hbytes]
  have hrc : ¬ ((updPage (updPage (if (res.st.pages p).count = 0
      then PageC.remove_from_free_list res.st p else res.st) p
      fun x => { x with count := x.count + 1 }) p
      fun x => { x with locked := true }).pages p).count = 0 := by
    rw [updPage_pages, if_pos rfl, updPage_pages, if_pos rfl, congrFun hs1pg p]
    exact Nat.succ_ne_zero _
  obtain ⟨s3, hrel, hph3, hin3, hfr3, hpd3, hino3, hoff3, hdev3, hlk3⟩ :=
    release_page_facts hp hrc
  rw [hrel]
  dsimp only
  have hpdS : ((updPage (updPage (if (res.st.pages p).count = 0
      then PageC.remove_from_free_list res.st p else res.st) p
      fun x => { x with count := x.count + 1 }) p
      fun x => { x with locked := true }).pages p).pdata = (res.st.pages p).pdata := by
    rw [updPage_pages, if_pos rfl, updPage_pages, if_pos rfl, congrFun hs1pg p]
  have hin3b : s3.inodes = res.st.inodes := hin3.trans
    (show (updPage (updPage (if (res.st.pages p).count = 0
        then PageC.remove_from_free_list res.st p else res.st) p
        fun x => { x with count := x.count + 1 }) p
        fun x => { x with locked := true }).inodes = res.st.inodes from hs1in)
  rw [Nat.zero_add, Nat.sub_self]
  obtain ⟨k, hk⟩ : ∃ k, count = k + 1 := ⟨count - 1, by omega⟩
  rw [hk, PageC.file_read_loop]
  dsimp only
  rw [Nat.add_zero]
  have hncond : ¬ ((updPage s3 p fun x => { x with locked := false }).inodes ino).i_size
      < off₀ + (k + 1) := by
    show ¬ (s3.inodes ino).i_size < off₀ + (k + 1)
    rw [hin3b, ← hk]
    omega
  rw [if_neg hncond, if_pos (rfl : (0 : Nat) = 0)]
  refine ⟨_, rfl, rfl, ?_⟩
  intro j hj
  show (if 0 ≤ j ∧ j < k + 1 then ((updPage (updPage (if (res.st.pages p).count = 0
      then PageC.remove_from_free_list res.st p else res.st) p
      fun x => { x with count := x.count + 1 }) p
      fun x => { x with locked := true }).pages p).pdata (off₀ % PAGE_SIZE + (j - 0))
      else (0 : Nat)) = src j
  rw [if_pos ⟨Nat.zero_le j, hj⟩, hpdS, hinvf.2.2]
  show (if off₀ % PAGE_SIZE ≤ off₀ % PAGE_SIZE + (j - 0) ∧
      off₀ % PAGE_SIZE + (j - 0) < off₀ % PAGE_SIZE + count
      then src (off₀ % PAGE_SIZE + (j - 0) - off₀ % PAGE_SIZE)
      else (s.pages p).pdata (off₀ % PAGE_SIZE + (j - 0))) = src j
  rw [if_pos (show off₀ % PAGE_SIZE ≤ off₀ % PAGE_SIZE + (j - 0) ∧
      off₀ % PAGE_SIZE + (j - 0) < off₀ % PAGE_SIZE + count by omega)]
  have hjj : off₀ % PAGE_SIZE + (j - 0) - off₀ % PAGE_SIZE = j := by omega
  rw [hjj]

/-- A concrete cache whose page 0 caches the first page of inode 5 on
device 1: the fresh buffer caches of `cfgW` with the page table, the page
hash and the inode table filled in by hand. -/
def c1s : St :=
  { BufferC.buffer_init cfgW with
    pages := fun q => if q = 0 then
      { pdata := fun _ => 0, inode := 5, dev := 1, offset := 0, count := 0,
        locked := false, reserved := false } else {}
    pageHash := fun i => if i = PageC.PAGE_HASH cfgW 5 0 then [0] else []
    inodes := fun j => if j = 5 then { idev := 1, i_size := 100, blocksize := 1024 }
      else {} }

/-- The three bytes 10, 11, 12 to be written. -/
def c1src : Nat → Nat := fun j => j + 10

/-- The completed write of those three bytes at offset 0 of inode 5. -/
def c1res : MinixFileC.WRes :=
  (MinixFileC.minix_file_write cfgW c1s 5 0 false c1src 3).getD ⟨0, 0, BufferC.emptySt⟩

theorem c1_witness :
    0 < 3 ∧ 0 % PAGE_SIZE + 3 ≤ PAGE_SIZE ∧
    (c1s.pageHash (PageC.PAGE_HASH cfgW 5 (0 - 0 % PAGE_SIZE))).find? (fun q =>
        (c1s.pages q).inode == 5 && (c1s.pages q).offset == (0 - 0 % PAGE_SIZE) &&
        (c1s.pages q).dev == (c1s.inodes 5).idev) = some 0 ∧
    0 < cfgW.numPages ∧ (c1s.pages 0).locked = false ∧
    MinixFileC.minix_file_write cfgW c1s 5 0 false c1src 3 = some c1res ∧
    c1res.ret = (3 : Int) ∧
    (∃ fr : PageC.FRes, PageC.file_read cfgW c1res.st 5 0 3 = some fr ∧
      fr.ret = (3 : Int) ∧ ∀ j, j < 3 → fr.out j = c1src j) := by
  refine ⟨by decide, by decide, by decide, by decide, by decide, rfl, by decide, ?_⟩
  exact @c1_write_read_coherent cfgW c1s 5 0 3 0 c1src c1res (by decide) (by decide)
    (by decide) (by decide) (by decide) rfl (by decide)

end Fiwix
